import Mathlib

/-!
Verification of the sharding-based-on-poh-dpos prototype.

This file gives a shallow embedding, in Lean 4, of the core data model and
operations of the repository (PoH hash chain, DPoS election, fork choice,
block confirmation, time sharding, cross-shard messaging, state sync,
transaction pool, shard rebalancing) and proves or refutes the frozen
claims about them.

Modelling conventions, used consistently below:
* Python `float` quantities (stakes, vote amounts, gas prices, wall-clock
  times) are modelled as exact integers (`Int`).  Every claim under study
  depends only on ordering and addition of these quantities, which `Int`
  carries faithfully; float rounding plays no role in any claim.
* Python `dict`s are modelled as insertion-ordered association lists
  (`List (κ × α)`); `setA` mirrors `d[k] = v` (update in place if the key
  exists, else append), `delA` mirrors `del d[k]`, `getA` mirrors
  `d.get(k, default)`.
* Python `set`s of strings are modelled as duplicate-free lists; adding is
  append-if-absent.  Where the source iterates over a set (an order the
  Python runtime does not specify), the model iterates over the list and
  no claim below depends on that order.
* `time.time()` is threaded explicitly as a `now` argument.
* Code that can raise is modelled with `Except`/`Option`; `none`/`.error`
  is the model of an uncaught Python exception.
* SHA-256 is modelled as a free constructor (`PohHash.step`), i.e. as a
  collision-free function; string digests of blocks are modelled by an
  injective string encoding of the digested fields.
* Python's stable `list.sort`/`sorted` is modelled by the stable insertion
  sort `sortS` (later elements are inserted after equal keys), and the
  binary min-heap `heapq` by its sorted-sequence abstraction: the queue is
  kept sorted ascending, so index 0 is the minimum (as for a heap) and
  popping removes the minimum (the contract of `heappop`).
-/

/-- Code-point lexicographic order on strings, mirroring Python `str`
comparison; written over `Char.toNat` so that the kernel can evaluate it. -/
def strLtB (a b : String) : Bool :=
  strLtChars a.data b.data
where
  strLtChars : List Char → List Char → Bool
    | [], [] => false
    | [], _ :: _ => true
    | _ :: _, [] => false
    | c :: cs, d :: ds =>
      if c.toNat < d.toNat then true
      else if c.toNat = d.toNat then strLtChars cs ds
      else false

/-- Non-strict string order `a ≤ b` (used for sorted lists of addresses). -/
def strLeB (a b : String) : Bool := strLtB a b || a == b

/-- Association-list lookup, mirroring Python `d[k]` / `k in d`. -/
def lookupA [DecidableEq κ] (m : List (κ × α)) (k : κ) : Option α :=
  match m.find? (fun p => decide (p.1 = k)) with
  | none => none
  | some p => some p.2

/-- Association-list lookup with default, mirroring Python `d.get(k, dflt)`. -/
def getA [DecidableEq κ] (m : List (κ × α)) (k : κ) (dflt : α) : α :=
  match lookupA m k with
  | none => dflt
  | some v => v

/-- Mirror of Python `d[k] = v`: replace in place when the key is present
(a CPython dict keeps the key's insertion position), append otherwise. -/
def setA [DecidableEq κ] (m : List (κ × α)) (k : κ) (v : α) : List (κ × α) :=
  if m.any (fun p => decide (p.1 = k)) then
    m.map (fun p => if p.1 = k then (k, v) else p)
  else m ++ [(k, v)]

/-- Mirror of Python `del d[k]` on a dict with unique keys. -/
def delA [DecidableEq κ] (m : List (κ × α)) (k : κ) : List (κ × α) :=
  m.filter (fun p => decide (p.1 ≠ k))

/-- Insert `x` after every element `y` with `le y x`: one step of the
stable insertion sort modelling Python's stable `sorted`. -/
def insertS (le : α → α → Bool) (x : α) : List α → List α
  | [] => [x]
  | y :: ys => if le y x then y :: insertS le x ys else x :: y :: ys

/-- Stable sort (later elements are placed after equal keys), the model of
Python's `sorted` / `list.sort`. -/
def sortS (le : α → α → Bool) (l : List α) : List α :=
  l.foldl (fun acc x => insertS le x acc) []

instance [DecidableEq ε] [DecidableEq α] : DecidableEq (Except ε α)
  | .error e, .error f => if h : e = f then isTrue (by rw [h]) else isFalse (by simp [h])
  | .error _, .ok _ => isFalse (by simp)
  | .ok _, .error _ => isFalse (by simp)
  | .ok a, .ok b => if h : a = b then isTrue (by rw [h]) else isFalse (by simp [h])

/-! ## blockchain.py -/

/-- Mirror of `Block` (blockchain.py). -/
structure Block where
  height : Int
  timestamp : Int
  previous_hash : String
  transactions : List String
  validator : String
  signature : String
  poh_hash : String
deriving DecidableEq

/-- Mirror of the `Block.hash` property: the SHA-256 digest of the
concatenation of every field except `signature`.  The digest is modelled
by an injective string encoding of exactly those fields. -/
def Block.hash (b : Block) : String :=
  "sha256:" ++ toString b.height ++ "|" ++ toString b.timestamp ++ "|" ++
    b.previous_hash ++ "|" ++ toString b.transactions ++ "|" ++
    b.validator ++ "|" ++ b.poh_hash

/-! ## dpos.py: ForkChoice -/

/-- One step of the chain-validation loop of `ForkChoice.is_valid_chain`:
check every consecutive pair for height continuity and hash linkage. -/
def chainPairsOk : Block → List Block → Bool
  | _, [] => true
  | prev, b :: rest =>
    (decide (b.height = prev.height + 1) && decide (b.previous_hash = Block.hash prev))
      && chainPairsOk b rest

/-- Mirror of `ForkChoice.is_valid_chain`: an empty chain is invalid;
otherwise every adjacent pair must pass height and linkage checks. -/
def is_valid_chain : List Block → Bool
  | [] => false
  | b :: rest => chainPairsOk b rest

/-- Linkage relation between consecutive blocks: height increments by one
and `previous_hash` matches the predecessor's computed digest. -/
def BlockLinked (a b : Block) : Prop :=
  b.height = a.height + 1 ∧ b.previous_hash = Block.hash a

instance : DecidablePred fun p : Block × Block => BlockLinked p.1 p.2 := by
  intro p
  unfold BlockLinked
  infer_instance

/-- The chain-validity predicate exactly as the claim words it: every
block's `previous_hash` equals its predecessor's digest and block heights
are contiguous starting from 0 (so the first block has height 0). -/
def SpecValidChain (chain : List Block) : Prop :=
  List.Chain' BlockLinked chain ∧
    match chain with
    | [] => True
    | b :: _ => b.height = 0

/-! ## dpos.py: DPOS -/

/-- Mirror of `Validator` (dpos.py). -/
structure Validator where
  address : String
  stake_amount : Int
  votes : Int
  is_active : Bool
  last_block_time : Int
deriving DecidableEq

/-- Mirror of `Vote` (dpos.py). -/
structure Vote where
  voter : String
  candidate : String
  amount : Int
  timestamp : Int
deriving DecidableEq

/-- State of the `DPOS` class.  `validators` models the address-keyed dict
in insertion (registration) order; `active_validators` models the set of
active addresses. -/
structure DPOS where
  max_validators : Nat
  block_interval : Int
  validators : List Validator
  votes : List Vote
  stakes : List (String × Int)
  current_epoch : Int
  active_validators : List String
deriving DecidableEq

/-- Comparison used by `update_active_validators`: Python's
`sorted(..., key=lambda x: x.votes, reverse=True)` keeps `y` before a
later-inserted `x` exactly when `y.votes ≥ x.votes` (stable descending). -/
def votesGeB (y x : Validator) : Bool := decide (x.votes ≤ y.votes)

/-- Mirror of `DPOS.update_active_validators`: stable-sort all validators
by votes descending, mark the first `max_validators` active and the rest
inactive, and rebuild the active-address set. -/
def DPOS.update_active_validators (st : DPOS) : DPOS :=
  let sorted_validators := sortS votesGeB st.validators
  let actives := (sorted_validators.take st.max_validators).map Validator.address
  { st with
    validators := st.validators.map
      (fun v => { v with is_active := v.address ∈ actives })
    active_validators := actives }

/-- Mirror of `DPOS.get_next_block_validator`.  Python raises
`ZeroDivisionError` when the sorted active list is empty (`% 0`) or when
`block_interval` is zero; both raises are modelled as `none`.  The slot
index `int(current_time / block_interval) % len(active_list)` uses
truncating division (`Int.tdiv`, Python `int()` of a float quotient) and
Python's nonnegative `%` for a positive modulus (`Int.emod`). -/
def DPOS.get_next_block_validator (st : DPOS) (now : Int) : Option String :=
  let active_list := sortS strLeB st.active_validators
  if st.block_interval = 0 then none
  else if active_list.length = 0 then none
  else
    let slot := (Int.tdiv now st.block_interval).emod active_list.length
    some (active_list.getD slot.toNat "")

/-! ## dpos.py: BlockConfirmation -/

/-- State of `BlockConfirmation`: the map from block hash to the set of
validators that voted for it (a duplicate-free list in insertion order). -/
structure BlockConfirmation where
  required_confirmations : Nat
  block_votes : List (String × List String)
deriving DecidableEq

/-- The fresh `BlockConfirmation` built by `__init__`. -/
def BlockConfirmation.init (required : Nat) : BlockConfirmation :=
  ⟨required, []⟩

/-- Mirror of `BlockConfirmation.is_block_confirmed`: false when the hash
has no vote entry, else compare the distinct-voter count with the
threshold. -/
def BlockConfirmation.is_block_confirmed (st : BlockConfirmation) (block_hash : String) : Bool :=
  match lookupA st.block_votes block_hash with
  | none => false
  | some voters => decide (st.required_confirmations ≤ voters.length)

/-- Mirror of `BlockConfirmation.vote_block`: create the vote set on first
use, add the validator (set semantics: append only if absent), and return
`is_block_confirmed`. -/
def BlockConfirmation.vote_block (st : BlockConfirmation) (block_hash validator : String) :
    Bool × BlockConfirmation :=
  let voters := getA st.block_votes block_hash []
  let voters2 := if validator ∈ voters then voters else voters ++ [validator]
  let st2 := { st with block_votes := setA st.block_votes block_hash voters2 }
  (st2.is_block_confirmed block_hash, st2)

/-- Mirror of `BlockConfirmation.get_block_votes`. -/
def BlockConfirmation.get_block_votes (st : BlockConfirmation) (block_hash : String) : Nat :=
  match lookupA st.block_votes block_hash with
  | none => 0
  | some voters => voters.length

/-- Run a sequence of `vote_block` calls, each given as a
(block hash, validator) pair, discarding the returned booleans. -/
def BlockConfirmation.runVotes (st : BlockConfirmation) :
    List (String × String) → BlockConfirmation
  | [] => st
  | (h, v) :: rest => BlockConfirmation.runVotes (st.vote_block h v).2 rest

/-! ## poh.py -/

/-- Model of SHA-256 values produced by `ProofOfHistory._hash`, as a free
(hence collision-free) construction: `genesis` is the all-zero hex string
of the genesis node, and `step h d` is `_hash(h, d)` where `d = some s`
records a truthy data argument and `d = none` a call without data.
Python treats `None` and `""` identically here (`if data:`), so the model
never builds `step h (some "")`. -/
inductive PohHash where
  | genesis : PohHash
  | step : PohHash → Option String → PohHash
deriving DecidableEq

/-- Mirror of `HistoryNode` (poh.py). -/
structure HistoryNode where
  sequence : Int
  hash : PohHash
  data : Option String
  timestamp : Int
  counter : Int
deriving DecidableEq

/-- Python truthiness of the optional data argument: `None` and the empty
string are falsy. -/
def dataTruthy : Option String → Bool
  | none => false
  | some s => !(s == "")

/-- The data fold shared by `tick` and `verify`:
`if data: current_hash = self._hash(current_hash, data)`. -/
def foldData (h : PohHash) (d : Option String) : PohHash :=
  if dataTruthy d then PohHash.step h d else h

/-- The difficulty loop of `tick`/`verify`: `difficulty` successive
no-data hash steps. -/
def iterHash : Nat → PohHash → PohHash
  | 0, h => h
  | n + 1, h => iterHash n (PohHash.step h none)

/-- State of `ProofOfHistory` (poh.py). -/
structure ProofOfHistory where
  difficulty : Nat
  history : List HistoryNode
deriving DecidableEq

/-- The genesis node appended by `__init__` (all-zero hash, sequence 0). -/
def genesisNode : HistoryNode :=
  { sequence := 0, hash := PohHash.genesis, data := none, timestamp := 0, counter := 0 }

/-- The fresh `ProofOfHistory` built by `__init__`. -/
def ProofOfHistory.init (difficulty : Nat) : ProofOfHistory :=
  ⟨difficulty, [genesisNode]⟩

/-- Mirror of `ProofOfHistory.tick`: run the difficulty loop from the last
node's hash, fold truthy data into one final step, and append the new
node.  `self.history[-1]` on an empty history would raise `IndexError`;
the history starts nonempty and only grows, so the `none` branch returns
the state unchanged and is unreachable from `init`. -/
def ProofOfHistory.tick (st : ProofOfHistory) (data : Option String) (now : Int) :
    ProofOfHistory :=
  match st.history.getLast? with
  | none => st
  | some prev =>
    let h := foldData (iterHash st.difficulty prev.hash) data
    let node : HistoryNode :=
      { sequence := prev.sequence + 1
        hash := h
        data := data
        timestamp := now
        counter := prev.counter + st.difficulty + (if dataTruthy data then 1 else 0) }
    { st with history := st.history ++ [node] }

/-- The body of the `verify` loop on a contiguous segment of the history:
for each adjacent pair, recompute the difficulty loop and data fold from
the left node's hash and compare with the right node's stored hash. -/
def verifySeg (d : Nat) : List HistoryNode → Bool
  | a :: b :: rest =>
    (foldData (iterHash d a.hash) b.data == b.hash) && verifySeg d (b :: rest)
  | _ => true

/-- Mirror of `ProofOfHistory.verify`: reject an out-of-range `end_index`,
then check every adjacent pair with index in `[start_index, end_index)`.
(The `start_index < 0` rejection of the source is vacuous for `Nat`
indices.)  `drop`/`take` selects exactly nodes `start_index ..
end_index`; when `start_index ≥ end_index` the Python loop body never
runs and the segment below has at most one node, so both return true. -/
def ProofOfHistory.verify (st : ProofOfHistory) (start_index end_index : Nat) : Bool :=
  if st.history.length ≤ end_index then false
  else verifySeg st.difficulty ((st.history.drop start_index).take (end_index - start_index + 1))

/-- Build the history produced by `init difficulty` followed by one `tick`
per element of `datas` (timestamps are irrelevant to every claim and set
to 0). -/
def runTicks (difficulty : Nat) (datas : List (Option String)) : ProofOfHistory :=
  datas.foldl (fun st d => st.tick d 0) (ProofOfHistory.init difficulty)

/-- Tampering: overwrite the `hash` field of the node at position `i`. -/
def updHash : List HistoryNode → Nat → PohHash → List HistoryNode
  | [], _, _ => []
  | a :: r, 0, nh => { a with hash := nh } :: r
  | a :: r, i + 1, nh => a :: updHash r i nh

/-- Tampering: overwrite the `data` field of the node at position `i`. -/
def updData : List HistoryNode → Nat → Option String → List HistoryNode
  | [], _, _ => []
  | a :: r, 0, nd => { a with data := nd } :: r
  | a :: r, i + 1, nd => a :: updData r i nd

/-- Tampering: overwrite the `timestamp` field of the node at position `i`. -/
def updTimestamp : List HistoryNode → Nat → Int → List HistoryNode
  | [], _, _ => []
  | a :: r, 0, t => { a with timestamp := t } :: r
  | a :: r, i + 1, t => a :: updTimestamp r i t

/-- Tampering: overwrite the `sequence` field of the node at position `i`. -/
def updSequence : List HistoryNode → Nat → Int → List HistoryNode
  | [], _, _ => []
  | a :: r, 0, s => { a with sequence := s } :: r
  | a :: r, i + 1, s => a :: updSequence r i s

/-- Tampering: overwrite the `counter` field of the node at position `i`. -/
def updCounter : List HistoryNode → Nat → Int → List HistoryNode
  | [], _, _ => []
  | a :: r, 0, c => { a with counter := c } :: r
  | a :: r, i + 1, c => a :: updCounter r i c

/-- The truthiness-normalized data of a node: `None` and `""` are
indistinguishable to `tick` and `verify`. -/
def effData : Option String → Option String
  | none => none
  | some s => if s = "" then none else some s

/-! ## time_sharding.py -/

/-- Mirror of `TimeSlot` (time_sharding.py). -/
structure TimeSlot where
  slot_id : Int
  start_time : Int
  end_time : Int
  validator_group : List String
deriving DecidableEq

/-- Mirror of `Shard` (time_sharding.py).  `validators` models the Python
set as a duplicate-free list. -/
structure Shard where
  shard_id : Nat
  validators : List String
  time_slots : List TimeSlot
  transactions : List String
deriving DecidableEq

/-- State of `TimeShardingManager`. -/
structure TimeShardingManager where
  slot_duration : Int
  shard_count : Nat
  validators_per_shard : Nat
  shards : List (Nat × Shard)
  global_start_time : Int
deriving DecidableEq

/-- Mirror of `TimeShardingManager.get_current_time_slot`.  The source
raises `ValueError` when uninitialized or when the slot's shard is
missing; a zero `slot_duration` or zero `shard_count` raises
`ZeroDivisionError`.  All raises are modelled as `.error`. -/
def TimeShardingManager.get_current_time_slot (st : TimeShardingManager) (now : Int) :
    Except String TimeSlot :=
  if st.shards = [] then .error "uninitialized"
  else
    let elapsed := now - st.global_start_time
    if st.slot_duration = 0 then .error "division by zero"
    else
      let slot_id := Int.tdiv elapsed st.slot_duration
      if st.shard_count = 0 then .error "modulo by zero"
      else
        let shard_id := (slot_id.emod st.shard_count).toNat
        match lookupA st.shards shard_id with
        | none => .error "slot shard not initialized"
        | some shard =>
          .ok { slot_id := slot_id
                start_time := st.global_start_time + slot_id * st.slot_duration
                end_time := st.global_start_time + slot_id * st.slot_duration + st.slot_duration
                validator_group := shard.validators }

/-! ## cross_shard.py -/

/-- Mirror of `CrossShardMessage` (cross_shard.py); `data` is an opaque
string-keyed dict. -/
structure CrossShardMessage where
  message_id : String
  from_shard : Nat
  to_shard : Nat
  data : List (String × Int)
  timestamp : Int
  status : String
deriving DecidableEq

/-- State of `CrossShardManager`.  `cross_shard_messages` is only touched
by `handle_cross_shard_transaction`, outside every claim, and is carried
along unchanged. -/
structure CrossShardManager where
  time_sharding : TimeShardingManager
  message_queue : List (Nat × List CrossShardMessage)
  pending_messages : List (String × CrossShardMessage)
  confirmed_messages : List String
  cross_shard_messages : List (Nat × List CrossShardMessage)
deriving DecidableEq

/-- Mirror of `CrossShardManager._verify_shard_ready`.  The whole body is
wrapped in `try/except`; the only statement that can raise is the
`get_current_time_slot` call, and on any exception the handler returns
`True` ("in the development environment we temporarily allow processing
to continue" — the defaulting-to-ready behavior under scrutiny in the
claims). -/
def CrossShardManager.verify_shard_ready (st : CrossShardManager) (now : Int)
    (shard_id : Nat) : Bool :=
  if st.time_sharding.shard_count ≤ shard_id then false
  else if lookupA st.time_sharding.shards shard_id = none then false
  else
    match st.time_sharding.get_current_time_slot now with
    | .error _ => true
    | .ok _ =>
      match lookupA st.time_sharding.shards shard_id with
      | none => true
      | some shard => !shard.validators.isEmpty

/-- Mirror of `CrossShardManager._process_message`: if the destination
shard is not ready the message is left untouched and `false` is returned;
otherwise its status becomes "delivered" (the network broadcast has no
effect on this state) and `true` is returned. -/
def CrossShardManager.process_message (st : CrossShardManager) (now : Int)
    (message : CrossShardMessage) : Bool × CrossShardMessage :=
  if !(st.verify_shard_ready now message.to_shard) then (false, message)
  else (true, { message with status := "delivered" })

/-- Mirror of `CrossShardManager.confirm_message`: when the id is pending,
mark the message confirmed, add the id to the confirmed set, and drop it
from the pending dict. -/
def CrossShardManager.confirm_message (st : CrossShardManager) (message_id : String) :
    CrossShardManager :=
  match lookupA st.pending_messages message_id with
  | none => st
  | some _ =>
    { st with
      confirmed_messages :=
        if message_id ∈ st.confirmed_messages then st.confirmed_messages
        else st.confirmed_messages ++ [message_id]
      pending_messages := delA st.pending_messages message_id }

/-- Mirror of `CrossShardManager.process_messages`: run
`_process_message` on each queued message for `current_shard`; each
processed (delivered) message is immediately confirmed — in the source the
queued object and the pending-dict object are the same object, so the
"delivered" status is mirrored into the pending dict before
`confirm_message` runs — and processed messages are removed from the
queue at the end. -/
def CrossShardManager.process_messages (st : CrossShardManager) (now : Int)
    (current_shard : Nat) : CrossShardManager :=
  match lookupA st.message_queue current_shard with
  | none => st
  | some messages =>
    let step := fun (acc : CrossShardManager × List String) (m : CrossShardMessage) =>
      let (st0, processed) := acc
      let (ok, m2) := st0.process_message now m
      if ok then
        let st1 :=
          { st0 with
            pending_messages :=
              if (lookupA st0.pending_messages m.message_id).isSome then
                setA st0.pending_messages m.message_id m2
              else st0.pending_messages }
        (st1.confirm_message m.message_id, processed ++ [m.message_id])
      else (st0, processed)
    let (st2, processedIds) := messages.foldl step (st, [])
    { st2 with
      message_queue :=
        setA st2.message_queue current_shard
          (messages.filter (fun m => decide (m.message_id ∉ processedIds))) }

/-! ## state_sync.py -/

/-- Mirror of `StateUpdate` (state_sync.py); `data` is a string-keyed
dict payload. -/
structure StateUpdate where
  update_id : String
  shard_id : Int
  data : List (String × Int)
  timestamp : Int
  version : Nat
  status : String
deriving DecidableEq

/-- State of `StateSyncManager`.  `shard_count` is the
`time_sharding.shard_count` the manager reads; `completed_updates` models
the Python set of completed update ids. -/
structure StateSyncManager where
  shard_count : Int
  state_versions : List (Int × Nat)
  pending_updates : List (String × StateUpdate)
  completed_updates : List String
  state_cache : List (Int × List (String × Int))
deriving DecidableEq

/-- The fresh `StateSyncManager` built by `__init__` for a given shard
count: every shard in range gets version 0 and cache `{"balance": 0}`. -/
def StateSyncManager.init (n : Nat) : StateSyncManager :=
  { shard_count := n
    state_versions := (List.range n).map (fun i => ((i : Int), 0))
    pending_updates := []
    completed_updates := []
    state_cache := (List.range n).map (fun i => ((i : Int), [("balance", 0)])) }

/-- Mirror of `StateSyncManager.update_state`: raise (`.error`) when
`shard_id >= shard_count` (negative ids pass this check), assign version
`current applied version + 1`, and enqueue the pending update under its
generated id.  The broadcast does not affect this state. -/
def StateSyncManager.update_state (st : StateSyncManager) (now : Int) (shard_id : Int)
    (data : List (String × Int)) : Except String (String × StateSyncManager) :=
  if st.shard_count ≤ shard_id then .error "invalid shard id"
  else
    let current_version := getA st.state_versions shard_id 0
    let new_version := current_version + 1
    let update_id :=
      "update_" ++ toString now ++ "_" ++ toString shard_id ++ "_" ++ toString new_version
    let update : StateUpdate :=
      { update_id := update_id
        shard_id := shard_id
        data := data
        timestamp := now
        version := new_version
        status := "pending" }
    .ok (update_id, { st with pending_updates := setA st.pending_updates update_id update })

/-- Mirror of Python `dict.update(data)`: right-biased merge. -/
def dictUpdate (d new : List (String × Int)) : List (String × Int) :=
  new.foldl (fun acc p => setA acc p.1 p.2) d

/-- Mirror of `StateSyncManager._apply_state_update`: reject (return
false) when the update's version is not above the shard's applied
version; otherwise initialize the shard cache if missing, merge the
payload, and return true.  The `versions` argument is the live
`state_versions` dict, which `sync_state` does not modify during its
loop. -/
def applyStateUpdate (versions : List (Int × Nat)) (cache : List (Int × List (String × Int)))
    (u : StateUpdate) : Bool × List (Int × List (String × Int)) :=
  let current_version := getA versions u.shard_id 0
  if u.version ≤ current_version then (false, cache)
  else
    let base := getA cache u.shard_id [("balance", 0)]
    (true, setA cache u.shard_id (dictUpdate base u.data))

/-- Ascending comparison on versions used by `updates.sort(key=version)`;
stable for equal versions. -/
def versionLeB (a b : StateUpdate) : Bool := decide (a.version ≤ b.version)

/-- One iteration of the `sync_state` loop body: apply the update against
the entry-time version map `versions`; on success move it from pending to
completed and keep the new cache, on failure keep the (unchanged) cache. -/
def syncStep (versions : List (Int × Nat)) (acc : StateSyncManager) (u : StateUpdate) :
    StateSyncManager :=
  let (ok, cache2) := applyStateUpdate versions acc.state_cache u
  if ok then
    { acc with
      state_cache := cache2
      completed_updates :=
        if u.update_id ∈ acc.completed_updates then acc.completed_updates
        else acc.completed_updates ++ [u.update_id]
      pending_updates := delA acc.pending_updates u.update_id }
  else { acc with state_cache := cache2 }

/-- Mirror of `StateSyncManager.sync_state`: reject out-of-range ids
(negative ids pass), snapshot the pending updates of the shard, sort them
by version, apply each against the entry-time version map (moving applied
ones from pending to completed), then — when the snapshot is nonempty —
set the shard's version counter to the version of the snapshot's last
(highest-version) element, whether or not that update was applied. -/
def StateSyncManager.sync_state (st : StateSyncManager) (shard_id : Int) :
    Bool × StateSyncManager :=
  if st.shard_count ≤ shard_id then (false, st)
  else
    let updates := (st.pending_updates.map Prod.snd).filter
      (fun u => decide (u.shard_id = shard_id))
    let sorted := sortS versionLeB updates
    let st2 := sorted.foldl (syncStep st.state_versions) st
    let st3 :=
      match sorted.getLast? with
      | none => st2
      | some lastu =>
        { st2 with state_versions := setA st2.state_versions shard_id lastu.version }
    (true, st3)

/-- Mirror of `StateSyncManager.get_shard_state`: `none` for out-of-range
ids, else the shard's cached state (the lazy initialization inserts the
default without changing the returned value and is omitted as it does not
affect the observable result for the shard). -/
def StateSyncManager.get_shard_state (st : StateSyncManager) (shard_id : Int) :
    Option (List (String × Int)) :=
  if st.shard_count ≤ shard_id then none
  else some (getA st.state_cache shard_id [("balance", 0)])

/-! ## transaction_pool.py -/

/-- Mirror of `Transaction` (transaction_pool.py). -/
structure Transaction where
  tx_id : String
  data : String
  timestamp : Int
  gas_price : Int
  size : Int
deriving DecidableEq

/-- State of `TransactionPool`.  `pending_txs` models the tx_id-keyed
`OrderedDict` by its values in insertion order; `priority_queue` models
the `heapq` min-heap of `(gas_price, tx_id)` pairs by its sorted-sequence
abstraction (ascending, so index 0 is the heap minimum). -/
structure TransactionPool where
  max_size : Nat
  max_batch_size : Nat
  min_gas_price : Int
  pending_txs : List Transaction
  priority_queue : List (Int × String)
  total_size : Int
deriving DecidableEq

/-- The fresh pool built by `__init__`. -/
def TransactionPool.mk0 (max_size max_batch_size : Nat) (min_gas_price : Int) :
    TransactionPool :=
  { max_size := max_size
    max_batch_size := max_batch_size
    min_gas_price := min_gas_price
    pending_txs := []
    priority_queue := []
    total_size := 0 }

/-- Python tuple comparison on `(gas_price, tx_id)` pairs:
lexicographic, with code-point string comparison in the second slot. -/
def pqLeB (a b : Int × String) : Bool :=
  decide (a.1 < b.1) || (decide (a.1 = b.1) && strLeB a.2 b.2)

/-- Mirror of `TransactionPool._validate_transaction`: gas price at least
the configured minimum, positive size, fresh tx id. -/
def TransactionPool.validate_transaction (st : TransactionPool) (tx : Transaction) : Bool :=
  decide (st.min_gas_price ≤ tx.gas_price) && decide (0 < tx.size) &&
    !(st.pending_txs.any (fun t => decide (t.tx_id = tx.tx_id)))

/-- Mirror of `TransactionPool.add_transaction`: reject invalid
transactions; at capacity, evict the heap minimum when the newcomer's gas
price strictly exceeds it, else reject; finally append the transaction
and push its pair onto the heap.  `priority_queue[0]` on an empty heap
and `pending_txs.pop` on a missing id raise `IndexError`/`KeyError`,
modelled as `none`. -/
def TransactionPool.add_transaction (st : TransactionPool) (tx : Transaction) :
    Option (Bool × TransactionPool) :=
  if !(st.validate_transaction tx) then some (false, st)
  else
    let afterCapacity : Option (Bool × TransactionPool) :=
      if st.max_size ≤ st.pending_txs.length then
        match st.priority_queue with
        | [] => none
        | (p, removed_tx_id) :: restq =>
          if p < tx.gas_price then
            match st.pending_txs.find? (fun t => decide (t.tx_id = removed_tx_id)) with
            | none => none
            | some removed_tx =>
              some (true,
                { st with
                  pending_txs := st.pending_txs.filter
                    (fun t => decide (t.tx_id ≠ removed_tx_id))
                  priority_queue := restq
                  total_size := st.total_size - removed_tx.size })
          else some (false, st)
      else some (true, st)
    match afterCapacity with
    | none => none
    | some (false, st1) => some (false, st1)
    | some (true, st1) =>
      some (true,
        { st1 with
          pending_txs := st1.pending_txs ++ [tx]
          priority_queue := insertS pqLeB (tx.gas_price, tx.tx_id) st1.priority_queue
          total_size := st1.total_size + tx.size })

/-- Mirror of `TransactionPool.remove_transactions`: for each id present,
drop the transaction, decrement the accounted size, and rebuild/heapify
the priority queue without that id (filtering a sorted sequence keeps it
sorted, which is the abstraction of `heapify`). -/
def TransactionPool.remove_transactions (st : TransactionPool) (tx_ids : List String) :
    TransactionPool :=
  tx_ids.foldl
    (fun acc tx_id =>
      match acc.pending_txs.find? (fun t => decide (t.tx_id = tx_id)) with
      | none => acc
      | some tx =>
        { acc with
          pending_txs := acc.pending_txs.filter (fun t => decide (t.tx_id ≠ tx_id))
          total_size := acc.total_size - tx.size
          priority_queue := acc.priority_queue.filter (fun p => decide (p.2 ≠ tx_id)) })
    st

/-- One observable call against the pool. -/
inductive PoolOp where
  | add : Transaction → PoolOp
  | remove : List String → PoolOp

/-- Run a call sequence against the pool.  An `add` that raises in Python
(`none`) leaves the pool object unchanged (the source mutates nothing
before the raising subscript), and the run continues with that state. -/
def TransactionPool.run (st : TransactionPool) : List PoolOp → TransactionPool
  | [] => st
  | PoolOp.add tx :: rest =>
    (match st.add_transaction tx with
      | none => st
      | some (_, st2) => st2).run rest
  | PoolOp.remove ids :: rest => (st.remove_transactions ids).run rest

/-- The current heap minimum (`self.priority_queue[0]`), as the claim's
"current minimum gas price" of the pool. -/
def TransactionPool.currentMin (st : TransactionPool) : Int :=
  (st.priority_queue.headD (0, "")).1

/-! ## shard_manager.py -/

/-- Mirror of `ShardAssignment` (shard_manager.py). -/
structure ShardAssignment where
  validator : String
  shard_id : Nat
  stake : Int
  performance_score : Int
deriving DecidableEq

/-- State of `ShardManager`.  `shard_count` is the
`time_sharding.shard_count` the manager reads; the per-shard validator
sets are duplicate-free lists. -/
structure ShardManager where
  shard_count : Nat
  min_validators_per_shard : Nat
  assignments : List (String × ShardAssignment)
  shard_validators : List (Nat × List String)
  validator_stakes : List (String × Int)
deriving DecidableEq

/-- Total stake of a validator set
(`sum(self.validator_stakes.get(v, 0) for v in validators)`). -/
def ShardManager.stakeOf (st : ShardManager) (vs : List String) : Int :=
  (vs.map (fun v => getA st.validator_stakes v 0)).sum

/-- The placeholder assignment used by `getA` where the source would
raise `KeyError` on a missing `assignments` entry; the consistency
hypothesis of the theorems rules the miss out. -/
def dfltAssignment (v : String) : ShardAssignment :=
  { validator := v, shard_id := 0, stake := 0, performance_score := 1 }

/-- Modelled from the spec: `_find_donor_validator` is called by
`ShardManager._rebalance_shard` (shard_manager.py line 100) but its
definition is missing from the source tree.  Spec §4.7: rebalancing
"pulls validators one at a time from a donor shard (highest-stake shard
with spare capacity) until the target is met or no donor remains", and
§3 requires the rebalancer to enforce the minimum-size invariant, so a
donor shard must be a shard other than the target that would keep at
least `min_validators_per_shard` validators after donating.  The model
picks the highest-stake such shard and returns one of its validators, or
`none` when no donor shard exists. -/
def ShardManager.find_donor_validator (st : ShardManager) (target_shard_id : Nat) :
    Option String :=
  let candidates := st.shard_validators.filter
    (fun p => decide (p.1 ≠ target_shard_id) &&
      decide (st.min_validators_per_shard < p.2.length))
  let best := candidates.foldl
    (fun acc p =>
      match acc with
      | none => some p
      | some q => if st.stakeOf q.2 < st.stakeOf p.2 then some p else acc)
    none
  match best with
  | none => none
  | some p => p.2.head?

/-- The body of the `while current_stake < target_stake` loop of
`ShardManager._rebalance_shard`, with an explicit fuel bound on the
number of iterations (the theorems below hold for every fuel).  The
target stake is the exact rational `target_num / target_den` (the source
compares floats; with `0 < target_den` the comparison
`current < target_num / target_den` is `current * target_den <
target_num` exactly).  `set.remove` on the donor's old shard raises
`KeyError` when the donor is absent; the consistency hypothesis of the
theorems makes the donor present, and the model removes by filtering. -/
def ShardManager.rebalanceLoop (st : ShardManager) (fuel : Nat) (target_shard_id : Nat)
    (target_num target_den current_stake : Int) : ShardManager :=
  match fuel with
  | 0 => st
  | fuel + 1 =>
    if current_stake * target_den < target_num then
      match st.find_donor_validator target_shard_id with
      | none => st
      | some donor =>
        let old_shard := (getA st.assignments donor (dfltAssignment donor)).shard_id
        let old_set := getA st.shard_validators old_shard []
        let m1 := setA st.shard_validators old_shard
          (old_set.filter (fun w => decide (w ≠ donor)))
        let tgt_set := getA m1 target_shard_id []
        let m2 := setA m1 target_shard_id
          (if donor ∈ tgt_set then tgt_set else tgt_set ++ [donor])
        let asg := getA st.assignments donor (dfltAssignment donor)
        let st2 :=
          { st with
            shard_validators := m2
            assignments := setA st.assignments donor { asg with shard_id := target_shard_id } }
        st2.rebalanceLoop fuel target_shard_id target_num target_den
          (current_stake + getA st.validator_stakes donor 0)
    else st

/-- Mirror of `ShardManager._rebalance_shard`: run the transfer loop
starting from the target shard's current stake. -/
def ShardManager.rebalance_shard (st : ShardManager) (fuel : Nat) (target_shard_id : Nat)
    (target_num target_den : Int) : ShardManager :=
  st.rebalanceLoop fuel target_shard_id target_num target_den
    (st.stakeOf (getA st.shard_validators target_shard_id []))

/-- Mirror of `ShardManager.rebalance_shards`: compute each shard's total
stake, then rebalance every shard whose stake is below 80% of the
average.  With integer stakes the float conditions are embedded exactly:
`stake < avg_stake * 0.8` with `avg_stake = total / count` is
`stake * count * 10 < total * 8`, and the loop target `avg_stake` is the
rational `total / count`.  A zero shard count makes the source raise
`ZeroDivisionError` (`none`).  The per-shard stakes are computed once,
before any rebalancing, as in the source. -/
def ShardManager.rebalance_shards (st : ShardManager) (fuel : Nat) :
    Option ShardManager :=
  if st.shard_count = 0 then none
  else
    let metrics := (List.range st.shard_count).map
      (fun i => (i, st.stakeOf (getA st.shard_validators i [])))
    let total := (metrics.map Prod.snd).sum
    some (metrics.foldl
      (fun acc m =>
        if m.2 * (st.shard_count : Int) * 10 < total * 8 then
          acc.rebalance_shard fuel m.1 total (st.shard_count : Int)
        else acc)
      st)

/-! ## shard_adjustment.py -/

/-- Mirror of `DynamicShardManager._redistribute_validators`, acting on
the `time_sharding.shards` map it mutates.  The trailing
`state_sync.update_state` calls touch only the state-sync component,
never shard membership, and are outside the modelled state (a raise there
cannot undo the set mutations, which have already happened).  A missing
shard id raises `KeyError` (`none`); the target is re-read after the
source mutation, which is exactly the aliasing of the source when
`from_shard == to_shard`. -/
def redistribute_validators (tsm : TimeShardingManager) (from_shard to_shard : Nat) :
    Option TimeShardingManager :=
  match lookupA tsm.shards from_shard with
  | none => none
  | some source =>
    let transfer_count := source.validators.length / 3
    if transfer_count < 1 then some tsm
    else
      let validators_to_move := source.validators.take transfer_count
      let shards1 := setA tsm.shards from_shard
        { source with
          validators := source.validators.filter (fun v => decide (v ∉ validators_to_move)) }
      match lookupA shards1 to_shard with
      | none => none
      | some target =>
        some { tsm with
          shards := setA shards1 to_shard
            { target with
              validators := target.validators ++
                validators_to_move.filter (fun v => decide (v ∉ target.validators)) } }

/-- Mirror of `DynamicShardManager._split_shard`: keep the first half of
the shard's validators, give the second half to a new shard whose id is
the current size of the shards dict, and increment `shard_count`.  The
trailing `state_sync.update_state` calls are outside the modelled state
as above. -/
def split_shard (tsm : TimeShardingManager) (shard_id : Nat) :
    Option TimeShardingManager :=
  match lookupA tsm.shards shard_id with
  | none => none
  | some shard =>
    let validators := shard.validators
    let mid := validators.length / 2
    let new_shard_id := tsm.shards.length
    let new_shard : Shard :=
      { shard_id := new_shard_id
        validators := validators.drop mid
        time_slots := []
        transactions := [] }
    let shards1 := setA tsm.shards shard_id { shard with validators := validators.take mid }
    some { tsm with
      shards := setA shards1 new_shard_id new_shard
      shard_count := tsm.shard_count + 1 }

/-- Pairwise disjointness of an id-keyed family of validator lists. -/
def ShardsDisjoint (m : List (Nat × List String)) : Prop :=
  ∀ p ∈ m, ∀ q ∈ m, p.1 ≠ q.1 → ∀ v ∈ p.2, v ∉ q.2

/-- Disjointness of the `time_sharding.shards` validator sets. -/
def TimeShardsDisjoint (tsm : TimeShardingManager) : Prop :=
  ShardsDisjoint (tsm.shards.map (fun p => (p.1, p.2.validators)))

/-- Consistency of `ShardManager`: every validator listed in a shard's
set has an `assignments` entry pointing back at that shard (the invariant
`_assign_validator` establishes and `_rebalance_shard` relies on). -/
def SMConsistent (st : ShardManager) : Prop :=
  ∀ p ∈ st.shard_validators, ∀ v ∈ p.2,
    (getA st.assignments v (dfltAssignment v)).shard_id = p.1

/-- Uniqueness of the keys of an association list (a Python dict cannot
hold a key twice). -/
def KeysNodup (m : List (κ × α)) : Prop := (m.map Prod.fst).Nodup

/-- The set of distinct validators that voted for hash `h` in a call
sequence, as the claims speak of it. -/
def specDistinctVoters (votes : List (String × String)) (h : String) : Finset String :=
  ((votes.filter (fun p => decide (p.1 = h))).map Prod.snd).toFinset

/-- Invariant tying a `BlockConfirmation` state to the call sequence that
produced it: each hash's stored voter list is duplicate-free and holds
exactly the distinct voters of the sequence. -/
def BCVotersOk (st : BlockConfirmation) (votes : List (String × String)) : Prop :=
  ∀ h, match lookupA st.block_votes h with
    | none => specDistinctVoters votes h = ∅
    | some voters => voters.Nodup ∧ voters.toFinset = specDistinctVoters votes h

/-- Well-formedness of a pool state (established by the constructor and
preserved by every operation): tx ids are unique, the priority queue is
the sorted sequence of the pending `(gas_price, tx_id)` pairs, every
pending transaction passed validation, and the pool is within capacity. -/
def PoolWF (st : TransactionPool) : Prop :=
  (st.pending_txs.map Transaction.tx_id).Nodup ∧
  List.Perm st.priority_queue (st.pending_txs.map (fun t => (t.gas_price, t.tx_id))) ∧
  st.priority_queue.Pairwise (fun a b => pqLeB a b = true) ∧
  (∀ t ∈ st.pending_txs, st.min_gas_price ≤ t.gas_price ∧ 0 < t.size) ∧
  st.pending_txs.length ≤ st.max_size

/-- Every pending-update dict entry stores the update under its own id
(`pending_updates[update.update_id] = update` is the only writer). -/
def PendingWellKeyed (st : StateSyncManager) : Prop :=
  ∀ p ∈ st.pending_updates, p.2.update_id = p.1

/-! ## Concrete states used by the counterexamples and witnesses below. -/

/-- A `TimeShardingManager` with two shards configured but only shard 1
initialized: at `now = 5` the current slot maps to shard 0, so
`get_current_time_slot` raises. -/
def c1Tsm : TimeShardingManager :=
  { slot_duration := 10, shard_count := 2, validators_per_shard := 5
    shards := [(1, { shard_id := 1, validators := ["v1"], time_slots := [], transactions := [] })]
    global_start_time := 0 }

/-- A pending cross-shard message addressed to the initialized shard 1. -/
def c1Msg : CrossShardMessage :=
  { message_id := "m1", from_shard := 0, to_shard := 1, data := [], timestamp := 0
    status := "pending" }

/-- The cross-shard manager holding `c1Msg` queued and pending. -/
def c1Csm : CrossShardManager :=
  { time_sharding := c1Tsm
    message_queue := [(1, [c1Msg])]
    pending_messages := [("m1", c1Msg)]
    confirmed_messages := []
    cross_shard_messages := [] }

/-- The state-sync manager after `update_state(0, ...)` was called once on
a fresh two-shard manager (at model time 1). -/
def c2S1 : StateSyncManager :=
  ((StateSyncManager.init 2).update_state 1 0 [("balance", 5)]).toOption.getD
    ("", StateSyncManager.init 2) |>.2

/-- The state-sync manager after a second `update_state(0, ...)` call
(at model time 2) with no intervening `sync_state`. -/
def c2S2 : StateSyncManager :=
  (c2S1.update_state 2 0 [("balance", 7)]).toOption.getD ("", c2S1) |>.2

/-- A state-sync manager whose shard 0 has applied version 2 while a
pending update with the stale version 1 is still queued. -/
def c3S : StateSyncManager :=
  { shard_count := 2
    state_versions := [(0, 2)]
    pending_updates :=
      [("u1", { update_id := "u1", shard_id := 0, data := [("balance", 9)], timestamp := 0
                version := 1, status := "pending" })]
    completed_updates := []
    state_cache := [(0, [("balance", 0)])] }

/-- A single block of height 5 (linkage checks are vacuous for a
one-block chain). -/
def c4B5 : Block :=
  { height := 5, timestamp := 0, previous_hash := "p", transactions := [], validator := "v"
    signature := "", poh_hash := "x" }

/-- A three-node PoH history: genesis, a data tick, an empty tick
(difficulty 2). -/
def c5Poh : ProofOfHistory := runTicks 2 [some "a", none]

/-- Registered validator "a" with no votes. -/
def c6VA : Validator :=
  { address := "a", stake_amount := 10, votes := 0, is_active := false, last_block_time := 0 }

/-- Registered validator "b" with no votes. -/
def c6VB : Validator :=
  { address := "b", stake_amount := 10, votes := 0, is_active := false, last_block_time := 0 }

/-- A DPOS state where "b" registered before "a", both with zero votes,
one active slot. -/
def c6DposBA : DPOS :=
  { max_validators := 1, block_interval := 1, validators := [c6VB, c6VA], votes := []
    stakes := [], current_epoch := 0, active_validators := [] }

/-- The same registered set and vote totals as `c6DposBA`, registered in
the opposite order. -/
def c6DposAB : DPOS := { c6DposBA with validators := [c6VA, c6VB] }

/-- A one-slot pool holding tx "a" at gas price 1. -/
def c8T1 : Transaction := { tx_id := "a", data := "", timestamp := 0, gas_price := 1, size := 1 }

/-- A transaction reusing the id "a" with a strictly higher gas price. -/
def c8T1Dup : Transaction := { tx_id := "a", data := "", timestamp := 0, gas_price := 2, size := 1 }

/-- The pool of capacity 1 after admitting `c8T1`: full, minimum gas
price 1. -/
def c8Pool : TransactionPool := TransactionPool.run (TransactionPool.mk0 1 10 1) [PoolOp.add c8T1]

/-- A fresh transaction with a gas price above the pool minimum. -/
def c8T2 : Transaction := { tx_id := "b", data := "", timestamp := 0, gas_price := 3, size := 1 }

/-- A two-shard manager with disjoint validator sets, used to witness the
rebalancing theorems. -/
def c9Sm : ShardManager :=
  { shard_count := 2
    min_validators_per_shard := 1
    assignments :=
      [("p", { validator := "p", shard_id := 0, stake := 4, performance_score := 1 }),
       ("q", { validator := "q", shard_id := 0, stake := 3, performance_score := 1 }),
       ("r", { validator := "r", shard_id := 1, stake := 2, performance_score := 1 })]
    shard_validators := [(0, ["p", "q"]), (1, ["r"])]
    validator_stakes := [("p", 4), ("q", 3), ("r", 2)] }

/-- A two-shard `TimeShardingManager` with disjoint validator sets, used
to witness the dynamic-rebalancing theorems. -/
def c9Tsm : TimeShardingManager :=
  { slot_duration := 10, shard_count := 2, validators_per_shard := 5
    shards :=
      [(0, { shard_id := 0, validators := ["p", "q", "r"], time_slots := [], transactions := [] }),
       (1, { shard_id := 1, validators := ["s"], time_slots := [], transactions := [] })]
    global_start_time := 0 }

/-- A DPOS state with registered validators but an empty active set. -/
def c10Dpos : DPOS :=
  { max_validators := 3, block_interval := 1
    validators := [c6VA], votes := [], stakes := [("a", 10)], current_epoch := 0
    active_validators := [] }

/-! ## Generic lemmas about the stable sort `sortS` -/

theorem insertS_perm (le : α → α → Bool) (x : α) :
    ∀ l : List α, List.Perm (insertS le x l) (x :: l)
  | [] => List.Perm.refl _
  | y :: ys => by
    unfold insertS
    by_cases h : le y x = true
    · simp only [h, if_true]
      exact ((insertS_perm le x ys).cons y).trans (List.Perm.swap x y ys)
    · simp [h]

theorem sortS_append_single (le : α → α → Bool) (l : List α) (x : α) :
    sortS le (l ++ [x]) = insertS le x (sortS le l) := by
  unfold sortS
  simp

theorem sortS_perm (le : α → α → Bool) (l : List α) : List.Perm (sortS le l) l := by
  induction l using List.reverseRecOn with
  | nil => exact List.Perm.refl _
  | append_singleton l x ih =>
    rw [sortS_append_single]
    exact ((insertS_perm le x (sortS le l)).trans (ih.cons x)).trans
      (List.perm_append_singleton x l).symm

theorem sublist_insertS (le : α → α → Bool) (x : α) :
    ∀ l : List α, l.Sublist (insertS le x l)
  | [] => List.nil_sublist _
  | y :: ys => by
    unfold insertS
    by_cases h : le y x = true
    · simp only [h, if_true]
      exact (sublist_insertS le x ys).cons₂ y
    · simp only [h, if_false]
      exact List.sublist_cons_self x (y :: ys)

theorem insertS_eq_takeWhile_dropWhile (le : α → α → Bool) (x : α) :
    ∀ l : List α,
      insertS le x l =
        l.takeWhile (fun y => le y x) ++ x :: l.dropWhile (fun y => le y x)
  | [] => rfl
  | y :: ys => by
    unfold insertS
    by_cases h : le y x = true
    · simp [h, List.takeWhile_cons, List.dropWhile_cons,
        insertS_eq_takeWhile_dropWhile le x ys]
    · simp [h, List.takeWhile_cons, List.dropWhile_cons]

theorem dropWhile_head_false (p : α → Bool) :
    ∀ (l : List α) (z : α) (t : List α), l.dropWhile p = z :: t → p z = false := by
  intro l
  induction l with
  | nil => intro z t h; simp [List.dropWhile] at h
  | cons a r ih =>
    intro z t h
    by_cases hp : p a = true
    · rw [List.dropWhile_cons_of_pos hp] at h
      exact ih z t h
    · rw [List.dropWhile_cons_of_neg hp] at h
      cases h
      simpa using hp

theorem pairwise_insertS (le : α → α → Bool)
    (htot : ∀ a b, le a b = true ∨ le b a = true)
    (htrans : ∀ a b c, le a b = true → le b c = true → le a c = true) (x : α) :
    ∀ l : List α, l.Pairwise (fun a b => le a b = true) →
      (insertS le x l).Pairwise (fun a b => le a b = true)
  | [], _ => by simp [insertS]
  | y :: ys, h => by
    rcases List.pairwise_cons.mp h with ⟨hy, hys⟩
    unfold insertS
    by_cases hcmp : le y x = true
    · simp only [hcmp, if_true]
      refine List.pairwise_cons.mpr ⟨?_, pairwise_insertS le htot htrans x ys hys⟩
      intro z hz
      rcases List.mem_cons.mp ((insertS_perm le x ys).mem_iff.mp hz) with hz | hz
      · subst hz; exact hcmp
      · exact hy z hz
    · simp only [hcmp, if_false]
      have hxy : le x y = true := by
        rcases htot x y with h1 | h1
        · exact h1
        · exact absurd h1 hcmp
      refine List.pairwise_cons.mpr ⟨?_, h⟩
      intro z hz
      rcases List.mem_cons.mp hz with hz | hz
      · subst hz; exact hxy
      · exact htrans x y z hxy (hy z hz)

theorem sortS_pairwise (le : α → α → Bool)
    (htot : ∀ a b, le a b = true ∨ le b a = true)
    (htrans : ∀ a b c, le a b = true → le b c = true → le a c = true) (l : List α) :
    (sortS le l).Pairwise (fun a b => le a b = true) := by
  induction l using List.reverseRecOn with
  | nil => simp [sortS]
  | append_singleton l x ih =>
    rw [sortS_append_single]
    exact pairwise_insertS le htot htrans x _ ih

theorem pair_sublist_cons {x y a : α} {t : List α} (h : List.Sublist [x, y] (a :: t)) :
    List.Sublist [x, y] t ∨ (x = a ∧ y ∈ t) := by
  cases h with
  | cons _ h => exact Or.inl h
  | cons₂ _ h => exact Or.inr ⟨rfl, List.singleton_sublist.mp h⟩

theorem pair_sublist_append_single {x y v : α} :
    ∀ {l : List α}, List.Sublist [x, y] (l ++ [v]) →
      List.Sublist [x, y] l ∨ (x ∈ l ∧ y = v) := by
  intro l
  induction l with
  | nil =>
    intro h
    rcases pair_sublist_cons h with h | ⟨hx, hy⟩
    · have := h.length_le
      simp at this
    · simp at hy
  | cons a r ih =>
    intro h
    rcases pair_sublist_cons h with h | ⟨hx, hy⟩
    · rcases ih h with h | ⟨hx, hy⟩
      · exact Or.inl (h.cons a)
      · exact Or.inr ⟨List.mem_cons_of_mem a hx, hy⟩
    · subst hx
      rcases List.mem_append.mp hy with hy | hy
      · exact Or.inl ((List.singleton_sublist.mpr hy).cons₂ x)
      · exact Or.inr ⟨List.mem_cons_self x r, by simpa using hy⟩

theorem mem_takeWhile_le (le : α → α → Bool)
    (htrans : ∀ a b c, le a b = true → le b c = true → le a c = true)
    (v x : α) (hxv : le x v = true) :
    ∀ l : List α, l.Pairwise (fun a b => le a b = true) → x ∈ l →
      x ∈ l.takeWhile (fun y => le y v) := by
  intro l hpw hx
  by_contra hnot
  have hsplit : l.takeWhile (fun y => le y v) ++ l.dropWhile (fun y => le y v) = l :=
    List.takeWhile_append_dropWhile (fun y => le y v) l
  have hxdrop : x ∈ l.dropWhile (fun y => le y v) := by
    have := hx
    rw [← hsplit] at this
    rcases List.mem_append.mp this with h | h
    · exact absurd h hnot
    · exact h
  cases hdrop : l.dropWhile (fun y => le y v) with
  | nil => rw [hdrop] at hxdrop; simp at hxdrop
  | cons z t =>
    have hz : le z v = false := dropWhile_head_false _ l z t hdrop
    rw [hdrop] at hxdrop
    have hpw2 : (l.takeWhile (fun y => le y v) ++ z :: t).Pairwise
        (fun a b => le a b = true) := by
      rw [← hdrop, hsplit]; exact hpw
    rcases List.mem_cons.mp hxdrop with hxz | hxt
    · subst hxz
      rw [hxv] at hz
      cases hz
    · have hzx : le z x = true := by
        have := (List.pairwise_append.mp hpw2).2.1
        exact (List.pairwise_cons.mp this).1 x hxt
      have : le z v = true := htrans z x v hzx hxv
      rw [this] at hz
      cases hz

theorem sortS_stable (le : α → α → Bool)
    (htot : ∀ a b, le a b = true ∨ le b a = true)
    (htrans : ∀ a b c, le a b = true → le b c = true → le a c = true)
    (x y : α) (hxy : le x y = true) :
    ∀ l : List α, List.Sublist [x, y] l → List.Sublist [x, y] (sortS le l) := by
  intro l
  induction l using List.reverseRecOn with
  | nil =>
    intro h
    have := h.length_le
    simp at this
  | append_singleton l v ih =>
    intro h
    rw [sortS_append_single]
    rcases pair_sublist_append_single h with h | ⟨hx, hy⟩
    · exact (ih h).trans (sublist_insertS le v (sortS le l))
    · rw [hy, insertS_eq_takeWhile_dropWhile]
      have hxv : le x v = true := by rw [← hy]; exact hxy
      have hxs : x ∈ sortS le l := (sortS_perm le l).mem_iff.mpr hx
      have hxtw : x ∈ (sortS le l).takeWhile (fun z => le z v) :=
        mem_takeWhile_le le htrans v x hxv (sortS le l)
          (sortS_pairwise le htot htrans l) hxs
      have h1 : List.Sublist [x] ((sortS le l).takeWhile (fun z => le z v)) :=
        List.singleton_sublist.mpr hxtw
      have h2 : List.Sublist [v] (v :: (sortS le l).dropWhile (fun z => le z v)) :=
        (List.nil_sublist _).cons₂ v
      exact h1.append h2

theorem pair_sublist_total {x y : α} (hxy : x ≠ y) :
    ∀ {l : List α}, x ∈ l → y ∈ l →
      List.Sublist [x, y] l ∨ List.Sublist [y, x] l := by
  intro l
  induction l with
  | nil => intro hx; simp at hx
  | cons a r ih =>
    intro hx hy
    by_cases hxa : x = a
    · subst hxa
      have hyr : y ∈ r := by
        rcases List.mem_cons.mp hy with h | h
        · exact absurd h.symm hxy
        · exact h
      exact Or.inl ((List.singleton_sublist.mpr hyr).cons₂ x)
    · by_cases hya : y = a
      · subst hya
        have hxr : x ∈ r := by
          rcases List.mem_cons.mp hx with h | h
          · exact absurd h hxa
          · exact h
        exact Or.inr ((List.singleton_sublist.mpr hxr).cons₂ y)
      · have hxr : x ∈ r := by
          rcases List.mem_cons.mp hx with h | h
          · exact absurd h hxa
          · exact h
        have hyr : y ∈ r := by
          rcases List.mem_cons.mp hy with h | h
          · exact absurd h hya
          · exact h
        rcases ih hxr hyr with h | h
        · exact Or.inl (h.cons a)
        · exact Or.inr (h.cons a)

theorem indexOf_lt_of_mem_take [DecidableEq α] {x : α} :
    ∀ {l : List α} {n : Nat}, x ∈ l.take n → l.indexOf x < n := by
  intro l
  induction l with
  | nil => intro n h; simp at h
  | cons a r ih =>
    intro n h
    cases n with
    | zero => simp at h
    | succ n =>
      rw [List.take_succ_cons] at h
      by_cases hxa : x = a
      · subst hxa
        rw [List.indexOf_cons_self]
        exact Nat.succ_pos n
      · have hx : x ∈ r.take n := by
          rcases List.mem_cons.mp h with h1 | h1
          · exact absurd h1 hxa
          · exact h1
        rw [List.indexOf_cons_ne r (fun h1 => hxa h1.symm)]
        exact Nat.succ_lt_succ (ih hx)

theorem mem_take_of_indexOf_lt [DecidableEq α] {x : α} :
    ∀ {l : List α} {n : Nat}, x ∈ l → l.indexOf x < n → x ∈ l.take n := by
  intro l
  induction l with
  | nil => intro n h; simp at h
  | cons a r ih =>
    intro n hmem hlt
    by_cases hxa : x = a
    · subst hxa
      cases n with
      | zero => rw [List.indexOf_cons_self] at hlt; cases hlt
      | succ n => rw [List.take_succ_cons]; exact List.mem_cons_self _ _
    · have hx : x ∈ r := by
        rcases List.mem_cons.mp hmem with h1 | h1
        · exact absurd h1 hxa
        · exact h1
      rw [List.indexOf_cons_ne r (fun h1 => hxa h1.symm)] at hlt
      cases n with
      | zero => cases hlt
      | succ n =>
        rw [List.take_succ_cons]
        exact List.mem_cons_of_mem a (ih hx (Nat.lt_of_succ_lt_succ hlt))

theorem indexOf_lt_of_pair_sublist [DecidableEq α] {x y : α} :
    ∀ {l : List α}, l.Nodup → List.Sublist [x, y] l → l.indexOf x < l.indexOf y := by
  intro l
  induction l with
  | nil =>
    intro _ h
    have := h.length_le
    simp at this
  | cons a r ih =>
    intro hnod h
    rcases List.nodup_cons.mp hnod with ⟨hanr, hr⟩
    rcases pair_sublist_cons h with h | ⟨hx, hy⟩
    · have hxr : x ∈ r := h.mem (by simp)
      have hyr : y ∈ r := h.mem (by simp)
      have hxa : x ≠ a := fun he => hanr (he ▸ hxr)
      have hya : y ≠ a := fun he => hanr (he ▸ hyr)
      rw [List.indexOf_cons_ne r (fun h1 => hxa h1.symm),
        List.indexOf_cons_ne r (fun h1 => hya h1.symm)]
      exact Nat.succ_lt_succ (ih hr h)
    · subst hx
      have hya : y ≠ x := fun he => hanr (he ▸ hy)
      rw [List.indexOf_cons_self, List.indexOf_cons_ne r (fun h1 => hya h1.symm)]
      exact Nat.succ_pos _

/-! ## Generic lemmas about the association-list dict model -/

theorem getLast?_mem {l : List α} {a : α} (h : l.getLast? = some a) : a ∈ l := by
  rcases List.mem_getLast?_eq_getLast (show a ∈ l.getLast? from h) with ⟨hne, he⟩
  rw [he]
  exact List.getLast_mem hne

theorem lookupA_eq_none_iff [DecidableEq κ] (m : List (κ × α)) (k : κ) :
    lookupA m k = none ↔ ∀ p ∈ m, p.1 ≠ k := by
  unfold lookupA
  cases hf : m.find? (fun p => decide (p.1 = k)) with
  | none =>
    simp only [true_iff]
    intro p hp
    have := List.find?_eq_none.mp hf p hp
    simpa using this
  | some p =>
    simp only [reduceCtorEq, false_iff, not_forall]
    refine ⟨p, List.mem_of_find?_eq_some hf, ?_⟩
    have := List.find?_some hf
    simpa using this

theorem lookupA_mem [DecidableEq κ] {m : List (κ × α)} {k : κ} {v : α}
    (h : lookupA m k = some v) : (k, v) ∈ m := by
  unfold lookupA at h
  cases hf : m.find? (fun p => decide (p.1 = k)) with
  | none => rw [hf] at h; cases h
  | some p =>
    rw [hf] at h
    have hmem := List.mem_of_find?_eq_some hf
    have hk : p.1 = k := by have := List.find?_some hf; simpa using this
    cases h
    have : p = (k, p.2) := by
      cases p
      simp_all
    rw [← this]
    exact hmem

theorem lookupA_map_overwrite_self [DecidableEq κ] (k : κ) (v : α) :
    ∀ m : List (κ × α), m.any (fun q => decide (q.1 = k)) = true →
      lookupA (m.map (fun q => if q.1 = k then (k, v) else q)) k = some v := by
  intro m
  induction m with
  | nil => intro h; simp at h
  | cons p ps ih =>
    intro hany
    by_cases hk : p.1 = k
    · rw [List.map_cons, if_pos hk]
      unfold lookupA
      rw [List.find?_cons_of_pos _ (by simp)]
    · rw [List.map_cons, if_neg hk]
      have hany2 : ps.any (fun q => decide (q.1 = k)) = true := by
        rcases List.any_eq_true.mp hany with ⟨q, hq, hqk⟩
        rcases List.mem_cons.mp hq with hq | hq
        · subst hq; simp at hqk; exact absurd hqk hk
        · exact List.any_eq_true.mpr ⟨q, hq, hqk⟩
      unfold lookupA at ih ⊢
      rw [List.find?_cons_of_neg _ (by simp [hk])]
      exact ih hany2

theorem lookupA_map_overwrite_ne [DecidableEq κ] (k k' : κ) (v : α) (h : k' ≠ k) :
    ∀ m : List (κ × α),
      lookupA (m.map (fun q => if q.1 = k then (k, v) else q)) k' = lookupA m k' := by
  intro m
  induction m with
  | nil => simp [lookupA]
  | cons p ps ih =>
    rw [List.map_cons]
    by_cases hpk : p.1 = k
    · rw [if_pos hpk]
      unfold lookupA at ih ⊢
      rw [List.find?_cons_of_neg _ (by simp [Ne.symm h]),
        List.find?_cons_of_neg _ (by simp [hpk, Ne.symm h])]
      exact ih
    · rw [if_neg hpk]
      by_cases hpk' : p.1 = k'
      · unfold lookupA
        rw [List.find?_cons_of_pos _ (by simp [hpk']), List.find?_cons_of_pos _ (by simp [hpk'])]
      · unfold lookupA at ih ⊢
        rw [List.find?_cons_of_neg _ (by simp [hpk']), List.find?_cons_of_neg _ (by simp [hpk'])]
        exact ih

theorem lookupA_setA_self [DecidableEq κ] (m : List (κ × α)) (k : κ) (v : α) :
    lookupA (setA m k v) k = some v := by
  unfold setA
  by_cases hany : m.any (fun q => decide (q.1 = k)) = true
  · rw [if_pos hany]
    exact lookupA_map_overwrite_self k v m hany
  · rw [if_neg hany]
    unfold lookupA
    rw [List.find?_append]
    have hnone : List.find? (fun p => decide (p.1 = k)) m = none := by
      refine List.find?_eq_none.mpr ?_
      intro q hq
      by_contra hc
      exact hany (List.any_eq_true.mpr ⟨q, hq, by simpa using hc⟩)
    rw [hnone]
    simp

theorem lookupA_setA_ne [DecidableEq κ] (m : List (κ × α)) (k k' : κ) (v : α)
    (h : k' ≠ k) : lookupA (setA m k v) k' = lookupA m k' := by
  unfold setA
  by_cases hany : m.any (fun q => decide (q.1 = k)) = true
  · rw [if_pos hany]
    exact lookupA_map_overwrite_ne k k' v h m
  · rw [if_neg hany]
    unfold lookupA
    rw [List.find?_append]
    have : List.find? (fun p => decide (p.1 = k')) [(k, v)] = none := by
      simp [Ne.symm h]
    rw [this]
    cases List.find? (fun p => decide (p.1 = k')) m <;> simp

theorem getA_setA_self [DecidableEq κ] (m : List (κ × α)) (k : κ) (v dflt : α) :
    getA (setA m k v) k dflt = v := by
  unfold getA
  rw [lookupA_setA_self]

theorem getA_setA_ne [DecidableEq κ] (m : List (κ × α)) (k k' : κ) (v dflt : α)
    (h : k' ≠ k) : getA (setA m k v) k' dflt = getA m k' dflt := by
  unfold getA
  rw [lookupA_setA_ne m k k' v h]

theorem mem_delA [DecidableEq κ] (m : List (κ × α)) (k : κ) (p : κ × α) :
    p ∈ delA m k ↔ p ∈ m ∧ p.1 ≠ k := by
  unfold delA
  rw [List.mem_filter]
  simp

theorem keysNodup_unique [DecidableEq κ] {m : List (κ × α)} (h : KeysNodup m)
    {p q : κ × α} (hp : p ∈ m) (hq : q ∈ m) (hk : p.1 = q.1) : p = q :=
  List.inj_on_of_nodup_map h hp hq hk

/-! ## Claim C10 -/

/-- C10: whenever the active-validator set is empty,
`DPOS.get_next_block_validator` raises (`% 0` on the empty sorted active
list, modelled as `none`) instead of returning a validator or a defined
error value, for every current time. -/
theorem C10_empty_active_raises (st : DPOS) (now : Int)
    (h : st.active_validators = []) : st.get_next_block_validator now = none := by
  unfold DPOS.get_next_block_validator
  rw [h]
  by_cases hb : st.block_interval = 0 <;> simp [sortS, hb]

theorem C10_empty_active_raises_witness :
    c10Dpos.get_next_block_validator 7 = none :=
  C10_empty_active_raises c10Dpos 7 rfl

/-! ## Claim C1 -/

/-- C1: evaluation of the code at the failing input.  In `c1Csm` the
destination shard 1 exists and has a validator, but the readiness check's
internal `get_current_time_slot` call raises (the current slot's shard 0
was never initialized).  `_verify_shard_ready` swallows the exception and
returns `True`, so `process_messages` marks the message delivered and
confirmed: the exception inside the readiness check is surfaced as
success, exactly what the claim (and spec §4.8/§9) says must not
happen. -/
theorem C1_exception_masked_as_ready :
    c1Csm.time_sharding.get_current_time_slot 5 = Except.error "slot shard not initialized" ∧
    c1Csm.verify_shard_ready 5 1 = true ∧
    (c1Csm.process_message 5 c1Msg).1 = true ∧
    (c1Csm.process_message 5 c1Msg).2.status = "delivered" ∧
    (c1Csm.process_messages 5 1).confirmed_messages = ["m1"] ∧
    lookupA (c1Csm.process_messages 5 1).pending_messages "m1" = none ∧
    getA (c1Csm.process_messages 5 1).message_queue 1 [] = [] :=
  ⟨by decide, by decide, by decide, by decide, by decide, by decide, by decide⟩

/-! ## Claim C4 -/

theorem chainPairsOk_iff (prev : Block) :
    ∀ l : List Block, chainPairsOk prev l = true ↔ List.Chain' BlockLinked (prev :: l) := by
  intro l
  induction l generalizing prev with
  | nil => simp [chainPairsOk]
  | cons b rest ih =>
    have hred : chainPairsOk prev (b :: rest) =
        ((decide (b.height = prev.height + 1) &&
          decide (b.previous_hash = Block.hash prev)) && chainPairsOk b rest) := rfl
    rw [hred, List.chain'_cons, ← ih b]
    simp [BlockLinked, Bool.and_eq_true, and_assoc]

/-- C4 counterexample: the single-block chain `[c4B5]` (height 5) passes
`is_valid_chain` — the loop checks only adjacent pairs, never that
heights start at 0 — but heights are not contiguous from 0, so the
claimed equivalence fails at this input. -/
theorem C4_counterexample : is_valid_chain [c4B5] = true ∧ ¬ SpecValidChain [c4B5] := by
  constructor
  · rfl
  · intro h
    exact absurd h.2 (by decide)

/-- C4 amended: `is_valid_chain C` succeeds iff `C` is nonempty and every
block's `previous_hash` equals its predecessor's computed digest with
heights incrementing by one — with no constraint on the starting height
(the "contiguous starting from 0" part of the claim is not checked). -/
theorem C4_amended (chain : List Block) :
    is_valid_chain chain = true ↔ chain ≠ [] ∧ List.Chain' BlockLinked chain := by
  cases chain with
  | nil => simp [is_valid_chain]
  | cons b rest =>
    unfold is_valid_chain
    rw [chainPairsOk_iff]
    simp

/-! ## Claim C2 counterexample -/

/-- C2 counterexample: after two `update_state(0, ...)` calls with no
intervening sync, both pending updates carry version 1 — the second call
does not assign a version strictly greater than the first's — and
`update_state(-1, ...)` succeeds although shard `-1` is out of range. -/
theorem C2_counterexample :
    (c2S2.pending_updates.map (fun p => p.2.version)) = [1, 1] ∧
    ((StateSyncManager.init 2).update_state 5 (-1) [("x", 1)]).isOk = true :=
  ⟨by decide, by decide⟩

/-! ## Claim C3 counterexample -/

/-- C3 counterexample: syncing shard 0 of `c3S` (applied version 2, one
pending update with stale version 1) leaves the stale update in the
pending set (the claim says it is removed) and rewrites the shard's
applied-version counter from 2 down to 1 (the claim says it never
decreases); the shard state itself is unchanged. -/
theorem C3_counterexample :
    (c3S.sync_state 0).1 = true ∧
    lookupA (c3S.sync_state 0).2.pending_updates "u1" =
      some { update_id := "u1", shard_id := 0, data := [("balance", 9)], timestamp := 0
             version := 1, status := "pending" } ∧
    getA c3S.state_versions 0 0 = 2 ∧
    getA (c3S.sync_state 0).2.state_versions 0 0 = 1 ∧
    (c3S.sync_state 0).2.state_cache = c3S.state_cache :=
  ⟨by decide, by decide, by decide, by decide, by decide⟩

/-! ## Claim C6 counterexample -/

/-- C6 counterexample: two states registering the same validators with
the same vote totals (both zero) in opposite orders.  With one active
slot, the earlier-registered validator wins the tie in each state, so the
active set is not a function of vote totals and addresses: ties are
broken by registration (insertion) order, not by address. -/
theorem C6_counterexample :
    c6DposBA.update_active_validators.active_validators = ["b"] ∧
    c6DposAB.update_active_validators.active_validators = ["a"] ∧
    c6VA.votes = c6VB.votes :=
  ⟨by decide, by decide, by decide⟩

/-! ## Claim C7 counterexample -/

/-- C7 counterexample: with `required_confirmations = 0` and no votes
cast, the distinct-voter count (0) has reached the threshold, yet
`is_block_confirmed` returns false (the hash has no vote entry), so
confirmation does not become true exactly when the count reaches the
threshold. -/
theorem C7_counterexample :
    (BlockConfirmation.init 0).required_confirmations ≤
      (BlockConfirmation.init 0).get_block_votes "h" ∧
    (BlockConfirmation.init 0).is_block_confirmed "h" = false :=
  ⟨by decide, by decide⟩

/-! ## Claim C8 counterexample -/

/-- C8 counterexample: `c8Pool` is full and its current minimum gas price
is 1; `c8T1Dup` offers gas price 2, strictly above the minimum, yet
`add_transaction` returns false and leaves the pool unchanged, because
its tx id collides with a pending transaction and validation rejects it
before the eviction path. -/
theorem C8_counterexample :
    c8Pool.pending_txs.length = c8Pool.max_size ∧
    c8Pool.currentMin < c8T1Dup.gas_price ∧
    c8Pool.add_transaction c8T1Dup = some (false, c8Pool) :=
  ⟨by decide, by decide, by decide⟩

/-! ## Claim C2 amended -/

/-- C2 amended: `update_state` raises exactly when
`shard_id >= shard_count` (so negative ids are accepted, not rejected);
on success the enqueued update's version is the shard's currently-applied
version plus one — strictly greater than the applied version, but not
necessarily greater than the versions of updates created earlier (two
calls with no intervening successful sync assign equal versions, see the
counterexample).  The applied-version map and the shard state are
untouched. -/
theorem C2_amended (st : StateSyncManager) (now shard_id : Int)
    (data : List (String × Int)) :
    (st.shard_count ≤ shard_id → (st.update_state now shard_id data).isOk = false) ∧
    (shard_id < st.shard_count →
      ∃ uid st2, st.update_state now shard_id data = Except.ok (uid, st2) ∧
        ∃ u, lookupA st2.pending_updates uid = some u ∧
          u.shard_id = shard_id ∧
          u.version = getA st.state_versions shard_id 0 + 1 ∧
          getA st.state_versions shard_id 0 < u.version ∧
          st2.state_versions = st.state_versions ∧
          st2.state_cache = st.state_cache) := by
  constructor
  · intro h
    unfold StateSyncManager.update_state
    rw [if_pos h]
    rfl
  · intro h
    unfold StateSyncManager.update_state
    rw [if_neg (by omega)]
    refine ⟨_, _, rfl, ?_⟩
    exact ⟨_, lookupA_setA_self _ _ _, rfl, rfl, Nat.lt_succ_self _, rfl, rfl⟩

theorem C2_amended_witness :
    (((StateSyncManager.init 2).update_state 1 5 []).isOk = false) ∧
    (∃ uid st2, (StateSyncManager.init 2).update_state 1 0 [] = Except.ok (uid, st2) ∧
      ∃ u, lookupA st2.pending_updates uid = some u ∧
        u.shard_id = 0 ∧
        u.version = getA (StateSyncManager.init 2).state_versions 0 0 + 1 ∧
        getA (StateSyncManager.init 2).state_versions 0 0 < u.version ∧
        st2.state_versions = (StateSyncManager.init 2).state_versions ∧
        st2.state_cache = (StateSyncManager.init 2).state_cache) :=
  ⟨(C2_amended (StateSyncManager.init 2) 1 5 []).1 (by decide),
   (C2_amended (StateSyncManager.init 2) 1 0 []).2 (by decide)⟩

/-! ## Claim C7 amended -/

theorem runVotes_append (st : BlockConfirmation) :
    ∀ a b : List (String × String),
      BlockConfirmation.runVotes st (a ++ b) =
        BlockConfirmation.runVotes (BlockConfirmation.runVotes st a) b := by
  intro a
  induction a generalizing st with
  | nil => intro b; rfl
  | cons p rest ih =>
    intro b
    cases p with
    | mk h v =>
      show BlockConfirmation.runVotes (st.vote_block h v).2 (rest ++ b) = _
      rw [ih]
      rfl

theorem specDistinctVoters_append_same (votes : List (String × String)) (h v : String) :
    specDistinctVoters (votes ++ [(h, v)]) h = specDistinctVoters votes h ∪ {v} := by
  unfold specDistinctVoters
  rw [List.filter_append, List.map_append]
  simp

theorem specDistinctVoters_append_ne (votes : List (String × String)) (h h2 v : String)
    (hne : h ≠ h2) :
    specDistinctVoters (votes ++ [(h2, v)]) h = specDistinctVoters votes h := by
  unfold specDistinctVoters
  rw [List.filter_append, List.map_append]
  have : List.filter (fun p => decide (p.1 = h)) [(h2, v)] = [] := by
    simp [Ne.symm hne]
  rw [this]
  simp

theorem bcVotersOk_step (st : BlockConfirmation) (votes : List (String × String))
    (h2 v : String) (hok : BCVotersOk st votes) :
    BCVotersOk (st.vote_block h2 v).2 (votes ++ [(h2, v)]) := by
  intro h
  unfold BlockConfirmation.vote_block
  simp only
  by_cases hh : h = h2
  · subst hh
    rw [lookupA_setA_self]
    have hspec := specDistinctVoters_append_same votes h v
    cases hlk : lookupA st.block_votes h with
    | none =>
      have hempty : specDistinctVoters votes h = ∅ := by
        have := hok h
        rw [hlk] at this
        exact this
      have hget : getA st.block_votes h [] = [] := by unfold getA; rw [hlk]
      rw [hget]
      simp [hspec, hempty]
    | some voters0 =>
      have hinv := hok h
      rw [hlk] at hinv
      rcases hinv with ⟨hnod, hfin⟩
      have hget : getA st.block_votes h [] = voters0 := by unfold getA; rw [hlk]
      rw [hget]
      by_cases hv : v ∈ voters0
      · rw [if_pos hv]
        refine ⟨hnod, ?_⟩
        rw [hspec, ← hfin]
        exact (Finset.union_eq_left.mpr
          (Finset.singleton_subset_iff.mpr (List.mem_toFinset.mpr hv))).symm
      · rw [if_neg hv]
        constructor
        · simp [List.nodup_append, hnod, hv]
        · rw [hspec, ← hfin]
          simp [Finset.union_comm]
  · rw [lookupA_setA_ne _ _ _ _ hh]
    rw [specDistinctVoters_append_ne votes h h2 v hh]
    exact hok h

theorem bcVotersOk_run (req : Nat) (votes : List (String × String)) :
    BCVotersOk (BlockConfirmation.runVotes (BlockConfirmation.init req) votes) votes := by
  induction votes using List.reverseRecOn with
  | nil =>
    intro h
    show specDistinctVoters [] h = ∅
    simp [specDistinctVoters]
  | append_singleton rest p ih =>
    rw [runVotes_append]
    cases p with
    | mk h2 v =>
      show BCVotersOk (BlockConfirmation.runVotes _ ((h2, v) :: [])) _
      have hstep := bcVotersOk_step _ rest h2 v ih
      exact hstep

theorem get_block_votes_eq_card (req : Nat) (votes : List (String × String)) (h : String) :
    (BlockConfirmation.runVotes (BlockConfirmation.init req) votes).get_block_votes h =
      (specDistinctVoters votes h).card := by
  have hok := bcVotersOk_run req votes h
  unfold BlockConfirmation.get_block_votes
  cases hlk : lookupA (BlockConfirmation.runVotes (BlockConfirmation.init req) votes).block_votes h with
  | none =>
    rw [hlk] at hok
    rw [hok]
    rfl
  | some voters =>
    rw [hlk] at hok
    rcases hok with ⟨hnod, hfin⟩
    rw [← hfin, List.toFinset_card_of_nodup hnod]

theorem is_confirmed_iff_votes (st : BlockConfirmation) (h : String) (hreq : 1 ≤ st.required_confirmations) :
    (st.is_block_confirmed h = true ↔ st.required_confirmations ≤ st.get_block_votes h) := by
  unfold BlockConfirmation.is_block_confirmed BlockConfirmation.get_block_votes
  cases lookupA st.block_votes h with
  | none =>
    constructor
    · intro hc
      cases hc
    · intro hc
      exact absurd (le_trans hreq hc) (by decide)
  | some voters => simp

theorem runVotes_required (st : BlockConfirmation) :
    ∀ votes, (BlockConfirmation.runVotes st votes).required_confirmations =
      st.required_confirmations := by
  intro votes
  induction votes generalizing st with
  | nil => rfl
  | cons p rest ih =>
    cases p with
    | mk h v =>
      show (BlockConfirmation.runVotes (st.vote_block h v).2 rest).required_confirmations = _
      rw [ih]
      rfl

/-- C7 amended: for `required_confirmations ≥ 1` (the degenerate
threshold 0 fails, see the counterexample) the claim holds: after any
call sequence, `is_block_confirmed h` is true exactly when the number of
distinct validators that voted for `h` has reached the threshold; a
duplicate vote never increases the distinct-voter count; and once
confirmed, `h` stays confirmed under any further `vote_block` calls. -/
theorem C7_amended (req : Nat) (hreq : 1 ≤ req) (votes more : List (String × String))
    (h v : String) :
    ((BlockConfirmation.runVotes (BlockConfirmation.init req) votes).is_block_confirmed h
        = true ↔ req ≤ (specDistinctVoters votes h).card) ∧
    ((h, v) ∈ votes →
      (BlockConfirmation.runVotes (BlockConfirmation.init req)
        (votes ++ [(h, v)])).get_block_votes h =
      (BlockConfirmation.runVotes (BlockConfirmation.init req) votes).get_block_votes h) ∧
    ((BlockConfirmation.runVotes (BlockConfirmation.init req) votes).is_block_confirmed h
        = true →
      (BlockConfirmation.runVotes (BlockConfirmation.init req)
        (votes ++ more)).is_block_confirmed h = true) := by
  have hreq2 : (BlockConfirmation.runVotes (BlockConfirmation.init req) votes).required_confirmations = req :=
    runVotes_required _ votes
  refine ⟨?_, ?_, ?_⟩
  · rw [is_confirmed_iff_votes _ h (by rw [hreq2]; exact hreq), hreq2,
      get_block_votes_eq_card]
  · intro hmem
    rw [get_block_votes_eq_card, get_block_votes_eq_card,
      specDistinctVoters_append_same]
    have hv : v ∈ specDistinctVoters votes h := by
      unfold specDistinctVoters
      rw [List.mem_toFinset]
      exact List.mem_map_of_mem Prod.snd (List.mem_filter.mpr ⟨hmem, by simp⟩)
    rw [Finset.union_eq_left.mpr (Finset.singleton_subset_iff.mpr hv)]
  · intro hconf
    have hreq3 : (BlockConfirmation.runVotes (BlockConfirmation.init req) (votes ++ more)).required_confirmations = req :=
      runVotes_required _ _
    rw [is_confirmed_iff_votes _ h (by rw [hreq2]; exact hreq), hreq2,
      get_block_votes_eq_card] at hconf
    rw [is_confirmed_iff_votes _ h (by rw [hreq3]; exact hreq), hreq3,
      get_block_votes_eq_card]
    refine le_trans hconf (Finset.card_le_card ?_)
    unfold specDistinctVoters
    intro x hx
    rw [List.mem_toFinset] at hx ⊢
    rw [List.filter_append, List.map_append]
    exact List.mem_append.mpr (Or.inl hx)

theorem C7_amended_witness :
    ((BlockConfirmation.runVotes (BlockConfirmation.init 2)
        [("h", "v1"), ("h", "v2")]).is_block_confirmed "h" = true ↔
      2 ≤ (specDistinctVoters [("h", "v1"), ("h", "v2")] "h").card) ∧
    (("h", "v1") ∈ [("h", "v1"), ("h", "v2")] →
      (BlockConfirmation.runVotes (BlockConfirmation.init 2)
        ([("h", "v1"), ("h", "v2")] ++ [("h", "v1")])).get_block_votes "h" =
      (BlockConfirmation.runVotes (BlockConfirmation.init 2)
        [("h", "v1"), ("h", "v2")]).get_block_votes "h") ∧
    ((BlockConfirmation.runVotes (BlockConfirmation.init 2)
        [("h", "v1"), ("h", "v2")]).is_block_confirmed "h" = true →
      (BlockConfirmation.runVotes (BlockConfirmation.init 2)
        ([("h", "v1"), ("h", "v2")] ++ [("g", "v3")])).is_block_confirmed "h" = true) :=
  C7_amended 2 (by decide) [("h", "v1"), ("h", "v2")] [("g", "v3")] "h" "v1"

/-! ## Claim C3 amended -/

theorem applyStateUpdate_fst (vers : List (Int × Nat)) (cache : List (Int × List (String × Int)))
    (u : StateUpdate) :
    (applyStateUpdate vers cache u).1 = decide (getA vers u.shard_id 0 < u.version) := by
  unfold applyStateUpdate
  by_cases h : u.version ≤ getA vers u.shard_id 0
  · rw [if_pos h]
    simp
    omega
  · rw [if_neg h]
    simp
    omega

theorem applyStateUpdate_stale (vers : List (Int × Nat)) (cache : List (Int × List (String × Int)))
    (u : StateUpdate) (h : u.version ≤ getA vers u.shard_id 0) :
    applyStateUpdate vers cache u = (false, cache) := by
  unfold applyStateUpdate
  rw [if_pos h]

theorem syncStep_stale (vers : List (Int × Nat)) (acc : StateSyncManager) (u : StateUpdate)
    (h : u.version ≤ getA vers u.shard_id 0) : syncStep vers acc u = acc := by
  unfold syncStep
  rw [applyStateUpdate_stale vers acc.state_cache u h]
  rfl

theorem syncStep_versions (vers : List (Int × Nat)) (acc : StateSyncManager) (u : StateUpdate) :
    (syncStep vers acc u).state_versions = acc.state_versions := by
  unfold syncStep
  rcases he : applyStateUpdate vers acc.state_cache u with ⟨ok, c2⟩
  cases ok <;> rfl

theorem foldl_syncStep_versions (vers : List (Int × Nat)) :
    ∀ (L : List StateUpdate) (acc : StateSyncManager),
      (L.foldl (syncStep vers) acc).state_versions = acc.state_versions := by
  intro L
  induction L with
  | nil => intro acc; rfl
  | cons u L2 ih =>
    intro acc
    show (L2.foldl (syncStep vers) (syncStep vers acc u)).state_versions = _
    rw [ih, syncStep_versions]

theorem syncStep_pending_mem (vers : List (Int × Nat)) (acc : StateSyncManager)
    (u : StateUpdate) (p : String × StateUpdate) :
    p ∈ (syncStep vers acc u).pending_updates ↔
      p ∈ acc.pending_updates ∧ (getA vers u.shard_id 0 < u.version → p.1 ≠ u.update_id) := by
  unfold syncStep
  rcases he : applyStateUpdate vers acc.state_cache u with ⟨ok, c2⟩
  have hfst : ok = decide (getA vers u.shard_id 0 < u.version) := by
    rw [← applyStateUpdate_fst vers acc.state_cache u, he]
  by_cases hcond : getA vers u.shard_id 0 < u.version
  · have hok : ok = true := by rw [hfst]; simp [hcond]
    subst hok
    show p ∈ delA acc.pending_updates u.update_id ↔ _
    rw [mem_delA]
    simp [hcond]
  · have hok : ok = false := by rw [hfst]; simp [hcond]
    subst hok
    show p ∈ acc.pending_updates ↔ _
    simp [hcond]

theorem foldl_syncStep_pending_mem (vers : List (Int × Nat)) :
    ∀ (L : List StateUpdate) (acc : StateSyncManager) (p : String × StateUpdate),
      p ∈ (L.foldl (syncStep vers) acc).pending_updates ↔
        p ∈ acc.pending_updates ∧
          ∀ u ∈ L, getA vers u.shard_id 0 < u.version → p.1 ≠ u.update_id := by
  intro L
  induction L with
  | nil => intro acc p; simp
  | cons u L2 ih =>
    intro acc p
    show p ∈ (L2.foldl (syncStep vers) (syncStep vers acc u)).pending_updates ↔ _
    rw [ih, syncStep_pending_mem]
    rw [List.forall_mem_cons]
    tauto

theorem foldl_syncStep_all_stale (vers : List (Int × Nat)) :
    ∀ (L : List StateUpdate) (acc : StateSyncManager),
      (∀ u ∈ L, u.version ≤ getA vers u.shard_id 0) →
        L.foldl (syncStep vers) acc = acc := by
  intro L
  induction L with
  | nil => intro acc _; rfl
  | cons u L2 ih =>
    intro acc hall
    show L2.foldl (syncStep vers) (syncStep vers acc u) = acc
    rw [syncStep_stale vers acc u (hall u (List.mem_cons_self u L2))]
    exact ih acc (fun w hw => hall w (List.mem_cons_of_mem u hw))

theorem pairwise_le_getLast (le : α → α → Bool) (hrefl : ∀ a, le a a = true) :
    ∀ L : List α, L.Pairwise (fun a b => le a b = true) →
      ∀ z, L.getLast? = some z → ∀ w ∈ L, le w z = true := by
  intro L
  induction L with
  | nil => intro _ z hz; cases hz
  | cons a t ih =>
    intro hpw z hz w hw
    cases t with
    | nil =>
      have hza : a = z := by simpa using hz
      have hwa : w = a := by simpa using hw
      rw [hwa, ← hza]
      exact hrefl a
    | cons b t2 =>
      rw [List.getLast?_cons_cons] at hz
      rcases List.pairwise_cons.mp hpw with ⟨hhead, htail⟩
      rcases List.mem_cons.mp hw with hw | hw
      · rw [hw]
        exact hhead z (getLast?_mem hz)
      · exact ih htail z hz w hw

theorem versionLeB_total (a b : StateUpdate) : versionLeB a b = true ∨ versionLeB b a = true := by
  unfold versionLeB
  rcases Nat.le_total a.version b.version with h | h
  · left; simpa using h
  · right; simpa using h

theorem versionLeB_trans (a b c : StateUpdate) (h1 : versionLeB a b = true)
    (h2 : versionLeB b c = true) : versionLeB a c = true := by
  unfold versionLeB at h1 h2 ⊢
  simp at h1 h2 ⊢
  omega

theorem sync_state_eq (st : StateSyncManager) (shard_id : Int)
    (h : shard_id < st.shard_count) :
    st.sync_state shard_id =
      (true,
        let sorted := sortS versionLeB
          ((st.pending_updates.map Prod.snd).filter (fun u => decide (u.shard_id = shard_id)))
        let st2 := sorted.foldl (syncStep st.state_versions) st
        match sorted.getLast? with
        | none => st2
        | some lastu =>
          { st2 with state_versions := setA st2.state_versions shard_id lastu.version }) := by
  unfold StateSyncManager.sync_state
  rw [if_neg (by omega)]

/-- C3 amended: for in-range shards, `sync_state` returns true and applies
exactly those snapshot updates whose version exceeds the shard's
applied version at entry.  A stale update (version ≤ entry applied
version) is skipped: it does not change the shard state, but — contrary
to the claim — it stays in the pending set.  Updates of other shards are
untouched.  When the snapshot is nonempty the applied-version counter is
set to the largest version in the snapshot, which may be smaller than its
entry value (see the counterexample); when the snapshot is empty it is
unchanged. -/
theorem C3_amended (st : StateSyncManager) (shard_id : Int)
    (snapshot : List StateUpdate) (applied0 : Nat)
    (hin : shard_id < st.shard_count)
    (hkeys : KeysNodup st.pending_updates)
    (hwk : PendingWellKeyed st)
    (hsnap : snapshot =
      (st.pending_updates.map Prod.snd).filter (fun u => decide (u.shard_id = shard_id)))
    (happ : applied0 = getA st.state_versions shard_id 0) :
    (st.sync_state shard_id).1 = true ∧
    (snapshot = [] → (st.sync_state shard_id).2.state_versions = st.state_versions) ∧
    (snapshot ≠ [] → ∃ u ∈ snapshot,
      getA (st.sync_state shard_id).2.state_versions shard_id 0 = u.version ∧
      ∀ w ∈ snapshot, w.version ≤ u.version) ∧
    (∀ p ∈ st.pending_updates, p.2.shard_id = shard_id →
      (p ∈ (st.sync_state shard_id).2.pending_updates ↔ p.2.version ≤ applied0)) ∧
    (∀ p ∈ st.pending_updates, p.2.shard_id ≠ shard_id →
      p ∈ (st.sync_state shard_id).2.pending_updates) ∧
    ((∀ u ∈ snapshot, u.version ≤ applied0) →
      (st.sync_state shard_id).2.state_cache = st.state_cache) := by
  rw [sync_state_eq st shard_id hin]
  simp only
  have hperm : List.Perm (sortS versionLeB snapshot) snapshot := sortS_perm _ _
  have hsorted : (sortS versionLeB snapshot).Pairwise (fun a b => versionLeB a b = true) :=
    sortS_pairwise versionLeB versionLeB_total versionLeB_trans snapshot
  rw [← hsnap]
  -- membership characterization of a snapshot element as a pending entry
  have hsnap_entry : ∀ u ∈ snapshot, ∃ q ∈ st.pending_updates,
      q.2 = u ∧ q.1 = u.update_id ∧ u.shard_id = shard_id := by
    intro u hu
    rw [hsnap] at hu
    rcases List.mem_filter.mp hu with ⟨humem, hushard⟩
    rcases List.mem_map.mp humem with ⟨q, hq, hq2⟩
    refine ⟨q, hq, hq2, ?_, by simpa using hushard⟩
    rw [← hq2]
    exact (hwk q hq).symm
  have hpending_core : ∀ p ∈ st.pending_updates,
      (p ∈ ((sortS versionLeB snapshot).foldl (syncStep st.state_versions) st).pending_updates ↔
        ∀ u ∈ snapshot, getA st.state_versions u.shard_id 0 < u.version → p.1 ≠ u.update_id) := by
    intro p hp
    rw [foldl_syncStep_pending_mem]
    constructor
    · intro hh u hu hcond
      exact hh.2 u (hperm.mem_iff.mpr hu) hcond
    · intro hh
      exact ⟨hp, fun u hu hcond => hh u (hperm.mem_iff.mp hu) hcond⟩
  cases hlast : (sortS versionLeB snapshot).getLast? with
  | none =>
    have hsnil : sortS versionLeB snapshot = [] := by
      cases hs : sortS versionLeB snapshot with
      | nil => rfl
      | cons a t =>
        rw [hs] at hlast
        rw [List.getLast?_eq_getLast_of_ne_nil (List.cons_ne_nil a t)] at hlast
        cases hlast
    have hsnapnil : snapshot = [] := by
      have := hperm.length_eq
      rw [hsnil] at this
      exact List.length_eq_zero.mp this.symm
    refine ⟨by trivial, ?_, ?_, ?_, ?_, ?_⟩
    · intro _
      rw [hsnil]
      rfl
    · intro hne
      exact absurd hsnapnil hne
    · intro p hp hps
      have hu : p.2 ∈ snapshot := by
        rw [hsnap]
        exact List.mem_filter.mpr ⟨List.mem_map_of_mem Prod.snd hp, by simpa using hps⟩
      rw [hsnapnil] at hu
      cases hu
    · intro p hp _
      rw [hsnil]
      exact hp
    · intro _
      rw [hsnil]
      rfl
  | some lastu =>
    have hlmem : lastu ∈ snapshot := hperm.mem_iff.mp (getLast?_mem hlast)
    have hmax : ∀ w ∈ snapshot, w.version ≤ lastu.version := by
      intro w hw
      have := pairwise_le_getLast versionLeB (by intro a; simp [versionLeB])
        (sortS versionLeB snapshot) hsorted lastu hlast w (hperm.mem_iff.mpr hw)
      unfold versionLeB at this
      simpa using this
    refine ⟨by trivial, ?_, ?_, ?_, ?_, ?_⟩
    · intro hnil
      rw [hnil] at hlmem
      cases hlmem
    · intro _
      refine ⟨lastu, hlmem, ?_, hmax⟩
      show getA (setA _ shard_id lastu.version) shard_id 0 = lastu.version
      exact getA_setA_self _ _ _ _
    · intro p hp hps
      show p ∈ ((sortS versionLeB snapshot).foldl (syncStep st.state_versions) st).pending_updates ↔ _
      rw [hpending_core p hp]
      constructor
      · intro hh
        by_contra hgt
        push_neg at hgt
        have hu : p.2 ∈ snapshot := by
          rw [hsnap]
          exact List.mem_filter.mpr ⟨List.mem_map_of_mem Prod.snd hp, by simpa using hps⟩
        have := hh p.2 hu (by rw [hps, ← happ]; omega)
        exact this (hwk p hp).symm
      · intro hle u hu hcond
        intro heq
        rcases hsnap_entry u hu with ⟨q, hq, hq2, hq1, hushard⟩
        have hpq : p = q := keysNodup_unique hkeys hp hq (by rw [heq, hq1])
        rw [hushard, ← happ] at hcond
        rw [hpq, hq2] at hle
        omega
    · intro p hp hps
      show p ∈ ((sortS versionLeB snapshot).foldl (syncStep st.state_versions) st).pending_updates
      rw [hpending_core p hp]
      intro u hu hcond heq
      rcases hsnap_entry u hu with ⟨q, hq, hq2, hq1, hushard⟩
      have hpq : p = q := keysNodup_unique hkeys hp hq (by rw [heq, hq1])
      rw [hpq, hq2] at hps
      exact hps hushard
    · intro hstale
      show ((sortS versionLeB snapshot).foldl (syncStep st.state_versions) st).state_cache =
        st.state_cache
      rw [foldl_syncStep_all_stale]
      intro u hu
      have hu2 : u ∈ snapshot := hperm.mem_iff.mp hu
      rcases hsnap_entry u hu2 with ⟨q, hq, hq2, hq1, hushard⟩
      rw [hushard, ← happ]
      exact hstale u hu2

theorem C3_amended_witness :
    ((c3S.sync_state 0).1 = true ∧
    ([{ update_id := "u1", shard_id := 0, data := [("balance", 9)], timestamp := 0,
        version := 1, status := "pending" }] = ([] : List StateUpdate) →
      (c3S.sync_state 0).2.state_versions = c3S.state_versions) ∧
    ([{ update_id := "u1", shard_id := 0, data := [("balance", 9)], timestamp := 0,
        version := 1, status := "pending" }] ≠ ([] : List StateUpdate) → ∃ u ∈
          [({ update_id := "u1", shard_id := 0, data := [("balance", 9)], timestamp := 0,
              version := 1, status := "pending" } : StateUpdate)],
      getA (c3S.sync_state 0).2.state_versions 0 0 = u.version ∧
      ∀ w ∈ [({ update_id := "u1", shard_id := 0, data := [("balance", 9)], timestamp := 0,
                version := 1, status := "pending" } : StateUpdate)], w.version ≤ u.version) ∧
    (∀ p ∈ c3S.pending_updates, p.2.shard_id = 0 →
      (p ∈ (c3S.sync_state 0).2.pending_updates ↔ p.2.version ≤ 2)) ∧
    (∀ p ∈ c3S.pending_updates, p.2.shard_id ≠ 0 →
      p ∈ (c3S.sync_state 0).2.pending_updates) ∧
    ((∀ u ∈ [({ update_id := "u1", shard_id := 0, data := [("balance", 9)], timestamp := 0,
                version := 1, status := "pending" } : StateUpdate)], u.version ≤ 2) →
      (c3S.sync_state 0).2.state_cache = c3S.state_cache)) :=
  C3_amended c3S 0
    [{ update_id := "u1", shard_id := 0, data := [("balance", 9)], timestamp := 0,
       version := 1, status := "pending" }] 2
    (by decide) (by unfold KeysNodup; decide) (by unfold PendingWellKeyed; decide)
    (by decide) (by decide)

/-! ## Claim C6 amended -/

theorem votesGeB_total (a b : Validator) : votesGeB a b = true ∨ votesGeB b a = true := by
  unfold votesGeB
  rcases Int.le_total a.votes b.votes with h | h
  · right; simpa using h
  · left; simpa using h

theorem votesGeB_trans (a b c : Validator) (h1 : votesGeB a b = true)
    (h2 : votesGeB b c = true) : votesGeB a c = true := by
  unfold votesGeB at h1 h2 ⊢
  simp at h1 h2 ⊢
  omega

theorem update_active_validators_active_eq (st : DPOS) :
    st.update_active_validators.active_validators =
      ((sortS votesGeB st.validators).take st.max_validators).map Validator.address := rfl

theorem update_active_validators_validators_eq (st : DPOS) :
    st.update_active_validators.validators =
      st.validators.map (fun v =>
        { v with is_active :=
            decide (v.address ∈
              ((sortS votesGeB st.validators).take st.max_validators).map Validator.address) }) :=
  rfl

/-- C6 amended: after `update_active_validators`, exactly
`min (max_validators, registered_count)` validators are active (both as
the active-address set and as `is_active` flags), and they are exactly
the top-`max_validators` by vote total with ties broken by registration
(insertion) order — not by address (see the counterexample): every
active validator either strictly out-votes every inactive one, or ties
with it and appears earlier in the registration list. -/
theorem C6_amended (st : DPOS) (hnod : (st.validators.map Validator.address).Nodup) :
    (st.update_active_validators.active_validators.length =
      min st.max_validators st.validators.length) ∧
    ((st.update_active_validators.validators.filter (fun v => v.is_active)).length =
      min st.max_validators st.validators.length) ∧
    (∀ a ∈ st.validators, ∀ b ∈ st.validators,
      a.address ∈ st.update_active_validators.active_validators →
      b.address ∉ st.update_active_validators.active_validators →
        b.votes ≤ a.votes ∧ (b.votes = a.votes → List.Sublist [a, b] st.validators)) := by
  have hvnod : st.validators.Nodup := List.Nodup.of_map Validator.address hnod
  have hperm : List.Perm (sortS votesGeB st.validators) st.validators :=
    sortS_perm votesGeB st.validators
  have hlen : (sortS votesGeB st.validators).length = st.validators.length := hperm.length_eq
  have hsnod : (sortS votesGeB st.validators).Nodup := hperm.nodup_iff.mpr hvnod
  have hmapnod : ((sortS votesGeB st.validators).map Validator.address).Nodup :=
    (hperm.map Validator.address).nodup_iff.mpr hnod
  have hsorted : (sortS votesGeB st.validators).Pairwise (fun a b => votesGeB a b = true) :=
    sortS_pairwise votesGeB votesGeB_total votesGeB_trans st.validators
  have hactives_eq :
      ((sortS votesGeB st.validators).take st.max_validators).map Validator.address =
        ((sortS votesGeB st.validators).map Validator.address).take st.max_validators :=
    List.map_take Validator.address (sortS votesGeB st.validators) st.max_validators
  have hanod : (((sortS votesGeB st.validators).take st.max_validators).map
      Validator.address).Nodup := by
    rw [hactives_eq]
    exact hmapnod.sublist (List.take_sublist _ _)
  refine ⟨?_, ?_, ?_⟩
  · rw [update_active_validators_active_eq]
    rw [List.length_map, List.length_take, hlen]
  · rw [update_active_validators_validators_eq]
    rw [List.filter_map]
    rw [List.length_map]
    have hpred : ((fun v : Validator => v.is_active) ∘ (fun v : Validator =>
        { v with is_active :=
            decide (v.address ∈
              ((sortS votesGeB st.validators).take st.max_validators).map Validator.address) })) =
        (fun v : Validator =>
          decide (v.address ∈
            ((sortS votesGeB st.validators).take st.max_validators).map Validator.address)) := by
      funext v
      rfl
    rw [hpred]
    have hfilter_map : (st.validators.filter (fun v =>
        decide (v.address ∈
          ((sortS votesGeB st.validators).take st.max_validators).map Validator.address))).map
          Validator.address =
        (st.validators.map Validator.address).filter (fun x =>
          decide (x ∈
            ((sortS votesGeB st.validators).take st.max_validators).map Validator.address)) := by
      rw [List.filter_map]
      rfl
    have hsubset : ∀ x ∈ ((sortS votesGeB st.validators).take st.max_validators).map
        Validator.address, x ∈ st.validators.map Validator.address := by
      intro x hx
      rcases List.mem_map.mp hx with ⟨v, hv, hvx⟩
      exact hvx ▸ List.mem_map_of_mem Validator.address
        (hperm.mem_iff.mp (List.mem_of_mem_take hv))
    have hpermfin : List.Perm
        ((st.validators.map Validator.address).filter (fun x =>
          decide (x ∈
            ((sortS votesGeB st.validators).take st.max_validators).map Validator.address)))
        (((sortS votesGeB st.validators).take st.max_validators).map Validator.address) := by
      rw [List.perm_ext_iff_of_nodup (hnod.filter _) hanod]
      intro x
      rw [List.mem_filter]
      constructor
      · intro hx
        simpa using hx.2
      · intro hx
        exact ⟨hsubset x hx, by simpa using hx⟩
    have hl1 : (st.validators.filter (fun v =>
        decide (v.address ∈
          ((sortS votesGeB st.validators).take st.max_validators).map Validator.address))).length =
        (((sortS votesGeB st.validators).take st.max_validators).map Validator.address).length := by
      rw [← List.length_map _ Validator.address, hfilter_map]
      exact hpermfin.length_eq
    rw [hl1, List.length_map, List.length_take, hlen]
  · intro a ha b hb haact hbinact
    rw [update_active_validators_active_eq] at haact hbinact
    have hamem : a ∈ (sortS votesGeB st.validators).take st.max_validators := by
      rcases List.mem_map.mp haact with ⟨a2, ha2, ha2addr⟩
      have ha2v : a2 ∈ st.validators := hperm.mem_iff.mp (List.mem_of_mem_take ha2)
      have : a2 = a := List.inj_on_of_nodup_map hnod ha2v ha ha2addr
      exact this ▸ ha2
    have hbs : b ∈ sortS votesGeB st.validators := hperm.mem_iff.mpr hb
    have hbdrop : b ∈ (sortS votesGeB st.validators).drop st.max_validators := by
      rcases (List.mem_append.mp (by
        rw [List.take_append_drop st.max_validators (sortS votesGeB st.validators)]
        exact hbs)) with hbt | hbd
      · exact absurd (List.mem_map_of_mem Validator.address hbt) hbinact
      · exact hbd
    have hpwsplit := List.pairwise_append.mp (by
      rw [List.take_append_drop st.max_validators (sortS votesGeB st.validators)]
      exact hsorted)
    have hab : votesGeB a b = true := hpwsplit.2.2 a hamem b hbdrop
    have hble : b.votes ≤ a.votes := by
      unfold votesGeB at hab
      simpa using hab
    refine ⟨hble, ?_⟩
    intro htie
    have hanb : a ≠ b := by
      intro he
      exact hbinact (he ▸ haact)
    rcases pair_sublist_total hanb ha hb with hsub | hsub
    · exact hsub
    · exfalso
      have hba : votesGeB b a = true := by
        unfold votesGeB
        simp [htie]
      have hsorted_sub : List.Sublist [b, a] (sortS votesGeB st.validators) :=
        sortS_stable votesGeB votesGeB_total votesGeB_trans b a hba st.validators hsub
      have hidx : (sortS votesGeB st.validators).indexOf b <
          (sortS votesGeB st.validators).indexOf a :=
        indexOf_lt_of_pair_sublist hsnod hsorted_sub
      have hia : (sortS votesGeB st.validators).indexOf a < st.max_validators :=
        indexOf_lt_of_mem_take hamem
      have hbnotake : b ∉ (sortS votesGeB st.validators).take st.max_validators := by
        intro hbt
        have hdisj := List.disjoint_of_nodup_append (by
          rw [List.take_append_drop st.max_validators (sortS votesGeB st.validators)]
          exact hsnod)
        exact hdisj hbt hbdrop
      have hib : st.max_validators ≤ (sortS votesGeB st.validators).indexOf b := by
        by_contra hc
        push_neg at hc
        exact hbnotake (mem_take_of_indexOf_lt hbs hc)
      omega

theorem C6_amended_witness :
    (c6DposBA.update_active_validators.active_validators.length =
      min c6DposBA.max_validators c6DposBA.validators.length) ∧
    ((c6DposBA.update_active_validators.validators.filter (fun v => v.is_active)).length =
      min c6DposBA.max_validators c6DposBA.validators.length) ∧
    (∀ a ∈ c6DposBA.validators, ∀ b ∈ c6DposBA.validators,
      a.address ∈ c6DposBA.update_active_validators.active_validators →
      b.address ∉ c6DposBA.update_active_validators.active_validators →
        b.votes ≤ a.votes ∧ (b.votes = a.votes → List.Sublist [a, b] c6DposBA.validators)) :=
  C6_amended c6DposBA (by decide)

/-! ## Claim C5 -/

theorem iterHash_inj (d : Nat) : ∀ h1 h2 : PohHash, iterHash d h1 = iterHash d h2 → h1 = h2 := by
  induction d with
  | zero => intro h1 h2 h; exact h
  | succ n ih =>
    intro h1 h2 h
    have h2 := ih (PohHash.step h1 none) (PohHash.step h2 none) h
    injection h2

theorem step_ne_self : ∀ (h : PohHash) (d2 : Option String), PohHash.step h d2 ≠ h := by
  intro h
  induction h with
  | genesis => intro d2 he; exact absurd he (by simp)
  | step h2 d2 ih =>
    intro d3 he
    injection he with he1 he2
    exact ih d2 he1

theorem foldData_eq_effData (h : PohHash) (d : Option String) :
    foldData h d =
      match effData d with
      | none => h
      | some s => PohHash.step h (some s) := by
  cases d with
  | none => rfl
  | some s =>
    by_cases hs : s = "" <;> simp [foldData, dataTruthy, effData, hs]

theorem foldData_inj_hash (d : Option String) (h1 h2 : PohHash)
    (he : foldData h1 d = foldData h2 d) : h1 = h2 := by
  rw [foldData_eq_effData, foldData_eq_effData] at he
  cases hd : effData d with
  | none => rw [hd] at he; exact he
  | some s => rw [hd] at he; injection he with he1 he2

theorem foldData_ne_of_effData (h : PohHash) (d1 d2 : Option String)
    (hne : effData d1 ≠ effData d2) : foldData h d1 ≠ foldData h d2 := by
  rw [foldData_eq_effData, foldData_eq_effData]
  cases hd1 : effData d1 with
  | none =>
    cases hd2 : effData d2 with
    | none =>
      rw [hd1, hd2] at hne
      exact absurd rfl hne
    | some s2 =>
      intro he
      exact step_ne_self h (some s2) he.symm
  | some s1 =>
    cases hd2 : effData d2 with
    | none =>
      intro he
      exact step_ne_self h (some s1) he
    | some s2 =>
      intro he
      injection he with he1 he2
      injection he2 with he3
      rw [hd1, hd2] at hne
      exact hne (by rw [he3])

theorem verifySeg_iff_chain (d : Nat) :
    ∀ l : List HistoryNode, verifySeg d l = true ↔
      List.Chain' (fun a b => foldData (iterHash d a.hash) b.data = b.hash) l := by
  intro l
  induction l with
  | nil => simp [verifySeg]
  | cons a t ih =>
    cases t with
    | nil => simp [verifySeg]
    | cons b rest =>
      have hred : verifySeg d (a :: b :: rest) =
          ((foldData (iterHash d a.hash) b.data == b.hash) && verifySeg d (b :: rest)) := rfl
      rw [hred, List.chain'_cons]
      simp [Bool.and_eq_true, beq_iff_eq, ih]

theorem runTicks_append (d : Nat) (ds : List (Option String)) (x : Option String) :
    runTicks d (ds ++ [x]) = (runTicks d ds).tick x 0 := by
  unfold runTicks
  rw [List.foldl_concat]

theorem runTicks_difficulty (d : Nat) (ds : List (Option String)) :
    (runTicks d ds).difficulty = d := by
  induction ds using List.reverseRecOn with
  | nil => rfl
  | append_singleton ds x ih =>
    rw [runTicks_append]
    unfold ProofOfHistory.tick
    cases (runTicks d ds).history.getLast? <;> simpa using ih

theorem runTicks_ne_nil (d : Nat) (ds : List (Option String)) :
    (runTicks d ds).history ≠ [] := by
  induction ds using List.reverseRecOn with
  | nil => simp [runTicks, ProofOfHistory.init]
  | append_singleton ds x ih =>
    rw [runTicks_append]
    unfold ProofOfHistory.tick
    cases (runTicks d ds).history.getLast? <;> simp_all

theorem runTicks_chain (d : Nat) (ds : List (Option String)) :
    List.Chain' (fun a b => foldData (iterHash d a.hash) b.data = b.hash)
      (runTicks d ds).history := by
  induction ds using List.reverseRecOn with
  | nil => simp [runTicks, ProofOfHistory.init]
  | append_singleton ds x ih =>
    rw [runTicks_append]
    unfold ProofOfHistory.tick
    cases hlast : (runTicks d ds).history.getLast? with
    | none => simpa using ih
    | some prev =>
      show List.Chain' _ ((runTicks d ds).history ++ [_])
      rw [List.chain'_append]
      refine ⟨ih, List.chain'_singleton _, ?_⟩
      intro p hp y hy
      have hp2 : prev = p := by
        rw [hlast] at hp
        simpa using hp
      have hy2 : { sequence := prev.sequence + 1
                   hash := foldData (iterHash (runTicks d ds).difficulty prev.hash) x
                   data := x
                   timestamp := 0
                   counter := prev.counter + (runTicks d ds).difficulty +
                     (if dataTruthy x then 1 else 0) : HistoryNode } = y := by
        simpa using hy
      rw [← hp2, ← hy2]
      simp [runTicks_difficulty]

theorem runTicks_verify (d : Nat) (ds : List (Option String)) (s e : Nat)
    (he : e < (runTicks d ds).history.length) : (runTicks d ds).verify s e = true := by
  unfold ProofOfHistory.verify
  rw [if_neg (by omega), runTicks_difficulty, verifySeg_iff_chain]
  exact ((runTicks_chain d ds).drop s).take _

theorem updHash_length : ∀ (l : List HistoryNode) (i : Nat) (nh : PohHash),
    (updHash l i nh).length = l.length := by
  intro l
  induction l with
  | nil => intro i nh; rfl
  | cons a r ih =>
    intro i nh
    cases i with
    | zero => rfl
    | succ i2 => show (a :: updHash r i2 nh).length = _; simp [ih]

theorem updData_length : ∀ (l : List HistoryNode) (i : Nat) (nd : Option String),
    (updData l i nd).length = l.length := by
  intro l
  induction l with
  | nil => intro i nd; rfl
  | cons a r ih =>
    intro i nd
    cases i with
    | zero => rfl
    | succ i2 => show (a :: updData r i2 nd).length = _; simp [ih]

theorem updTimestamp_length : ∀ (l : List HistoryNode) (i : Nat) (t : Int),
    (updTimestamp l i t).length = l.length := by
  intro l
  induction l with
  | nil => intro i t; rfl
  | cons a r ih =>
    intro i t
    cases i with
    | zero => rfl
    | succ i2 => show (a :: updTimestamp r i2 t).length = _; simp [ih]

theorem updSequence_length : ∀ (l : List HistoryNode) (i : Nat) (v : Int),
    (updSequence l i v).length = l.length := by
  intro l
  induction l with
  | nil => intro i v; rfl
  | cons a r ih =>
    intro i v
    cases i with
    | zero => rfl
    | succ i2 => show (a :: updSequence r i2 v).length = _; simp [ih]

theorem updCounter_length : ∀ (l : List HistoryNode) (i : Nat) (v : Int),
    (updCounter l i v).length = l.length := by
  intro l
  induction l with
  | nil => intro i v; rfl
  | cons a r ih =>
    intro i v
    cases i with
    | zero => rfl
    | succ i2 => show (a :: updCounter r i2 v).length = _; simp [ih]

theorem updHash_drop : ∀ (l : List HistoryNode) (s i : Nat) (nh : PohHash), s ≤ i →
    (updHash l i nh).drop s = updHash (l.drop s) (i - s) nh := by
  intro l
  induction l with
  | nil => intro s i nh _; simp [updHash]
  | cons a r ih =>
    intro s i nh hs
    cases s with
    | zero => simp
    | succ s2 =>
      cases i with
      | zero => exact absurd hs (by omega)
      | succ i2 =>
        show (a :: updHash r i2 nh).drop (s2 + 1) =
          updHash ((a :: r).drop (s2 + 1)) (i2 + 1 - (s2 + 1)) nh
        rw [List.drop_succ_cons, List.drop_succ_cons, Nat.succ_sub_succ]
        exact ih s2 i2 nh (by omega)

theorem updHash_take : ∀ (l : List HistoryNode) (i n : Nat) (nh : PohHash), i < n →
    (updHash l i nh).take n = updHash (l.take n) i nh := by
  intro l
  induction l with
  | nil => intro i n nh _; simp [updHash]
  | cons a r ih =>
    intro i n nh hin
    cases i with
    | zero =>
      cases n with
      | zero => exact absurd hin (by omega)
      | succ n2 => rfl
    | succ i2 =>
      cases n with
      | zero => exact absurd hin (by omega)
      | succ n2 =>
        show (a :: updHash r i2 nh).take (n2 + 1) =
          updHash ((a :: r).take (n2 + 1)) (i2 + 1) nh
        rw [List.take_succ_cons, List.take_succ_cons]
        show a :: (updHash r i2 nh).take n2 = a :: updHash (r.take n2) i2 nh
        rw [ih i2 n2 nh (by omega)]

theorem updData_drop : ∀ (l : List HistoryNode) (s i : Nat) (nd : Option String), s ≤ i →
    (updData l i nd).drop s = updData (l.drop s) (i - s) nd := by
  intro l
  induction l with
  | nil => intro s i nd _; simp [updData]
  | cons a r ih =>
    intro s i nd hs
    cases s with
    | zero => simp
    | succ s2 =>
      cases i with
      | zero => exact absurd hs (by omega)
      | succ i2 =>
        show (a :: updData r i2 nd).drop (s2 + 1) =
          updData ((a :: r).drop (s2 + 1)) (i2 + 1 - (s2 + 1)) nd
        rw [List.drop_succ_cons, List.drop_succ_cons, Nat.succ_sub_succ]
        exact ih s2 i2 nd (by omega)

theorem updData_take : ∀ (l : List HistoryNode) (i n : Nat) (nd : Option String), i < n →
    (updData l i nd).take n = updData (l.take n) i nd := by
  intro l
  induction l with
  | nil => intro i n nd _; simp [updData]
  | cons a r ih =>
    intro i n nd hin
    cases i with
    | zero =>
      cases n with
      | zero => exact absurd hin (by omega)
      | succ n2 => rfl
    | succ i2 =>
      cases n with
      | zero => exact absurd hin (by omega)
      | succ n2 =>
        show (a :: updData r i2 nd).take (n2 + 1) =
          updData ((a :: r).take (n2 + 1)) (i2 + 1) nd
        rw [List.take_succ_cons, List.take_succ_cons]
        show a :: (updData r i2 nd).take n2 = a :: updData (r.take n2) i2 nd
        rw [ih i2 n2 nd (by omega)]

theorem getD_drop_take (l : List HistoryNode) (s n j : Nat) (hj : j < n)
    (dflt : HistoryNode) : ((l.drop s).take n).getD j dflt = l.getD (s + j) dflt := by
  rw [List.getD_eq_getElem?_getD, List.getD_eq_getElem?_getD,
    List.getElem?_take_of_lt hj, List.getElem?_drop]

theorem verifySeg_updHash_false (d : Nat) :
    ∀ (l : List HistoryNode) (j : Nat) (nh : PohHash),
      List.Chain' (fun a b => foldData (iterHash d a.hash) b.data = b.hash) l →
      j < l.length → 2 ≤ l.length → nh ≠ (l.getD j genesisNode).hash →
      verifySeg d (updHash l j nh) = false := by
  intro l
  induction l with
  | nil => intro j nh _ hj; simp at hj
  | cons a t ih =>
    intro j nh hch hj hlen hne
    cases t with
    | nil => simp at hlen
    | cons b rest =>
      rcases List.chain'_cons.mp hch with ⟨hab, hch2⟩
      cases j with
      | zero =>
        have hcheck : (foldData (iterHash d nh) b.data == b.hash) = false := by
          rw [beq_eq_false_iff_ne]
          intro he
          apply hne
          show nh = a.hash
          exact iterHash_inj d nh a.hash
            (foldData_inj_hash b.data _ _ (by rw [he, hab]))
        show (foldData (iterHash d nh) b.data == b.hash && verifySeg d (b :: rest)) = false
        rw [hcheck]
        rfl
      | succ j2 =>
        cases j2 with
        | zero =>
          have hcheck : (foldData (iterHash d a.hash) b.data == nh) = false := by
            rw [beq_eq_false_iff_ne]
            intro he
            apply hne
            show nh = b.hash
            rw [← he, hab]
          show (foldData (iterHash d a.hash) b.data == nh &&
            verifySeg d ({ b with hash := nh } :: rest)) = false
          rw [hcheck]
          rfl
        | succ j3 =>
          have hrec : verifySeg d (b :: updHash rest j3 nh) = false := by
            have := ih (j3 + 1) nh hch2 (by simpa using hj) (by
              have hlen2 : j3 + 1 + 1 < (a :: b :: rest).length := hj
              simp at hlen2 ⊢
              omega) (by
              have : ((a :: b :: rest).getD (j3 + 1 + 1) genesisNode) =
                  ((b :: rest).getD (j3 + 1) genesisNode) := rfl
              rw [this] at hne
              exact hne)
            exact this
          show (foldData (iterHash d a.hash) b.data == b.hash &&
            verifySeg d (b :: updHash rest j3 nh)) = false
          rw [hrec]
          simp

theorem verifySeg_updData_false (d : Nat) :
    ∀ (l : List HistoryNode) (j : Nat) (nd : Option String),
      List.Chain' (fun a b => foldData (iterHash d a.hash) b.data = b.hash) l →
      j < l.length → 1 ≤ j → effData nd ≠ effData ((l.getD j genesisNode).data) →
      verifySeg d (updData l j nd) = false := by
  intro l
  induction l with
  | nil => intro j nd _ hj; simp at hj
  | cons a t ih =>
    intro j nd hch hj hj1 hne
    cases t with
    | nil =>
      have : j < 1 := by simpa using hj
      omega
    | cons b rest =>
      rcases List.chain'_cons.mp hch with ⟨hab, hch2⟩
      cases j with
      | zero => omega
      | succ j2 =>
        cases j2 with
        | zero =>
          have hcheck : (foldData (iterHash d a.hash) nd == b.hash) = false := by
            rw [beq_eq_false_iff_ne]
            intro he
            exact foldData_ne_of_effData (iterHash d a.hash) nd b.data hne (by rw [he, hab])
          show (foldData (iterHash d a.hash) nd == b.hash &&
            verifySeg d ({ b with data := nd } :: rest)) = false
          rw [hcheck]
          rfl
        | succ j3 =>
          have hrec : verifySeg d (b :: updData rest j3 nd) = false := by
            have := ih (j3 + 1) nd hch2 (by simpa using hj) (by omega) (by
              have : ((a :: b :: rest).getD (j3 + 1 + 1) genesisNode) =
                  ((b :: rest).getD (j3 + 1) genesisNode) := rfl
              rw [this] at hne
              exact hne)
            exact this
          show (foldData (iterHash d a.hash) b.data == b.hash &&
            verifySeg d (b :: updData rest j3 nd)) = false
          rw [hrec]
          simp

theorem verifySeg_congr (d : Nat) : ∀ l1 l2 : List HistoryNode,
    l1.map (fun n => (n.hash, n.data)) = l2.map (fun n => (n.hash, n.data)) →
    verifySeg d l1 = verifySeg d l2 := by
  intro l1
  induction l1 with
  | nil =>
    intro l2 h
    cases l2 with
    | nil => rfl
    | cons b r2 => simp at h
  | cons a r ih =>
    intro l2 h
    cases l2 with
    | nil => simp at h
    | cons b r2 =>
      simp only [List.map_cons, List.cons.injEq] at h
      obtain ⟨hab, hr⟩ := h
      have hab1 : a.hash = b.hash := congrArg Prod.fst hab
      have hab2 : a.data = b.data := congrArg Prod.snd hab
      cases r with
      | nil =>
        cases r2 with
        | nil => rfl
        | cons c2 r4 => simp at hr
      | cons c r3 =>
        cases r2 with
        | nil => simp at hr
        | cons c2 r4 =>
          have hrmap : (c :: r3).map (fun n => (n.hash, n.data)) =
              (c2 :: r4).map (fun n => (n.hash, n.data)) := hr
          have hhead : (c.hash, c.data) = (c2.hash, c2.data) := by
            simpa using congrArg (fun l => l.headD (PohHash.genesis, none)) hrmap
          have hc1 : c.hash = c2.hash := congrArg Prod.fst hhead
          have hc2 : c.data = c2.data := congrArg Prod.snd hhead
          show (foldData (iterHash d a.hash) c.data == c.hash && verifySeg d (c :: r3)) =
            (foldData (iterHash d b.hash) c2.data == c2.hash && verifySeg d (c2 :: r4))
          rw [hab1, hc1, hc2, ih (c2 :: r4) hrmap]

theorem updTimestamp_proj : ∀ (l : List HistoryNode) (i : Nat) (t : Int),
    (updTimestamp l i t).map (fun n => (n.hash, n.data)) =
      l.map (fun n => (n.hash, n.data)) := by
  intro l
  induction l with
  | nil => intro i t; rfl
  | cons a r ih =>
    intro i t
    cases i with
    | zero => rfl
    | succ i2 =>
      show ((a :: updTimestamp r i2 t).map _) = _
      simp only [List.map_cons]
      rw [ih i2 t]

theorem updSequence_proj : ∀ (l : List HistoryNode) (i : Nat) (v : Int),
    (updSequence l i v).map (fun n => (n.hash, n.data)) =
      l.map (fun n => (n.hash, n.data)) := by
  intro l
  induction l with
  | nil => intro i v; rfl
  | cons a r ih =>
    intro i v
    cases i with
    | zero => rfl
    | succ i2 =>
      show ((a :: updSequence r i2 v).map _) = _
      simp only [List.map_cons]
      rw [ih i2 v]

theorem updCounter_proj : ∀ (l : List HistoryNode) (i : Nat) (v : Int),
    (updCounter l i v).map (fun n => (n.hash, n.data)) =
      l.map (fun n => (n.hash, n.data)) := by
  intro l
  induction l with
  | nil => intro i v; rfl
  | cons a r ih =>
    intro i v
    cases i with
    | zero => rfl
    | succ i2 =>
      show ((a :: updCounter r i2 v).map _) = _
      simp only [List.map_cons]
      rw [ih i2 v]

theorem verify_proj_invariant (d : Nat) (l1 l2 : List HistoryNode)
    (hlen : l1.length = l2.length)
    (hproj : l1.map (fun n => (n.hash, n.data)) = l2.map (fun n => (n.hash, n.data)))
    (s e : Nat) :
    (ProofOfHistory.mk d l1).verify s e = (ProofOfHistory.mk d l2).verify s e := by
  unfold ProofOfHistory.verify
  simp only
  rw [hlen]
  by_cases hb : l2.length ≤ e
  · rw [if_pos hb, if_pos hb]
  · rw [if_neg hb, if_neg hb]
    apply verifySeg_congr
    rw [List.map_take, List.map_drop, hproj, ← List.map_drop, ← List.map_take]

/-- C5 counterexample: on the 3-node history of `c5Poh`, mutating the
`timestamp`, `sequence`, or `counter` field of node 1 (inside the checked
range) leaves `verify 0 2` true, and mutating the `data` field of the
node at the range start leaves `verify 1 2` true — `verify` recomputes
hashes only, so these single-field mutations are not detected, contrary
to the claim. -/
theorem C5_counterexample :
    c5Poh.verify 0 2 = true ∧
    (ProofOfHistory.mk 2 (updTimestamp c5Poh.history 1 99)).verify 0 2 = true ∧
    updTimestamp c5Poh.history 1 99 ≠ c5Poh.history ∧
    (ProofOfHistory.mk 2 (updSequence c5Poh.history 1 99)).verify 0 2 = true ∧
    updSequence c5Poh.history 1 99 ≠ c5Poh.history ∧
    (ProofOfHistory.mk 2 (updCounter c5Poh.history 1 99)).verify 0 2 = true ∧
    updCounter c5Poh.history 1 99 ≠ c5Poh.history ∧
    (ProofOfHistory.mk 2 (updData c5Poh.history 1 (some "evil"))).verify 1 2 = true ∧
    updData c5Poh.history 1 (some "evil") ≠ c5Poh.history :=
  ⟨by decide, by decide, by decide, by decide, by decide, by decide, by decide,
   by decide, by decide⟩

/-- C5 amended: on any tick-generated history and in-range `(s, e)`,
`verify s e` is true untampered; for `s < e`, overwriting the `hash` of
any node in `[s, e]` with a different value, or the `data` of any node in
`[s+1, e]` with a value of different truthiness-normalized content, makes
`verify s e` false; overwriting `timestamp`, `sequence`, or `counter` of
any node never changes the result (it stays true), and the data of the
node at position `s` is outside the checked links. -/
theorem C5_amended (d : Nat) (datas : List (Option String)) (s e : Nat)
    (hrange : e < (runTicks d datas).history.length) :
    (runTicks d datas).verify s e = true ∧
    (∀ i nh, s ≤ i → i ≤ e → s < e →
      nh ≠ ((runTicks d datas).history.getD i genesisNode).hash →
      (ProofOfHistory.mk d (updHash (runTicks d datas).history i nh)).verify s e = false) ∧
    (∀ i nd, s + 1 ≤ i → i ≤ e →
      effData nd ≠ effData (((runTicks d datas).history.getD i genesisNode).data) →
      (ProofOfHistory.mk d (updData (runTicks d datas).history i nd)).verify s e = false) ∧
    (∀ i t,
      (ProofOfHistory.mk d (updTimestamp (runTicks d datas).history i t)).verify s e = true) ∧
    (∀ i v,
      (ProofOfHistory.mk d (updSequence (runTicks d datas).history i v)).verify s e = true) ∧
    (∀ i v,
      (ProofOfHistory.mk d (updCounter (runTicks d datas).history i v)).verify s e = true) := by
  have hbase : (ProofOfHistory.mk d ((runTicks d datas).history)).verify s e = true := by
    unfold ProofOfHistory.verify
    simp only
    rw [if_neg (by omega), verifySeg_iff_chain]
    exact ((runTicks_chain d datas).drop s).take _
  have hchainseg : List.Chain' (fun a b => foldData (iterHash d a.hash) b.data = b.hash)
      (((runTicks d datas).history.drop s).take (e - s + 1)) :=
    ((runTicks_chain d datas).drop s).take _
  refine ⟨runTicks_verify d datas s e hrange, ?_, ?_, ?_, ?_, ?_⟩
  · intro i nh hsi hie hse hne
    unfold ProofOfHistory.verify
    simp only
    rw [if_neg (by rw [updHash_length]; omega)]
    rw [updHash_drop _ s i nh hsi, updHash_take _ (i - s) (e - s + 1) nh (by omega)]
    apply verifySeg_updHash_false d _ (i - s) nh hchainseg
    · rw [List.length_take, List.length_drop]
      omega
    · rw [List.length_take, List.length_drop]
      omega
    · rw [getD_drop_take _ s (e - s + 1) (i - s) (by omega) genesisNode]
      have heq : s + (i - s) = i := by omega
      rw [heq]
      exact hne
  · intro i nd hsi hie hne
    unfold ProofOfHistory.verify
    simp only
    rw [if_neg (by rw [updData_length]; omega)]
    rw [updData_drop _ s i nd (by omega), updData_take _ (i - s) (e - s + 1) nd (by omega)]
    apply verifySeg_updData_false d _ (i - s) nd hchainseg
    · rw [List.length_take, List.length_drop]
      omega
    · omega
    · rw [getD_drop_take _ s (e - s + 1) (i - s) (by omega) genesisNode]
      have heq : s + (i - s) = i := by omega
      rw [heq]
      exact hne
  · intro i t
    rw [verify_proj_invariant d _ _ (updTimestamp_length _ i t) (updTimestamp_proj _ i t) s e]
    exact hbase
  · intro i v
    rw [verify_proj_invariant d _ _ (updSequence_length _ i v) (updSequence_proj _ i v) s e]
    exact hbase
  · intro i v
    rw [verify_proj_invariant d _ _ (updCounter_length _ i v) (updCounter_proj _ i v) s e]
    exact hbase

theorem C5_amended_witness :
    (runTicks 2 [some "a", none]).verify 0 2 = true ∧
    (ProofOfHistory.mk 2
      (updHash (runTicks 2 [some "a", none]).history 1 PohHash.genesis)).verify 0 2 = false ∧
    (ProofOfHistory.mk 2
      (updData (runTicks 2 [some "a", none]).history 1 (some "evil"))).verify 0 2 = false ∧
    (ProofOfHistory.mk 2
      (updTimestamp (runTicks 2 [some "a", none]).history 1 99)).verify 0 2 = true :=
  ⟨(C5_amended 2 [some "a", none] 0 2 (by decide)).1,
   (C5_amended 2 [some "a", none] 0 2 (by decide)).2.1 1 PohHash.genesis
     (by decide) (by decide) (by decide) (by decide),
   (C5_amended 2 [some "a", none] 0 2 (by decide)).2.2.1 1 (some "evil")
     (by decide) (by decide) (by decide),
   (C5_amended 2 [some "a", none] 0 2 (by decide)).2.2.2.1 1 99⟩

/-! ## Claim C8: order lemmas for the heap comparison -/

theorem charToNat_inj (a b : Char) (h : a.toNat = b.toNat) : a = b :=
  Char.ext (UInt32.toNat.inj h)

theorem string_data_ext (a b : String) (h : a.data = b.data) : a = b := by
  cases a
  cases b
  exact congrArg String.mk (by simpa using h)

theorem strLtChars_trichotomy :
    ∀ xs ys : List Char, strLtB.strLtChars xs ys = true ∨ xs = ys ∨
      strLtB.strLtChars ys xs = true := by
  intro xs
  induction xs with
  | nil =>
    intro ys
    cases ys with
    | nil => exact Or.inr (Or.inl rfl)
    | cons d ds => exact Or.inl rfl
  | cons c cs ih =>
    intro ys
    cases ys with
    | nil => exact Or.inr (Or.inr rfl)
    | cons d ds =>
      rcases Nat.lt_trichotomy c.toNat d.toNat with hlt | heq | hgt
      · left
        show (if c.toNat < d.toNat then true
          else if c.toNat = d.toNat then strLtB.strLtChars cs ds else false) = true
        rw [if_pos hlt]
      · have hcd : c = d := charToNat_inj c d heq
        subst hcd
        rcases ih ds with h | h | h
        · left
          show (if c.toNat < c.toNat then true
            else if c.toNat = c.toNat then strLtB.strLtChars cs ds else false) = true
          rw [if_neg (by omega), if_pos rfl]
          exact h
        · exact Or.inr (Or.inl (by rw [h]))
        · right; right
          show (if c.toNat < c.toNat then true
            else if c.toNat = c.toNat then strLtB.strLtChars ds cs else false) = true
          rw [if_neg (by omega), if_pos rfl]
          exact h
      · right; right
        show (if d.toNat < c.toNat then true
          else if d.toNat = c.toNat then strLtB.strLtChars ds cs else false) = true
        rw [if_pos hgt]

theorem strLtChars_trans :
    ∀ xs ys zs : List Char, strLtB.strLtChars xs ys = true →
      strLtB.strLtChars ys zs = true → strLtB.strLtChars xs zs = true := by
  intro xs
  induction xs with
  | nil =>
    intro ys zs h1 h2
    cases ys with
    | nil => exact h2
    | cons d ds =>
      cases zs with
      | nil => cases h2
      | cons e es => rfl
  | cons c cs ih =>
    intro ys zs h1 h2
    cases ys with
    | nil => cases h1
    | cons d ds =>
      cases zs with
      | nil => cases h2
      | cons e es =>
        have hred1 : (if c.toNat < d.toNat then true
            else if c.toNat = d.toNat then strLtB.strLtChars cs ds else false) = true := h1
        have hred2 : (if d.toNat < e.toNat then true
            else if d.toNat = e.toNat then strLtB.strLtChars ds es else false) = true := h2
        show (if c.toNat < e.toNat then true
          else if c.toNat = e.toNat then strLtB.strLtChars cs es else false) = true
        by_cases hcd : c.toNat < d.toNat
        · by_cases hde : d.toNat < e.toNat
          · rw [if_pos (by omega)]
          · rw [if_neg hde] at hred2
            by_cases hde2 : d.toNat = e.toNat
            · rw [if_pos (by omega)]
            · rw [if_neg hde2] at hred2
              cases hred2
        · rw [if_neg hcd] at hred1
          by_cases hcd2 : c.toNat = d.toNat
          · rw [if_pos hcd2] at hred1
            by_cases hde : d.toNat < e.toNat
            · rw [if_pos (by omega)]
            · rw [if_neg hde] at hred2
              by_cases hde2 : d.toNat = e.toNat
              · rw [if_neg (by omega), if_pos (by omega)]
                exact ih ds es hred1 (by rw [if_pos hde2] at hred2; exact hred2)
              · rw [if_neg hde2] at hred2
                cases hred2
          · rw [if_neg hcd2] at hred1
            cases hred1

theorem strLeB_refl (a : String) : strLeB a a = true := by
  unfold strLeB
  simp

theorem strLeB_total (a b : String) : strLeB a b = true ∨ strLeB b a = true := by
  unfold strLeB
  rcases strLtChars_trichotomy a.data b.data with h | h | h
  · left; unfold strLtB; rw [h]; rfl
  · left
    have : a = b := string_data_ext a b h
    subst this
    simp
  · right; unfold strLtB; rw [h]; rfl

theorem strLeB_trans (a b c : String) (h1 : strLeB a b = true) (h2 : strLeB b c = true) :
    strLeB a c = true := by
  unfold strLeB strLtB at h1 h2 ⊢
  simp only [Bool.or_eq_true] at h1 h2
  rcases h1 with hl1 | he1
  · rcases h2 with hl2 | he2
    · rw [strLtChars_trans a.data b.data c.data hl1 hl2]
      rfl
    · have : b = c := beq_iff_eq.mp he2
      subst this
      rw [hl1]
      rfl
  · have hab : a = b := beq_iff_eq.mp he1
    subst hab
    simp only [Bool.or_eq_true]
    exact h2

theorem pqLeB_refl (a : Int × String) : pqLeB a a = true := by
  unfold pqLeB
  simp [strLeB_refl]

theorem pqLeB_total (a b : Int × String) : pqLeB a b = true ∨ pqLeB b a = true := by
  unfold pqLeB
  rcases Int.lt_trichotomy a.1 b.1 with h | h | h
  · left; simp [h]
  · rcases strLeB_total a.2 b.2 with h2 | h2
    · left; simp [h, h2]
    · right; simp [h.symm, h2]
  · right; simp [h]

theorem pqLeB_trans (a b c : Int × String) (h1 : pqLeB a b = true)
    (h2 : pqLeB b c = true) : pqLeB a c = true := by
  unfold pqLeB at h1 h2 ⊢
  simp only [Bool.or_eq_true, Bool.and_eq_true, decide_eq_true_eq] at h1 h2 ⊢
  rcases h1 with h1 | ⟨h1e, h1s⟩
  · rcases h2 with h2 | ⟨h2e, h2s⟩
    · left; omega
    · left; omega
  · rcases h2 with h2 | ⟨h2e, h2s⟩
    · left; omega
    · right
      exact ⟨by omega, strLeB_trans _ _ _ h1s h2s⟩

/-! ## Claim C8: behavior of the pool operations -/

theorem add_reject_invalid (st : TransactionPool) (tx : Transaction)
    (hval : st.validate_transaction tx = false) :
    st.add_transaction tx = some (false, st) := by
  unfold TransactionPool.add_transaction
  rw [hval]
  rfl

theorem add_append (st : TransactionPool) (tx : Transaction)
    (hval : st.validate_transaction tx = true)
    (hroom : st.pending_txs.length < st.max_size) :
    st.add_transaction tx = some (true,
      { st with
        pending_txs := st.pending_txs ++ [tx]
        priority_queue := insertS pqLeB (tx.gas_price, tx.tx_id) st.priority_queue
        total_size := st.total_size + tx.size }) := by
  unfold TransactionPool.add_transaction
  rw [hval]
  simp only [Bool.not_true, Bool.false_eq_true, if_false]
  rw [if_neg (by omega)]

theorem add_reject_full_low (st : TransactionPool) (tx : Transaction) (p : Int)
    (rid : String) (restq : List (Int × String))
    (hval : st.validate_transaction tx = true)
    (hfull : st.max_size ≤ st.pending_txs.length)
    (hpq : st.priority_queue = (p, rid) :: restq)
    (hge : ¬(p < tx.gas_price)) :
    st.add_transaction tx = some (false, st) := by
  unfold TransactionPool.add_transaction
  rw [hval]
  simp only [Bool.not_true, Bool.false_eq_true, if_false]
  rw [if_pos hfull, hpq]
  simp only
  rw [if_neg hge]

theorem add_evict_eq (st : TransactionPool) (tx : Transaction) (p : Int) (rid : String)
    (restq : List (Int × String)) (rtx : Transaction)
    (hval : st.validate_transaction tx = true)
    (hfull : st.max_size ≤ st.pending_txs.length)
    (hpq : st.priority_queue = (p, rid) :: restq)
    (hplt : p < tx.gas_price)
    (hfind : st.pending_txs.find? (fun t => decide (t.tx_id = rid)) = some rtx) :
    st.add_transaction tx = some (true,
      { st with
        pending_txs := st.pending_txs.filter (fun t => decide (t.tx_id ≠ rid)) ++ [tx]
        priority_queue := insertS pqLeB (tx.gas_price, tx.tx_id) restq
        total_size := st.total_size - rtx.size + tx.size }) := by
  unfold TransactionPool.add_transaction
  rw [hval]
  simp only [Bool.not_true, Bool.false_eq_true, if_false]
  rw [if_pos hfull, hpq]
  simp only
  rw [if_pos hplt, hfind]

theorem filter_ne_tx_length :
    ∀ l : List Transaction, (l.map Transaction.tx_id).Nodup →
      ∀ t ∈ l, (l.filter (fun x => decide (x.tx_id ≠ t.tx_id))).length + 1 = l.length := by
  intro l
  induction l with
  | nil => intro _ t ht; simp at ht
  | cons a r ih =>
    intro hnod t ht
    simp only [List.map_cons, List.nodup_cons] at hnod
    rcases hnod with ⟨hanr, hrnod⟩
    rcases List.mem_cons.mp ht with hta | htr
    · subst hta
      have hfil : r.filter (fun x => decide (x.tx_id ≠ t.tx_id)) = r := by
        refine List.filter_eq_self.mpr ?_
        intro x hx
        simp only [decide_eq_true_eq]
        intro hxe
        exact hanr (hxe ▸ List.mem_map_of_mem Transaction.tx_id hx)
      show ((t :: r).filter (fun x => decide (x.tx_id ≠ t.tx_id))).length + 1 = r.length + 1
      rw [List.filter_cons_of_neg (by simp), hfil]
    · have hne : a.tx_id ≠ t.tx_id := by
        intro he
        exact hanr (he ▸ List.mem_map_of_mem Transaction.tx_id htr)
      show ((a :: r).filter (fun x => decide (x.tx_id ≠ t.tx_id))).length + 1 = r.length + 1
      rw [List.filter_cons_of_pos (by simpa using hne)]
      simp only [List.length_cons]
      rw [ih hrnod t htr]

theorem add_crash_full_empty (st : TransactionPool) (tx : Transaction)
    (hval : st.validate_transaction tx = true)
    (hfull : st.max_size ≤ st.pending_txs.length)
    (hpq : st.priority_queue = []) :
    st.add_transaction tx = none := by
  unfold TransactionPool.add_transaction
  rw [hval]
  simp only [Bool.not_true, Bool.false_eq_true, if_false]
  rw [if_pos hfull, hpq]

theorem validate_facts (st : TransactionPool) (tx : Transaction)
    (hval : st.validate_transaction tx = true) :
    st.min_gas_price ≤ tx.gas_price ∧ 0 < tx.size ∧
      ∀ t ∈ st.pending_txs, t.tx_id ≠ tx.tx_id := by
  unfold TransactionPool.validate_transaction at hval
  simp only [Bool.and_eq_true, decide_eq_true_eq, Bool.not_eq_true', List.any_eq_false,
    decide_eq_false_iff_not] at hval
  exact ⟨hval.1.1, hval.1.2, hval.2⟩

theorem wf_head_tx (st : TransactionPool) (hwf : PoolWF st) (p : Int) (rid : String)
    (restq : List (Int × String)) (hpq : st.priority_queue = (p, rid) :: restq) :
    ∃ rtx, st.pending_txs.find? (fun t => decide (t.tx_id = rid)) = some rtx ∧
      rtx ∈ st.pending_txs ∧ rtx.tx_id = rid ∧ rtx.gas_price = p := by
  obtain ⟨hnod, hperm, hsort, hvalid, hlen⟩ := hwf
  have hmem : (p, rid) ∈ st.pending_txs.map (fun t => (t.gas_price, t.tx_id)) := by
    apply hperm.mem_iff.mp
    rw [hpq]
    exact List.mem_cons_self _ _
  rcases List.mem_map.mp hmem with ⟨t0, ht0, ht0e⟩
  have hsome : (st.pending_txs.find? (fun t => decide (t.tx_id = rid))).isSome := by
    rw [List.find?_isSome]
    exact ⟨t0, ht0, by simp [show t0.tx_id = rid from congrArg Prod.snd ht0e]⟩
  rcases Option.isSome_iff_exists.mp hsome with ⟨rtx, hfind⟩
  have hrmem : rtx ∈ st.pending_txs := List.mem_of_find?_eq_some hfind
  have hrid : rtx.tx_id = rid := by simpa using List.find?_some hfind
  have hsndnod : ((st.pending_txs.map (fun t => (t.gas_price, t.tx_id))).map Prod.snd).Nodup := by
    rw [List.map_map]
    exact hnod
  have hpair_eq : (rtx.gas_price, rtx.tx_id) = (p, rid) := by
    apply List.inj_on_of_nodup_map hsndnod
      (List.mem_map_of_mem (fun t => (t.gas_price, t.tx_id)) hrmem) hmem
    show rtx.tx_id = rid
    exact hrid
  exact ⟨rtx, hfind, hrmem, hrid, congrArg Prod.fst hpair_eq⟩

theorem pq_filter_rid (st : TransactionPool) (hwf : PoolWF st) (p : Int) (rid : String)
    (restq : List (Int × String)) (hpq : st.priority_queue = (p, rid) :: restq) :
    List.Perm ((st.pending_txs.filter (fun t => decide (t.tx_id ≠ rid))).map
        (fun t => (t.gas_price, t.tx_id))) restq := by
  obtain ⟨hnod, hperm, hsort, hvalid, hlen⟩ := hwf
  have hmapfil : (st.pending_txs.filter (fun t => decide (t.tx_id ≠ rid))).map
      (fun t => (t.gas_price, t.tx_id)) =
      (st.pending_txs.map (fun t => (t.gas_price, t.tx_id))).filter
        (fun q => decide (q.2 ≠ rid)) := by
    rw [List.filter_map]
    rfl
  have hpermf : List.Perm
      ((st.pending_txs.map (fun t => (t.gas_price, t.tx_id))).filter
        (fun q => decide (q.2 ≠ rid)))
      (st.priority_queue.filter (fun q => decide (q.2 ≠ rid))) :=
    (hperm.filter _).symm
  have hsndnod : (st.priority_queue.map Prod.snd).Nodup := by
    refine (((hperm.map Prod.snd)).nodup_iff).mpr ?_
    rw [List.map_map]
    exact hnod
  have hfilq : st.priority_queue.filter (fun q => decide (q.2 ≠ rid)) = restq := by
    rw [hpq]
    rw [List.filter_cons_of_neg (by simp)]
    refine List.filter_eq_self.mpr ?_
    intro q hq
    simp only [decide_eq_true_eq]
    intro hq2
    rw [hpq] at hsndnod
    simp only [List.map_cons, List.nodup_cons] at hsndnod
    exact hsndnod.1 (hq2 ▸ List.mem_map_of_mem Prod.snd hq)
  rw [hmapfil, ← hfilq]
  exact hpermf

theorem add_wf (st : TransactionPool) (tx : Transaction) (hwf : PoolWF st) :
    ∀ r, st.add_transaction tx = some r → PoolWF r.2 := by
  intro r hr
  by_cases hval : st.validate_transaction tx = true
  case neg =>
    rw [add_reject_invalid st tx (by simpa using hval)] at hr
    cases hr
    exact hwf
  case pos =>
    obtain ⟨hmin, hsize, hfresh⟩ := validate_facts st tx hval
    obtain ⟨hnod, hperm, hsort, hvalid, hlen⟩ := hwf
    by_cases hroom : st.pending_txs.length < st.max_size
    · rw [add_append st tx hval hroom] at hr
      cases hr
      refine ⟨?_, ?_, ?_, ?_, ?_⟩
      · simp only [List.map_append, List.map_cons, List.map_nil]
        rw [List.nodup_append]
        refine ⟨hnod, List.nodup_singleton _, ?_⟩
        intro x hx
        simp only [List.mem_singleton]
        intro he
        rcases List.mem_map.mp hx with ⟨t0, ht0, ht0e⟩
        exact hfresh t0 ht0 (by rw [ht0e, he])
      · show List.Perm (insertS pqLeB (tx.gas_price, tx.tx_id) st.priority_queue)
          ((st.pending_txs ++ [tx]).map (fun t => (t.gas_price, t.tx_id)))
        rw [List.map_append]
        refine ((insertS_perm pqLeB _ st.priority_queue).trans
          (hperm.cons _)).trans ?_
        exact (List.perm_append_singleton _ _).symm
      · exact pairwise_insertS pqLeB pqLeB_total pqLeB_trans _ _ hsort
      · intro t ht
        rcases List.mem_append.mp ht with ht | ht
        · exact hvalid t ht
        · rcases List.mem_singleton.mp ht with rfl
          exact ⟨hmin, hsize⟩
      · rw [List.length_append]
        simpa using hroom
    · have hfull : st.max_size ≤ st.pending_txs.length := by omega
      cases hpq : st.priority_queue with
      | nil =>
        rw [add_crash_full_empty st tx hval hfull hpq] at hr
        cases hr
      | cons pr restq =>
        obtain ⟨p, rid⟩ := pr
        obtain ⟨rtx, hfind, hrmem, hrid, hrgas⟩ := wf_head_tx st
          ⟨hnod, hperm, hsort, hvalid, hlen⟩ p rid restq hpq
        by_cases hplt : p < tx.gas_price
        · rw [add_evict_eq st tx p rid restq rtx hval hfull hpq hplt hfind] at hr
          cases hr
          have hpermtail := pq_filter_rid st ⟨hnod, hperm, hsort, hvalid, hlen⟩ p rid restq hpq
          have hfilnod : ((st.pending_txs.filter (fun t => decide (t.tx_id ≠ rid))).map
              Transaction.tx_id).Nodup := by
            have hsub : (st.pending_txs.filter (fun t => decide (t.tx_id ≠ rid))).Sublist
                st.pending_txs := List.filter_sublist _
            exact (hsub.map Transaction.tx_id).nodup hnod
          refine ⟨?_, ?_, ?_, ?_, ?_⟩
          · simp only [List.map_append, List.map_cons, List.map_nil]
            rw [List.nodup_append]
            refine ⟨hfilnod, List.nodup_singleton _, ?_⟩
            intro x hx
            simp only [List.mem_singleton]
            intro he
            rcases List.mem_map.mp hx with ⟨t0, ht0, ht0e⟩
            exact hfresh t0 (List.mem_of_mem_filter ht0) (by rw [ht0e, he])
          · show List.Perm (insertS pqLeB (tx.gas_price, tx.tx_id) restq)
              (((st.pending_txs.filter (fun t => decide (t.tx_id ≠ rid))) ++ [tx]).map
                (fun t => (t.gas_price, t.tx_id)))
            rw [List.map_append]
            refine ((insertS_perm pqLeB _ restq).trans
              ((hpermtail.symm).cons _)).trans ?_
            exact (List.perm_append_singleton _ _).symm
          · refine pairwise_insertS pqLeB pqLeB_total pqLeB_trans _ _ ?_
            have := hsort
            rw [hpq] at this
            exact this.of_cons
          · intro t ht
            rcases List.mem_append.mp ht with ht | ht
            · exact hvalid t (List.mem_of_mem_filter ht)
            · rcases List.mem_singleton.mp ht with rfl
              exact ⟨hmin, hsize⟩
          · rw [List.length_append]
            have hflen : (st.pending_txs.filter
                (fun t => decide (t.tx_id ≠ rid))).length + 1 = st.pending_txs.length := by
              have := filter_ne_tx_length st.pending_txs hnod rtx hrmem
              rw [hrid] at this
              exact this
            simp only [List.length_cons, List.length_nil]
            omega
        · rw [add_reject_full_low st tx p rid restq hval hfull hpq hplt] at hr
          cases hr
          exact ⟨hnod, hperm, hsort, hvalid, hlen⟩

theorem remove_transactions_wf (st : TransactionPool) (hwf : PoolWF st) :
    ∀ ids : List String, PoolWF (st.remove_transactions ids) := by
  suffices h : ∀ (ids : List String) (st0 : TransactionPool), PoolWF st0 →
      PoolWF (st0.remove_transactions ids) from fun ids => h ids st hwf
  intro ids
  induction ids with
  | nil => intro st0 h0; exact h0
  | cons id rest ih =>
    intro st0 h0
    obtain ⟨hnod, hperm, hsort, hvalid, hlen⟩ := h0
    show PoolWF (TransactionPool.remove_transactions _ rest)
    apply ih
    cases hfind : st0.pending_txs.find? (fun t => decide (t.tx_id = id)) with
    | none =>
      simpa [hfind] using (⟨hnod, hperm, hsort, hvalid, hlen⟩ : PoolWF st0)
    | some tx0 =>
      simp only [hfind]
      have hfilnod : ((st0.pending_txs.filter (fun t => decide (t.tx_id ≠ id))).map
          Transaction.tx_id).Nodup :=
        ((List.filter_sublist _).map Transaction.tx_id).nodup hnod
      refine ⟨hfilnod, ?_, ?_, ?_, ?_⟩
      · show List.Perm (st0.priority_queue.filter (fun q => decide (q.2 ≠ id)))
          ((st0.pending_txs.filter (fun t => decide (t.tx_id ≠ id))).map
            (fun t => (t.gas_price, t.tx_id)))
        have hmapfil : (st0.pending_txs.filter (fun t => decide (t.tx_id ≠ id))).map
            (fun t => (t.gas_price, t.tx_id)) =
            (st0.pending_txs.map (fun t => (t.gas_price, t.tx_id))).filter
              (fun q => decide (q.2 ≠ id)) := by
          rw [List.filter_map]
          rfl
        rw [hmapfil]
        exact hperm.filter _
      · exact hsort.sublist (List.filter_sublist _)
      · intro t ht
        exact hvalid t (List.mem_of_mem_filter ht)
      · exact le_trans ((List.filter_sublist _).length_le) hlen

theorem mk0_wf (m b : Nat) (g : Int) : PoolWF (TransactionPool.mk0 m b g) := by
  refine ⟨?_, ?_, ?_, ?_, ?_⟩ <;> simp [TransactionPool.mk0]

theorem run_wf (m b : Nat) (g : Int) :
    ∀ ops : List PoolOp, PoolWF ((TransactionPool.mk0 m b g).run ops) := by
  suffices h : ∀ (ops : List PoolOp) (st : TransactionPool), PoolWF st →
      PoolWF (st.run ops) from fun ops => h ops _ (mk0_wf m b g)
  intro ops
  induction ops with
  | nil => intro st h0; exact h0
  | cons op rest ih =>
    intro st h0
    cases op with
    | add tx =>
      show PoolWF ((match st.add_transaction tx with
        | none => st
        | some (_, st2) => st2).run rest)
      apply ih
      cases hr : st.add_transaction tx with
      | none => exact h0
      | some r =>
        obtain ⟨b2, st2⟩ := r
        exact add_wf st tx h0 (b2, st2) hr
    | remove ids =>
      show PoolWF (TransactionPool.run (st.remove_transactions ids) rest)
      exact ih _ (remove_transactions_wf st h0 ids)

theorem pq_nonempty_of_full (st : TransactionPool) (hwf : PoolWF st)
    (hm : 1 ≤ st.max_size) (hfull : st.max_size ≤ st.pending_txs.length) :
    st.priority_queue ≠ [] := by
  obtain ⟨hnod, hperm, hsort, hvalid, hlen⟩ := hwf
  intro hnil
  have hl := hperm.length_eq
  rw [hnil] at hl
  simp only [List.length_nil, List.length_map] at hl
  omega

theorem add_full_low (st : TransactionPool) (tx : Transaction) (hwf : PoolWF st)
    (hm : 1 ≤ st.max_size) (hfull : st.max_size ≤ st.pending_txs.length)
    (hgas : tx.gas_price ≤ st.currentMin) :
    st.add_transaction tx = some (false, st) := by
  by_cases hval : st.validate_transaction tx = true
  · cases hpq : st.priority_queue with
    | nil => exact absurd hpq (pq_nonempty_of_full st hwf hm hfull)
    | cons pr restq =>
      obtain ⟨p, rid⟩ := pr
      have hmin : st.currentMin = p := by
        unfold TransactionPool.currentMin
        rw [hpq]
        rfl
      refine add_reject_full_low st tx p rid restq hval hfull hpq ?_
      omega
  · exact add_reject_invalid st tx (by simpa using hval)

theorem add_full_high (st : TransactionPool) (tx : Transaction) (hwf : PoolWF st)
    (hm : 1 ≤ st.max_size) (hfull : st.max_size ≤ st.pending_txs.length)
    (hval : st.validate_transaction tx = true)
    (hgas : st.currentMin < tx.gas_price) :
    ∃ rtx ∈ st.pending_txs,
      rtx.gas_price = st.currentMin ∧
      (∀ t ∈ st.pending_txs, rtx.gas_price ≤ t.gas_price) ∧
      (∀ t ∈ st.pending_txs,
        pqLeB (rtx.gas_price, rtx.tx_id) (t.gas_price, t.tx_id) = true) ∧
      ∃ st2, st.add_transaction tx = some (true, st2) ∧
        st2.pending_txs =
          st.pending_txs.filter (fun t => decide (t.tx_id ≠ rtx.tx_id)) ++ [tx] ∧
        st2.pending_txs.length = st.pending_txs.length := by
  obtain ⟨hnod, hperm, hsort, hvalid, hlen⟩ := hwf
  cases hpq : st.priority_queue with
  | nil => exact absurd hpq (pq_nonempty_of_full st ⟨hnod, hperm, hsort, hvalid, hlen⟩ hm hfull)
  | cons pr restq =>
    obtain ⟨p, rid⟩ := pr
    have hmin : st.currentMin = p := by
      unfold TransactionPool.currentMin
      rw [hpq]
      rfl
    obtain ⟨rtx, hfind, hrmem, hrid, hrgas⟩ := wf_head_tx st
      ⟨hnod, hperm, hsort, hvalid, hlen⟩ p rid restq hpq
    have hminimal : ∀ t ∈ st.pending_txs,
        pqLeB (rtx.gas_price, rtx.tx_id) (t.gas_price, t.tx_id) = true := by
      intro t ht
      have hpair : (t.gas_price, t.tx_id) ∈ st.priority_queue := by
        apply hperm.mem_iff.mpr
        exact List.mem_map_of_mem (fun t => (t.gas_price, t.tx_id)) ht
      rw [hpq] at hpair
      rw [hrgas, hrid]
      rcases List.mem_cons.mp hpair with hpair | hpair
      · rw [← hpair]
        exact pqLeB_refl _
      · have := hsort
        rw [hpq] at this
        exact (List.pairwise_cons.mp this).1 _ hpair
    refine ⟨rtx, hrmem, by rw [hrgas, hmin], ?_, hminimal, ?_⟩
    · intro t ht
      have := hminimal t ht
      unfold pqLeB at this
      simp only [Bool.or_eq_true, Bool.and_eq_true, decide_eq_true_eq] at this
      rcases this with h | ⟨h, _⟩
      · omega
      · omega
    · refine ⟨_, add_evict_eq st tx p rid restq rtx hval hfull hpq (by omega) hfind, ?_, ?_⟩
      · rw [hrid]
      · show (st.pending_txs.filter (fun t => decide (t.tx_id ≠ rid)) ++ [tx]).length =
          st.pending_txs.length
        rw [List.length_append]
        have hflen := filter_ne_tx_length st.pending_txs hnod rtx hrmem
        rw [hrid] at hflen
        simp only [List.length_cons, List.length_nil]
        omega

theorem add_crash_find_none (st : TransactionPool) (tx : Transaction) (p : Int)
    (rid : String) (restq : List (Int × String))
    (hval : st.validate_transaction tx = true)
    (hfull : st.max_size ≤ st.pending_txs.length)
    (hpq : st.priority_queue = (p, rid) :: restq)
    (hplt : p < tx.gas_price)
    (hfind : st.pending_txs.find? (fun t => decide (t.tx_id = rid)) = none) :
    st.add_transaction tx = none := by
  unfold TransactionPool.add_transaction
  rw [hval]
  simp only [Bool.not_true, Bool.false_eq_true, if_false]
  rw [if_pos hfull, hpq]
  simp only
  rw [if_pos hplt, hfind]

theorem add_config (st : TransactionPool) (tx : Transaction) :
    ∀ r, st.add_transaction tx = some r →
      r.2.max_size = st.max_size ∧ r.2.min_gas_price = st.min_gas_price := by
  intro r hr
  by_cases hval : st.validate_transaction tx = true
  · by_cases hroom : st.pending_txs.length < st.max_size
    · rw [add_append st tx hval hroom] at hr
      cases hr
      exact ⟨rfl, rfl⟩
    · have hfull : st.max_size ≤ st.pending_txs.length := by omega
      cases hpq : st.priority_queue with
      | nil =>
        rw [add_crash_full_empty st tx hval hfull hpq] at hr
        cases hr
      | cons pr restq =>
        obtain ⟨p, rid⟩ := pr
        by_cases hplt : p < tx.gas_price
        · cases hfind : st.pending_txs.find? (fun t => decide (t.tx_id = rid)) with
          | none =>
            rw [add_crash_find_none st tx p rid restq hval hfull hpq hplt hfind] at hr
            cases hr
          | some rtx =>
            rw [add_evict_eq st tx p rid restq rtx hval hfull hpq hplt hfind] at hr
            cases hr
            exact ⟨rfl, rfl⟩
        · rw [add_reject_full_low st tx p rid restq hval hfull hpq hplt] at hr
          cases hr
          exact ⟨rfl, rfl⟩
  · rw [add_reject_invalid st tx (by simpa using hval)] at hr
    cases hr
    exact ⟨rfl, rfl⟩

theorem remove_config :
    ∀ (ids : List String) (st : TransactionPool),
      (st.remove_transactions ids).max_size = st.max_size ∧
      (st.remove_transactions ids).min_gas_price = st.min_gas_price := by
  intro ids
  induction ids with
  | nil => intro st; exact ⟨rfl, rfl⟩
  | cons id rest ih =>
    intro st
    show (TransactionPool.remove_transactions _ rest).max_size = _ ∧
      (TransactionPool.remove_transactions _ rest).min_gas_price = _
    cases hfind : st.pending_txs.find? (fun t => decide (t.tx_id = id)) with
    | none => simpa [hfind] using ih st
    | some tx0 =>
      rcases ih { st with
        pending_txs := st.pending_txs.filter (fun t => decide (t.tx_id ≠ id))
        total_size := st.total_size - tx0.size
        priority_queue := st.priority_queue.filter (fun p => decide (p.2 ≠ id)) } with ⟨h1, h2⟩
      simp only [hfind]
      exact ⟨h1, h2⟩

theorem run_config (m b : Nat) (g : Int) :
    ∀ ops : List PoolOp, ((TransactionPool.mk0 m b g).run ops).max_size = m ∧
      ((TransactionPool.mk0 m b g).run ops).min_gas_price = g := by
  suffices h : ∀ (ops : List PoolOp) (st : TransactionPool),
      (st.run ops).max_size = st.max_size ∧ (st.run ops).min_gas_price = st.min_gas_price by
    intro ops
    exact h ops (TransactionPool.mk0 m b g)
  intro ops
  induction ops with
  | nil => intro st; exact ⟨rfl, rfl⟩
  | cons op rest ih =>
    intro st
    cases op with
    | add tx =>
      show ((match st.add_transaction tx with
        | none => st
        | some (_, st2) => st2).run rest).max_size = _ ∧
        ((match st.add_transaction tx with
          | none => st
          | some (_, st2) => st2).run rest).min_gas_price = _
      cases hr : st.add_transaction tx with
      | none => exact ih st
      | some r =>
        obtain ⟨b2, st2⟩ := r
        rcases ih st2 with ⟨h1, h2⟩
        rcases add_config st tx (b2, st2) hr with ⟨h3, h4⟩
        exact ⟨by rw [h1]; exact h3, by rw [h2]; exact h4⟩
    | remove ids =>
      show ((st.remove_transactions ids).run rest).max_size = _ ∧
        ((st.remove_transactions ids).run rest).min_gas_price = _
      rcases ih (st.remove_transactions ids) with ⟨h1, h2⟩
      rcases remove_config ids st with ⟨h3, h4⟩
      exact ⟨by rw [h1]; exact h3, by rw [h2]; exact h4⟩

/-- C8 amended: for pools with `max_size ≥ 1`, over every call sequence:
the pending count never exceeds `max_size`; at capacity, a transaction
whose gas price is not above the heap minimum is rejected with the pool
unchanged; and at capacity a transaction that passes validation (fresh
tx id, positive size, admissible gas price) and strictly exceeds the
heap minimum is admitted, evicting exactly the pending transaction that
is minimal in `(gas_price, tx_id)` order (its gas price is the pool
minimum), leaving the pending count unchanged.  An invalid transaction —
e.g. a duplicate tx id — is rejected even above the minimum (see the
counterexample). -/
theorem C8_amended (m b : Nat) (g : Int) (ops : List PoolOp) (tx2 tx3 : Transaction)
    (hm : 1 ≤ m) :
    ((TransactionPool.mk0 m b g).run ops).pending_txs.length ≤ m ∧
    (m ≤ ((TransactionPool.mk0 m b g).run ops).pending_txs.length →
      tx2.gas_price ≤ ((TransactionPool.mk0 m b g).run ops).currentMin →
      ((TransactionPool.mk0 m b g).run ops).add_transaction tx2 =
        some (false, (TransactionPool.mk0 m b g).run ops)) ∧
    (m ≤ ((TransactionPool.mk0 m b g).run ops).pending_txs.length →
      ((TransactionPool.mk0 m b g).run ops).validate_transaction tx3 = true →
      ((TransactionPool.mk0 m b g).run ops).currentMin < tx3.gas_price →
      ∃ rtx ∈ ((TransactionPool.mk0 m b g).run ops).pending_txs,
        rtx.gas_price = ((TransactionPool.mk0 m b g).run ops).currentMin ∧
        (∀ t ∈ ((TransactionPool.mk0 m b g).run ops).pending_txs,
          rtx.gas_price ≤ t.gas_price) ∧
        (∀ t ∈ ((TransactionPool.mk0 m b g).run ops).pending_txs,
          pqLeB (rtx.gas_price, rtx.tx_id) (t.gas_price, t.tx_id) = true) ∧
        ∃ st2, ((TransactionPool.mk0 m b g).run ops).add_transaction tx3 =
            some (true, st2) ∧
          st2.pending_txs = ((TransactionPool.mk0 m b g).run ops).pending_txs.filter
            (fun t => decide (t.tx_id ≠ rtx.tx_id)) ++ [tx3] ∧
          st2.pending_txs.length =
            ((TransactionPool.mk0 m b g).run ops).pending_txs.length) := by
  have hwf := run_wf m b g ops
  rcases run_config m b g ops with ⟨hms, hgs⟩
  refine ⟨?_, ?_, ?_⟩
  · have := hwf.2.2.2.2
    rw [hms] at this
    exact this
  · intro hfull hgas
    exact add_full_low _ tx2 hwf (by rw [hms]; exact hm) (by rw [hms]; exact hfull) hgas
  · intro hfull hval hgas
    exact add_full_high _ tx3 hwf (by rw [hms]; exact hm) (by rw [hms]; exact hfull) hval hgas

theorem C8_amended_witness :
    (((TransactionPool.mk0 1 10 1).run [PoolOp.add c8T1]).pending_txs.length ≤ 1) ∧
    (((TransactionPool.mk0 1 10 1).run [PoolOp.add c8T1]).add_transaction
        { tx_id := "c", data := "", timestamp := 0, gas_price := 1, size := 1 } =
      some (false, (TransactionPool.mk0 1 10 1).run [PoolOp.add c8T1])) ∧
    (∃ rtx ∈ ((TransactionPool.mk0 1 10 1).run [PoolOp.add c8T1]).pending_txs,
      rtx.gas_price = ((TransactionPool.mk0 1 10 1).run [PoolOp.add c8T1]).currentMin ∧
      (∀ t ∈ ((TransactionPool.mk0 1 10 1).run [PoolOp.add c8T1]).pending_txs,
        rtx.gas_price ≤ t.gas_price) ∧
      (∀ t ∈ ((TransactionPool.mk0 1 10 1).run [PoolOp.add c8T1]).pending_txs,
        pqLeB (rtx.gas_price, rtx.tx_id) (t.gas_price, t.tx_id) = true) ∧
      ∃ st2, ((TransactionPool.mk0 1 10 1).run [PoolOp.add c8T1]).add_transaction c8T2 =
          some (true, st2) ∧
        st2.pending_txs = ((TransactionPool.mk0 1 10 1).run [PoolOp.add c8T1]).pending_txs.filter
          (fun t => decide (t.tx_id ≠ rtx.tx_id)) ++ [c8T2] ∧
        st2.pending_txs.length =
          ((TransactionPool.mk0 1 10 1).run [PoolOp.add c8T1]).pending_txs.length) :=
  ⟨(C8_amended 1 10 1 [PoolOp.add c8T1]
      { tx_id := "c", data := "", timestamp := 0, gas_price := 1, size := 1 } c8T2
      (by decide)).1,
   (C8_amended 1 10 1 [PoolOp.add c8T1]
      { tx_id := "c", data := "", timestamp := 0, gas_price := 1, size := 1 } c8T2
      (by decide)).2.1 (by decide) (by decide),
   (C8_amended 1 10 1 [PoolOp.add c8T1]
      { tx_id := "c", data := "", timestamp := 0, gas_price := 1, size := 1 } c8T2
      (by decide)).2.2 (by decide) (by decide) (by decide)⟩

/-! ## Claim C9: helpers -/

theorem keysNodup_setA [DecidableEq κ] (m : List (κ × α)) (k : κ) (v : α)
    (hk : KeysNodup m) : KeysNodup (setA m k v) := by
  unfold setA
  by_cases hany : m.any (fun p => decide (p.1 = k)) = true
  · rw [if_pos hany]
    unfold KeysNodup
    have hmap : (m.map (fun p => if p.1 = k then (k, v) else p)).map Prod.fst =
        m.map Prod.fst := by
      rw [List.map_map]
      apply List.map_congr_left
      intro p _
      by_cases hp : p.1 = k
      · simp [hp]
      · simp [hp]
    rw [hmap]
    exact hk
  · rw [if_neg hany]
    unfold KeysNodup
    rw [List.map_append]
    rw [List.nodup_append]
    refine ⟨hk, by simp, ?_⟩
    intro x hx
    simp only [List.map_cons, List.map_nil, List.mem_singleton]
    intro hxk
    rcases List.mem_map.mp hx with ⟨p, hp, hpe⟩
    exact hany (List.any_eq_true.mpr ⟨p, hp, by simp [hpe, hxk]⟩)

theorem assoc_mem_iff_lookup [DecidableEq κ] {m : List (κ × α)} (hk : KeysNodup m)
    (p : κ × α) : p ∈ m ↔ lookupA m p.1 = some p.2 := by
  constructor
  · intro hp
    cases hlk : lookupA m p.1 with
    | none =>
      rw [lookupA_eq_none_iff] at hlk
      exact absurd rfl (hlk p hp)
    | some v =>
      have hmem2 : (p.1, v) ∈ m := lookupA_mem hlk
      have := keysNodup_unique hk hp hmem2 rfl
      rw [this]
  · intro hlk
    have hmem2 : (p.1, p.2) ∈ m := lookupA_mem hlk
    simpa using hmem2

theorem mem_getA_nil [DecidableEq κ] {m : List (κ × List α)} {k : κ} {v : α}
    (h : v ∈ getA m k []) : ∃ s, lookupA m k = some s ∧ v ∈ s := by
  unfold getA at h
  cases hlk : lookupA m k with
  | none => rw [hlk] at h; simp at h
  | some s =>
    rw [hlk] at h
    exact ⟨s, rfl, h⟩

theorem disjoint_lookup {m : List (Nat × List String)} (hdisj : ShardsDisjoint m)
    {k1 k2 : Nat} {s1 s2 : List String}
    (h1 : lookupA m k1 = some s1) (h2 : lookupA m k2 = some s2) (hne : k1 ≠ k2) :
    ∀ v ∈ s1, v ∉ s2 := by
  intro v hv
  exact hdisj (k1, s1) (lookupA_mem h1) (k2, s2) (lookupA_mem h2) hne v hv

theorem foldl_pick_mem {α : Type} (g : Option α → α → Option α)
    (hg : ∀ acc x, g acc x = some x ∨ g acc x = acc) :
    ∀ (l : List α) (acc : Option α) (p : α),
      l.foldl g acc = some p → acc = some p ∨ p ∈ l := by
  intro l
  induction l with
  | nil => intro acc p h; exact Or.inl h
  | cons x rest ih =>
    intro acc p h
    rw [List.foldl_cons] at h
    rcases ih (g acc x) p h with hs | hs
    · rcases hg acc x with hgx | hgx
      · rw [hgx] at hs
        cases hs
        exact Or.inr (List.mem_cons_self _ _)
      · rw [hgx] at hs
        exact Or.inl hs
    · exact Or.inr (List.mem_cons_of_mem x hs)

theorem find_donor_spec (st : ShardManager) (target : Nat) (donor : String)
    (h : st.find_donor_validator target = some donor) :
    ∃ c ∈ st.shard_validators, c.1 ≠ target ∧ donor ∈ c.2 := by
  unfold ShardManager.find_donor_validator at h
  simp only at h
  cases hbest : (st.shard_validators.filter (fun p => decide (p.1 ≠ target) &&
      decide (st.min_validators_per_shard < p.2.length))).foldl
      (fun acc p =>
        match acc with
        | none => some p
        | some q => if st.stakeOf q.2 < st.stakeOf p.2 then some p else acc) none with
  | none => rw [hbest] at h; cases h
  | some c =>
    rw [hbest] at h
    have hg : ∀ (acc : Option (Nat × List String)) (x : Nat × List String),
        (match acc with
          | none => some x
          | some q => if st.stakeOf q.2 < st.stakeOf x.2 then some x else acc) = some x ∨
        (match acc with
          | none => some x
          | some q => if st.stakeOf q.2 < st.stakeOf x.2 then some x else acc) = acc := by
      intro acc x
      cases acc with
      | none => exact Or.inl rfl
      | some q =>
        by_cases hf : st.stakeOf q.2 < st.stakeOf x.2
        · exact Or.inl (by simp only [if_pos hf])
        · exact Or.inr (by simp only [if_neg hf])
    have hcmem := foldl_pick_mem _ hg _ none c hbest
    rcases hcmem with hc | hc
    · cases hc
    · rcases List.mem_filter.mp hc with ⟨hcm, hcp⟩
      simp only [Bool.and_eq_true, decide_eq_true_eq] at hcp
      refine ⟨c, hcm, hcp.1, ?_⟩
      have h2 : c.2.head? = some donor := h
      cases hcv : c.2 with
      | nil => rw [hcv] at h2; cases h2
      | cons v vs =>
        rw [hcv] at h2
        have hvd : v = donor := by simpa using h2
        rw [← hvd]
        exact List.mem_cons_self _ _

theorem getA_eq_of_lookup [DecidableEq κ] {m : List (κ × α)} {k : κ} {s : α}
    (h : lookupA m k = some s) (d : α) : getA m k d = s := by
  unfold getA
  rw [h]

theorem move_step_inv (st : ShardManager) (target : Nat) (donor : String)
    (hdisj : ShardsDisjoint st.shard_validators) (hcons : SMConsistent st)
    (hkeys : KeysNodup st.shard_validators)
    (c : Nat × List String) (hcm : c ∈ st.shard_validators) (hct : c.1 ≠ target)
    (hdc : donor ∈ c.2)
    (old : Nat) (hold : old = (getA st.assignments donor (dfltAssignment donor)).shard_id)
    (m1 : List (Nat × List String))
    (hm1 : m1 = setA st.shard_validators old
      ((getA st.shard_validators old []).filter (fun w => decide (w ≠ donor))))
    (m2 : List (Nat × List String))
    (hm2 : m2 = setA m1 target
      (if donor ∈ getA m1 target [] then getA m1 target []
        else getA m1 target [] ++ [donor])) :
    ShardsDisjoint m2 ∧ KeysNodup m2 ∧
      SMConsistent { st with
        shard_validators := m2
        assignments := setA st.assignments donor
          { getA st.assignments donor (dfltAssignment donor) with shard_id := target } } := by
  -- the donor's recorded shard is the shard that actually holds it
  have holdc : old = c.1 := by rw [hold, hcons c hcm donor hdc]
  have hlc : lookupA st.shard_validators c.1 = some c.2 :=
    (assoc_mem_iff_lookup hkeys c).mp hcm
  have hlold : lookupA st.shard_validators old = some c.2 := by rw [holdc]; exact hlc
  have holdset : getA st.shard_validators old [] = c.2 := getA_eq_of_lookup hlold []
  have hot : old ≠ target := by rw [holdc]; exact hct
  -- lookups in m1
  have hl1old : lookupA m1 old = some (c.2.filter (fun w => decide (w ≠ donor))) := by
    rw [hm1, holdset]; exact lookupA_setA_self _ _ _
  have hl1ne : ∀ k, k ≠ old → lookupA m1 k = lookupA st.shard_validators k := by
    intro k hk
    rw [hm1]; exact lookupA_setA_ne _ _ _ _ hk
  have htgt1 : getA m1 target [] = getA st.shard_validators target [] := by
    unfold getA
    rw [hl1ne target hot.symm]
  -- the donor is not in the target set
  have hdnt : donor ∉ getA m1 target [] := by
    rw [htgt1]
    intro hmem
    rcases mem_getA_nil hmem with ⟨s, hls, hds⟩
    exact disjoint_lookup hdisj hlold hls hot donor hdc hds
  have hm2' : m2 = setA m1 target (getA m1 target [] ++ [donor]) := by
    rw [hm2, if_neg hdnt]
  have hkeys1 : KeysNodup m1 := by rw [hm1]; exact keysNodup_setA _ _ _ hkeys
  have hkeys2 : KeysNodup m2 := by rw [hm2']; exact keysNodup_setA _ _ _ hkeys1
  -- lookups in m2
  have hl2tgt : lookupA m2 target = some (getA m1 target [] ++ [donor]) := by
    rw [hm2']; exact lookupA_setA_self _ _ _
  have hl2old : lookupA m2 old = some (c.2.filter (fun w => decide (w ≠ donor))) := by
    rw [hm2', lookupA_setA_ne _ _ _ _ hot]
    exact hl1old
  have hl2ne : ∀ k, k ≠ old → k ≠ target →
      lookupA m2 k = lookupA st.shard_validators k := by
    intro k hko hkt
    rw [hm2', lookupA_setA_ne _ _ _ _ hkt]
    exact hl1ne k hko
  -- membership facts about the new target set
  have hmem_tgt : ∀ v, v ∈ getA m1 target [] ++ [donor] →
      (∃ s, lookupA st.shard_validators target = some s ∧ v ∈ s) ∨ v = donor := by
    intro v hv
    rcases List.mem_append.mp hv with hv | hv
    · rw [htgt1] at hv
      exact Or.inl (mem_getA_nil hv)
    · exact Or.inr (by simpa using hv)
  have hmem_filter : ∀ v, v ∈ c.2.filter (fun w => decide (w ≠ donor)) →
      v ∈ c.2 ∧ v ≠ donor := by
    intro v hv
    rcases List.mem_filter.mp hv with ⟨h1, h2⟩
    exact ⟨h1, by simpa using h2⟩
  have hdisj2 : ShardsDisjoint m2 := by
    intro p hp q hq hpq v hv
    have hlp := (assoc_mem_iff_lookup hkeys2 p).mp hp
    have hlq := (assoc_mem_iff_lookup hkeys2 q).mp hq
    by_cases hpt : p.1 = target
    · -- p is the target entry
      rw [hpt, hl2tgt] at hlp
      have hp2 : p.2 = getA m1 target [] ++ [donor] := by
        exact (Option.some.inj hlp).symm
      rw [hp2] at hv
      rcases hmem_tgt v hv with ⟨s, hls, hvs⟩ | hvd
      · by_cases hqo : q.1 = old
        · rw [hqo, hl2old] at hlq
          have hq2 : q.2 = c.2.filter (fun w => decide (w ≠ donor)) := by
            exact (Option.some.inj hlq).symm
          rw [hq2]
          intro hvq
          exact disjoint_lookup hdisj hls hlold (Ne.symm hot) v hvs (hmem_filter v hvq).1
        · have hqt : q.1 ≠ target := by rw [← hpt]; exact Ne.symm hpq
          rw [hl2ne q.1 hqo hqt] at hlq
          exact disjoint_lookup hdisj hls hlq (Ne.symm hqt) v hvs
      · by_cases hqo : q.1 = old
        · rw [hqo, hl2old] at hlq
          have hq2 : q.2 = c.2.filter (fun w => decide (w ≠ donor)) := by
            exact (Option.some.inj hlq).symm
          rw [hq2]
          intro hvq
          exact (hmem_filter v hvq).2 hvd
        · have hqt : q.1 ≠ target := by rw [← hpt]; exact Ne.symm hpq
          rw [hl2ne q.1 hqo hqt] at hlq
          rw [hvd]
          exact disjoint_lookup hdisj hlold hlq (fun he => hqo he.symm) donor hdc
    · by_cases hpo : p.1 = old
      · -- p is the donor's old entry
        rw [hpo, hl2old] at hlp
        have hp2 : p.2 = c.2.filter (fun w => decide (w ≠ donor)) := by
          exact (Option.some.inj hlp).symm
        rw [hp2] at hv
        rcases hmem_filter v hv with ⟨hvc, hvd⟩
        by_cases hqt : q.1 = target
        · rw [hqt, hl2tgt] at hlq
          have hq2 : q.2 = getA m1 target [] ++ [donor] := by
            exact (Option.some.inj hlq).symm
          rw [hq2]
          intro hvq
          rcases hmem_tgt v hvq with ⟨s, hls, hvs⟩ | hvd2
          · exact disjoint_lookup hdisj hlold hls hot v hvc hvs
          · exact hvd hvd2
        · have hqo : q.1 ≠ old := by rw [← hpo]; exact Ne.symm hpq
          rw [hl2ne q.1 hqo hqt] at hlq
          exact disjoint_lookup hdisj hlold hlq (fun he => hqo he.symm) v hvc
      · -- p is an untouched entry
        rw [hl2ne p.1 hpo hpt] at hlp
        by_cases hqt : q.1 = target
        · rw [hqt, hl2tgt] at hlq
          have hq2 : q.2 = getA m1 target [] ++ [donor] := by
            exact (Option.some.inj hlq).symm
          rw [hq2]
          intro hvq
          rcases hmem_tgt v hvq with ⟨s, hls, hvs⟩ | hvd
          · exact disjoint_lookup hdisj hlp hls (by rw [← hqt]; exact hpq) v hv hvs
          · rw [hvd] at hv
            exact disjoint_lookup hdisj hlold hlp (fun he => hpo he.symm) donor hdc hv
        · by_cases hqo : q.1 = old
          · rw [hqo, hl2old] at hlq
            have hq2 : q.2 = c.2.filter (fun w => decide (w ≠ donor)) := by
              exact (Option.some.inj hlq).symm
            rw [hq2]
            intro hvq
            exact disjoint_lookup hdisj hlp hlold (by rw [← hqo]; exact hpq) v hv
              (hmem_filter v hvq).1
          · rw [hl2ne q.1 hqo hqt] at hlq
            exact disjoint_lookup hdisj hlp hlq hpq v hv
  refine ⟨hdisj2, hkeys2, ?_⟩
  -- consistency of the updated manager
  intro p hp v hv
  have hlp := (assoc_mem_iff_lookup hkeys2 p).mp hp
  show (getA (setA st.assignments donor
      { getA st.assignments donor (dfltAssignment donor) with shard_id := target })
    v (dfltAssignment v)).shard_id = p.1
  by_cases hpt : p.1 = target
  · rw [hpt, hl2tgt] at hlp
    have hp2 : p.2 = getA m1 target [] ++ [donor] := by exact (Option.some.inj hlp).symm
    rw [hp2] at hv
    rcases hmem_tgt v hv with ⟨s, hls, hvs⟩ | hvd
    · have hvd : v ≠ donor := by
        intro he
        rw [he] at hvs
        have : donor ∈ getA m1 target [] := by
          rw [htgt1, getA_eq_of_lookup hls]
          exact hvs
        exact hdnt this
      rw [getA_setA_ne _ _ _ _ _ hvd, hpt]
      exact hcons (target, s) (lookupA_mem hls) v hvs
    · rw [hvd, getA_setA_self, hpt]
  · by_cases hpo : p.1 = old
    · rw [hpo, hl2old] at hlp
      have hp2 : p.2 = c.2.filter (fun w => decide (w ≠ donor)) := by exact (Option.some.inj hlp).symm
      rw [hp2] at hv
      rcases hmem_filter v hv with ⟨hvc, hvd⟩
      rw [getA_setA_ne _ _ _ _ _ hvd, hpo, holdc]
      exact hcons c hcm v hvc
    · rw [hl2ne p.1 hpo hpt] at hlp
      have hvd : v ≠ donor := by
        intro he
        rw [he] at hv
        exact disjoint_lookup hdisj hlold hlp (fun h2 => hpo h2.symm) donor hdc hv
      rw [getA_setA_ne _ _ _ _ _ hvd]
      exact hcons (p.1, p.2) (lookupA_mem hlp) v hv

theorem rebalanceLoop_inv :
    ∀ (fuel : Nat) (st : ShardManager) (target : Nat) (tn td cur : Int),
      ShardsDisjoint st.shard_validators → SMConsistent st →
      KeysNodup st.shard_validators →
      ShardsDisjoint (st.rebalanceLoop fuel target tn td cur).shard_validators ∧
      SMConsistent (st.rebalanceLoop fuel target tn td cur) ∧
      KeysNodup (st.rebalanceLoop fuel target tn td cur).shard_validators := by
  intro fuel
  induction fuel with
  | zero =>
    intro st target tn td cur h1 h2 h3
    exact ⟨h1, h2, h3⟩
  | succ n ih =>
    intro st target tn td cur h1 h2 h3
    show _ ∧ _ ∧ _
    unfold ShardManager.rebalanceLoop
    by_cases hcond : cur * td < tn
    · rw [if_pos hcond]
      cases hfd : st.find_donor_validator target with
      | none => exact ⟨h1, h2, h3⟩
      | some donor =>
        rcases find_donor_spec st target donor hfd with ⟨c, hcm, hct, hdc⟩
        have hstep := move_step_inv st target donor h1 h2 h3 c hcm hct hdc _ rfl _ rfl _ rfl
        exact ih _ target tn td _ hstep.1 hstep.2.2 hstep.2.1
    · rw [if_neg hcond]
      exact ⟨h1, h2, h3⟩

theorem rebalance_shards_inv (st : ShardManager) (fuel : Nat) (st2 : ShardManager)
    (h : st.rebalance_shards fuel = some st2)
    (h1 : ShardsDisjoint st.shard_validators) (h2 : SMConsistent st)
    (h3 : KeysNodup st.shard_validators) :
    ShardsDisjoint st2.shard_validators := by
  unfold ShardManager.rebalance_shards at h
  by_cases hc : st.shard_count = 0
  · rw [if_pos hc] at h
    cases h
  · rw [if_neg hc] at h
    have h' := Option.some.inj h
    have hfold : ∀ (l : List (Nat × Int)) (acc : ShardManager),
        ShardsDisjoint acc.shard_validators → SMConsistent acc →
        KeysNodup acc.shard_validators →
        ShardsDisjoint ((l.foldl
          (fun acc m =>
            if m.2 * (st.shard_count : Int) * 10 <
                (((List.range st.shard_count).map
                  (fun i => (i, st.stakeOf (getA st.shard_validators i [])))).map
                  Prod.snd).sum * 8 then
              acc.rebalance_shard fuel m.1
                ((((List.range st.shard_count).map
                  (fun i => (i, st.stakeOf (getA st.shard_validators i [])))).map
                  Prod.snd).sum) (st.shard_count : Int)
            else acc)
          acc).shard_validators) := by
      intro l
      induction l with
      | nil => intro acc ha1 _ _; exact ha1
      | cons x rest ihl =>
        intro acc ha1 ha2 ha3
        rw [List.foldl_cons]
        by_cases hx : x.2 * (st.shard_count : Int) * 10 <
            (((List.range st.shard_count).map
              (fun i => (i, st.stakeOf (getA st.shard_validators i [])))).map
              Prod.snd).sum * 8
        · rw [if_pos hx]
          have hr := rebalanceLoop_inv fuel acc x.1
            ((((List.range st.shard_count).map
              (fun i => (i, st.stakeOf (getA st.shard_validators i [])))).map
              Prod.snd).sum) (st.shard_count : Int)
            (acc.stakeOf (getA acc.shard_validators x.1 [])) ha1 ha2 ha3
          exact ihl _ hr.1 hr.2.1 hr.2.2
        · rw [if_neg hx]
          exact ihl acc ha1 ha2 ha3
    rw [← h']
    exact hfold _ st h1 h2 h3

theorem timeShardsDisjoint_iff (tsm : TimeShardingManager) :
    TimeShardsDisjoint tsm ↔
      ∀ p ∈ tsm.shards, ∀ q ∈ tsm.shards, p.1 ≠ q.1 →
        ∀ v ∈ p.2.validators, v ∉ q.2.validators := by
  unfold TimeShardsDisjoint ShardsDisjoint
  constructor
  · intro h p hp q hq hne v hv
    exact h (p.1, p.2.validators) (List.mem_map.mpr ⟨p, hp, rfl⟩)
      (q.1, q.2.validators) (List.mem_map.mpr ⟨q, hq, rfl⟩) hne v hv
  · intro h p hp q hq hne v hv
    rcases List.mem_map.mp hp with ⟨p0, hp0, hpe⟩
    rcases List.mem_map.mp hq with ⟨q0, hq0, hqe⟩
    rw [← hpe, ← hqe] at hne
    rw [← hpe] at hv
    rw [← hqe]
    exact h p0 hp0 q0 hq0 hne v hv

theorem redistribute_step_disjoint (shards : List (Nat × Shard))
    (hdisj0 : ∀ p ∈ shards, ∀ q ∈ shards, p.1 ≠ q.1 → ∀ v ∈ p.2.validators, v ∉ q.2.validators)
    (hkeys : KeysNodup shards)
    (from_shard to_shard : Nat) (source target : Shard) (moved : List String)
    (hsrc : lookupA shards from_shard = some source)
    (hmoved : moved = source.validators.take (source.validators.length / 3))
    (shards1 : List (Nat × Shard))
    (hshards1 : shards1 = setA shards from_shard { source with validators := source.validators.filter (fun v => decide (v ∉ moved)) })
    (htgt : lookupA shards1 to_shard = some target)
    (shards2 : List (Nat × Shard))
    (hshards2 : shards2 = setA shards1 to_shard { target with validators := target.validators ++ moved.filter (fun v => decide (v ∉ target.validators)) }) :
    ∀ p ∈ shards2, ∀ q ∈ shards2, p.1 ≠ q.1 → ∀ v ∈ p.2.validators, v ∉ q.2.validators := by
  have hkeys1 : KeysNodup shards1 := by rw [hshards1]; exact keysNodup_setA _ _ _ hkeys
  have hkeys2 : KeysNodup shards2 := by rw [hshards2]; exact keysNodup_setA _ _ _ hkeys1
  have hsrc_mem : (from_shard, source) ∈ shards := lookupA_mem hsrc
  have hmoved_sub : ∀ w, w ∈ moved → w ∈ source.validators := by
    intro w hw
    rw [hmoved] at hw
    exact List.take_subset _ _ hw
  have hl2to : lookupA shards2 to_shard = some { target with validators := target.validators ++ moved.filter (fun v => decide (v ∉ target.validators)) } := by
    rw [hshards2]
    exact lookupA_setA_self _ _ _
  have hl2ne : ∀ k, k ≠ to_shard → k ≠ from_shard → lookupA shards2 k = lookupA shards k := by
    intro k hkt hkf
    rw [hshards2, lookupA_setA_ne _ _ _ _ hkt, hshards1, lookupA_setA_ne _ _ _ _ hkf]
  have hl2from : from_shard ≠ to_shard → lookupA shards2 from_shard = some { source with validators := source.validators.filter (fun v => decide (v ∉ moved)) } := by
    intro hft
    rw [hshards2, lookupA_setA_ne _ _ _ _ hft, hshards1]
    exact lookupA_setA_self _ _ _
  have hnew_cases : ∀ w, w ∈ target.validators ++ moved.filter (fun v => decide (v ∉ target.validators)) → w ∈ target.validators ∨ w ∈ moved := by
    intro w hw
    rcases List.mem_append.mp hw with hw | hw
    · exact Or.inl hw
    · exact Or.inr (List.mem_of_mem_filter hw)
  have hsrc_cases : ∀ w, w ∈ source.validators.filter (fun v => decide (v ∉ moved)) → w ∈ source.validators ∧ w ∉ moved := by
    intro w hw
    rcases List.mem_filter.mp hw with ⟨h1, h2⟩
    exact ⟨h1, by simpa using h2⟩
  intro p hp q hq hne v hv
  have hlp := (assoc_mem_iff_lookup hkeys2 p).mp hp
  have hlq := (assoc_mem_iff_lookup hkeys2 q).mp hq
  by_cases hft : from_shard = to_shard
  · -- aliasing: the target is re-read after the source shrink
    have htgt_eq : target = { source with validators := source.validators.filter (fun v => decide (v ∉ moved)) } := by
      rw [hshards1, hft] at htgt
      rw [lookupA_setA_self] at htgt
      exact (Option.some.inj htgt).symm
    have hnew_sub : ∀ w, w ∈ target.validators ++ moved.filter (fun v => decide (v ∉ target.validators)) → w ∈ source.validators := by
      intro w hw
      rcases hnew_cases w hw with hw | hw
      · rw [htgt_eq] at hw
        exact List.mem_of_mem_filter hw
      · exact hmoved_sub w hw
    by_cases hpt : p.1 = to_shard
    · rw [hpt, hl2to] at hlp
      have hp2 := (Option.some.inj hlp).symm
      have hqt : q.1 ≠ to_shard := by rw [← hpt]; exact Ne.symm hne
      have hqf : q.1 ≠ from_shard := by rw [hft]; exact hqt
      rw [hl2ne q.1 hqt hqf] at hlq
      have hvsrc : v ∈ source.validators := by
        rw [hp2] at hv
        exact hnew_sub v hv
      exact hdisj0 (from_shard, source) hsrc_mem (q.1, q.2) (lookupA_mem hlq)
        (by rw [hft]; exact hqt.symm) v hvsrc
    · have hpf : p.1 ≠ from_shard := by rw [hft]; exact hpt
      rw [hl2ne p.1 hpt hpf] at hlp
      by_cases hqt : q.1 = to_shard
      · rw [hqt, hl2to] at hlq
        have hq2 := (Option.some.inj hlq).symm
        rw [hq2]
        intro hvq
        exact hdisj0 (p.1, p.2) (lookupA_mem hlp) (from_shard, source) hsrc_mem
          (by rw [hft]; exact hpt) v hv (hnew_sub v hvq)
      · have hqf : q.1 ≠ from_shard := by rw [hft]; exact hqt
        rw [hl2ne q.1 hqt hqf] at hlq
        exact hdisj0 (p.1, p.2) (lookupA_mem hlp) (q.1, q.2) (lookupA_mem hlq) hne v hv
  · -- distinct source and target shards
    have htgt_orig : lookupA shards to_shard = some target := by
      rw [hshards1, lookupA_setA_ne _ _ _ _ (Ne.symm hft)] at htgt
      exact htgt
    have htgt_mem : (to_shard, target) ∈ shards := lookupA_mem htgt_orig
    by_cases hpt : p.1 = to_shard
    · rw [hpt, hl2to] at hlp
      have hp2 := (Option.some.inj hlp).symm
      rw [hp2] at hv
      by_cases hqf : q.1 = from_shard
      · rw [hqf, hl2from hft] at hlq
        have hq2 := (Option.some.inj hlq).symm
        rw [hq2]
        intro hvq
        rcases hsrc_cases v hvq with ⟨hvsrc, hvnm⟩
        rcases hnew_cases v hv with hvt | hvm
        · exact hdisj0 (to_shard, target) htgt_mem (from_shard, source) hsrc_mem
            (Ne.symm hft) v hvt hvsrc
        · exact hvnm hvm
      · have hqt : q.1 ≠ to_shard := by rw [← hpt]; exact Ne.symm hne
        rw [hl2ne q.1 hqt hqf] at hlq
        rcases hnew_cases v hv with hvt | hvm
        · exact hdisj0 (to_shard, target) htgt_mem (q.1, q.2) (lookupA_mem hlq)
            hqt.symm v hvt
        · exact hdisj0 (from_shard, source) hsrc_mem (q.1, q.2) (lookupA_mem hlq)
            (fun he => hqf he.symm) v (hmoved_sub v hvm)
    · by_cases hpf : p.1 = from_shard
      · rw [hpf, hl2from hft] at hlp
        have hp2 := (Option.some.inj hlp).symm
        rw [hp2] at hv
        rcases hsrc_cases v hv with ⟨hvsrc, hvnm⟩
        by_cases hqt : q.1 = to_shard
        · rw [hqt, hl2to] at hlq
          have hq2 := (Option.some.inj hlq).symm
          rw [hq2]
          intro hvq
          rcases hnew_cases v hvq with hvt | hvm
          · exact hdisj0 (from_shard, source) hsrc_mem (to_shard, target) htgt_mem
              hft v hvsrc hvt
          · exact hvnm hvm
        · have hqf : q.1 ≠ from_shard := by rw [← hpf]; exact Ne.symm hne
          rw [hl2ne q.1 hqt hqf] at hlq
          exact hdisj0 (from_shard, source) hsrc_mem (q.1, q.2) (lookupA_mem hlq)
            (fun he => hqf he.symm) v hvsrc
      · rw [hl2ne p.1 hpt hpf] at hlp
        by_cases hqt : q.1 = to_shard
        · rw [hqt, hl2to] at hlq
          have hq2 := (Option.some.inj hlq).symm
          rw [hq2]
          intro hvq
          rcases hnew_cases v hvq with hvt | hvm
          · exact hdisj0 (p.1, p.2) (lookupA_mem hlp) (to_shard, target) htgt_mem
              hpt v hv hvt
          · exact hdisj0 (p.1, p.2) (lookupA_mem hlp) (from_shard, source) hsrc_mem
              hpf v hv (hmoved_sub v hvm)
        · by_cases hqf : q.1 = from_shard
          · rw [hqf, hl2from hft] at hlq
            have hq2 := (Option.some.inj hlq).symm
            rw [hq2]
            intro hvq
            exact hdisj0 (p.1, p.2) (lookupA_mem hlp) (from_shard, source) hsrc_mem
              hpf v hv (hsrc_cases v hvq).1
          · rw [hl2ne q.1 hqt hqf] at hlq
            exact hdisj0 (p.1, p.2) (lookupA_mem hlp) (q.1, q.2) (lookupA_mem hlq)
              hne v hv

theorem redistribute_inv (tsm : TimeShardingManager) (from_shard to_shard : Nat)
    (tsm2 : TimeShardingManager)
    (h : redistribute_validators tsm from_shard to_shard = some tsm2)
    (hdisj : TimeShardsDisjoint tsm) (hkeys : KeysNodup tsm.shards) :
    TimeShardsDisjoint tsm2 := by
  have hdisj0 := (timeShardsDisjoint_iff tsm).mp hdisj
  unfold redistribute_validators at h
  cases hsrc : lookupA tsm.shards from_shard with
  | none => rw [hsrc] at h; cases h
  | some source =>
    rw [hsrc] at h
    dsimp only at h
    by_cases htc : source.validators.length / 3 < 1
    · rw [if_pos htc] at h
      have h' := Option.some.inj h
      rw [← h']
      exact hdisj
    · rw [if_neg htc] at h
      cases htgt : lookupA (setA tsm.shards from_shard { source with validators := source.validators.filter (fun v => decide (v ∉ source.validators.take (source.validators.length / 3))) }) to_shard with
      | none => rw [htgt] at h; cases h
      | some target =>
        rw [htgt] at h
        dsimp only at h
        have h' := Option.some.inj h
        rw [timeShardsDisjoint_iff]
        have hsh2 : tsm2.shards = setA (setA tsm.shards from_shard { source with validators := source.validators.filter (fun v => decide (v ∉ source.validators.take (source.validators.length / 3))) }) to_shard { target with validators := target.validators ++ (source.validators.take (source.validators.length / 3)).filter (fun v => decide (v ∉ target.validators)) } := by
          rw [← h']
        rw [hsh2]
        exact redistribute_step_disjoint tsm.shards hdisj0 hkeys from_shard to_shard
          source target _ hsrc rfl _ rfl htgt _ rfl

theorem split_step_disjoint (shards : List (Nat × Shard))
    (hdisj0 : ∀ p ∈ shards, ∀ q ∈ shards, p.1 ≠ q.1 → ∀ v ∈ p.2.validators, v ∉ q.2.validators)
    (hkeys : KeysNodup shards)
    (sid : Nat) (shard : Shard)
    (hsrc : lookupA shards sid = some shard)
    (hnod : shard.validators.Nodup)
    (mid nid : Nat)
    (shards1 : List (Nat × Shard))
    (hshards1 : shards1 = setA shards sid { shard with validators := shard.validators.take mid })
    (shards2 : List (Nat × Shard))
    (hshards2 : shards2 = setA shards1 nid { shard_id := nid, validators := shard.validators.drop mid, time_slots := [], transactions := [] }) :
    ∀ p ∈ shards2, ∀ q ∈ shards2, p.1 ≠ q.1 → ∀ v ∈ p.2.validators, v ∉ q.2.validators := by
  have hkeys1 : KeysNodup shards1 := by rw [hshards1]; exact keysNodup_setA _ _ _ hkeys
  have hkeys2 : KeysNodup shards2 := by rw [hshards2]; exact keysNodup_setA _ _ _ hkeys1
  have hsrc_mem : (sid, shard) ∈ shards := lookupA_mem hsrc
  have hdisj_td : (shard.validators.take mid).Disjoint (shard.validators.drop mid) := by
    have hsplit : (shard.validators.take mid ++ shard.validators.drop mid).Nodup := by
      rw [List.take_append_drop]
      exact hnod
    exact (List.nodup_append.mp hsplit).2.2
  have hl2nid : lookupA shards2 nid = some { shard_id := nid, validators := shard.validators.drop mid, time_slots := [], transactions := [] } := by
    rw [hshards2]
    exact lookupA_setA_self _ _ _
  have hl2sid : sid ≠ nid → lookupA shards2 sid = some { shard with validators := shard.validators.take mid } := by
    intro hsn
    rw [hshards2, lookupA_setA_ne _ _ _ _ hsn, hshards1]
    exact lookupA_setA_self _ _ _
  have hl2other : ∀ k, k ≠ nid → k ≠ sid → lookupA shards2 k = lookupA shards k := by
    intro k hkn hks
    rw [hshards2, lookupA_setA_ne _ _ _ _ hkn, hshards1, lookupA_setA_ne _ _ _ _ hks]
  intro p hp q hq hne v hv
  have hlp := (assoc_mem_iff_lookup hkeys2 p).mp hp
  have hlq := (assoc_mem_iff_lookup hkeys2 q).mp hq
  by_cases hpn : p.1 = nid
  · rw [hpn, hl2nid] at hlp
    have hp2 := (Option.some.inj hlp).symm
    rw [hp2] at hv
    have hvdrop : v ∈ shard.validators.drop mid := hv
    have hqn : q.1 ≠ nid := by rw [← hpn]; exact Ne.symm hne
    by_cases hqs : q.1 = sid
    · have hsn : sid ≠ nid := by rw [← hqs]; exact hqn
      rw [hqs, hl2sid hsn] at hlq
      have hq2 := (Option.some.inj hlq).symm
      rw [hq2]
      intro hvq
      have hvtake : v ∈ shard.validators.take mid := hvq
      exact hdisj_td hvtake hvdrop
    · rw [hl2other q.1 hqn hqs] at hlq
      exact hdisj0 (sid, shard) hsrc_mem (q.1, q.2) (lookupA_mem hlq)
        (fun he => hqs he.symm) v (List.drop_subset _ _ hvdrop)
  · by_cases hps : p.1 = sid
    · have hsn : sid ≠ nid := by rw [← hps]; exact hpn
      rw [hps, hl2sid hsn] at hlp
      have hp2 := (Option.some.inj hlp).symm
      rw [hp2] at hv
      have hvtake : v ∈ shard.validators.take mid := hv
      by_cases hqn : q.1 = nid
      · rw [hqn, hl2nid] at hlq
        have hq2 := (Option.some.inj hlq).symm
        rw [hq2]
        intro hvq
        have hvdrop : v ∈ shard.validators.drop mid := hvq
        exact hdisj_td hvtake hvdrop
      · have hqs : q.1 ≠ sid := by rw [← hps]; exact Ne.symm hne
        rw [hl2other q.1 hqn hqs] at hlq
        exact hdisj0 (sid, shard) hsrc_mem (q.1, q.2) (lookupA_mem hlq)
          (fun he => hqs he.symm) v (List.take_subset _ _ hvtake)
    · rw [hl2other p.1 hpn hps] at hlp
      by_cases hqn : q.1 = nid
      · rw [hqn, hl2nid] at hlq
        have hq2 := (Option.some.inj hlq).symm
        rw [hq2]
        intro hvq
        have hvdrop : v ∈ shard.validators.drop mid := hvq
        exact hdisj0 (p.1, p.2) (lookupA_mem hlp) (sid, shard) hsrc_mem
          hps v hv (List.drop_subset _ _ hvdrop)
      · by_cases hqs : q.1 = sid
        · have hsn : sid ≠ nid := by rw [← hqs]; exact hqn
          rw [hqs, hl2sid hsn] at hlq
          have hq2 := (Option.some.inj hlq).symm
          rw [hq2]
          intro hvq
          have hvtake : v ∈ shard.validators.take mid := hvq
          exact hdisj0 (p.1, p.2) (lookupA_mem hlp) (sid, shard) hsrc_mem
            hps v hv (List.take_subset _ _ hvtake)
        · rw [hl2other q.1 hqn hqs] at hlq
          exact hdisj0 (p.1, p.2) (lookupA_mem hlp) (q.1, q.2) (lookupA_mem hlq) hne v hv

theorem split_inv (tsm : TimeShardingManager) (shard_id : Nat)
    (tsm2 : TimeShardingManager)
    (h : split_shard tsm shard_id = some tsm2)
    (hdisj : TimeShardsDisjoint tsm) (hkeys : KeysNodup tsm.shards)
    (hnodup : ∀ p ∈ tsm.shards, p.2.validators.Nodup) :
    TimeShardsDisjoint tsm2 := by
  have hdisj0 := (timeShardsDisjoint_iff tsm).mp hdisj
  unfold split_shard at h
  cases hsrc : lookupA tsm.shards shard_id with
  | none => rw [hsrc] at h; cases h
  | some shard =>
    rw [hsrc] at h
    dsimp only at h
    have h' := Option.some.inj h
    rw [timeShardsDisjoint_iff]
    have hsh2 : tsm2.shards = setA (setA tsm.shards shard_id { shard with validators := shard.validators.take (shard.validators.length / 2) }) tsm.shards.length { shard_id := tsm.shards.length, validators := shard.validators.drop (shard.validators.length / 2), time_slots := [], transactions := [] } := by
      rw [← h']
    rw [hsh2]
    exact split_step_disjoint tsm.shards hdisj0 hkeys shard_id shard hsrc
      (hnodup (shard_id, shard) (lookupA_mem hsrc)) _ _ _ rfl _ rfl

/-- Claim C9: starting from any state whose shard-to-validator sets are
pairwise disjoint (together with the bookkeeping facts the code
maintains: dict keys are unique, `ShardManager.assignments` points each
listed validator back at its shard, and each `Shard`'s validator set is
duplicate-free), every rebalancing operation — `ShardManager`'s
`rebalance_shards` as well as the dynamic manager's validator
redistribution and shard splitting — preserves pairwise disjointness of
the shards' validator sets. -/
theorem C9_disjointness_preserved
    (st : ShardManager) (tsm : TimeShardingManager)
    (h1 : ShardsDisjoint st.shard_validators) (h2 : SMConsistent st)
    (h3 : KeysNodup st.shard_validators)
    (h4 : TimeShardsDisjoint tsm) (h5 : KeysNodup tsm.shards)
    (h6 : ∀ p ∈ tsm.shards, p.2.validators.Nodup) :
    (∀ fuel st2, st.rebalance_shards fuel = some st2 →
      ShardsDisjoint st2.shard_validators) ∧
    (∀ from_shard to_shard tsm2,
      redistribute_validators tsm from_shard to_shard = some tsm2 →
      TimeShardsDisjoint tsm2) ∧
    (∀ shard_id tsm2, split_shard tsm shard_id = some tsm2 →
      TimeShardsDisjoint tsm2) := by
  refine ⟨?_, ?_, ?_⟩
  · intro fuel st2 h
    exact rebalance_shards_inv st fuel st2 h h1 h2 h3
  · intro f t tsm2 h
    exact redistribute_inv tsm f t tsm2 h h4 h5
  · intro sid tsm2 h
    exact split_inv tsm sid tsm2 h h4 h5 h6

theorem C9_disjointness_preserved_witness :
    ShardsDisjoint ((c9Sm.rebalance_shards 4).getD c9Sm).shard_validators ∧
    TimeShardsDisjoint ((redistribute_validators c9Tsm 0 1).getD c9Tsm) ∧
    TimeShardsDisjoint ((split_shard c9Tsm 0).getD c9Tsm) := by
  have hmain := C9_disjointness_preserved c9Sm c9Tsm
    (by unfold ShardsDisjoint; decide)
    (by unfold SMConsistent; decide)
    (by unfold KeysNodup; decide)
    (by unfold TimeShardsDisjoint ShardsDisjoint; decide)
    (by unfold KeysNodup; decide)
    (by decide)
  refine ⟨?_, ?_, ?_⟩
  · exact hmain.1 4 _ rfl
  · exact hmain.2.1 0 1 _ rfl
  · exact hmain.2.2 0 _ rfl
